import Mathlib

/-!
Two-phase parallel minimum reduction (`reduction.hpp`, `main.cpp`).

A shallow embedding of the generic reduction engine `parallel_reduce_1d`, of the
minimum reduction `reduceSYCLGeneric` built on it, of the hand-written variant
`reduceSYCLNonGeneric` and of the sequential oracle `reduceSTL`.

Modelling conventions.

* Buffers and local scratch memory are lists; an access outside a list is an
  abort of the run, so every operation that touches memory returns an `Option`.
* `size_t` values are natural numbers; the two places where the program computes
  with caller-supplied sizes (`N * N`, and `to - from` in `Range1D`) wrap at
  `2 ^ 64`.  Device capabilities are natural numbers whose C++ types are declared
  by the SYCL headers, outside the repository; products of them are exact.
* Every `double` the program handles is an integer-valued finite number (an
  element `i + 1` converted from `size_t`, the constant `0`, or `DOUBLE_MAX`) and
  `fmin` of two such values is their minimum, so doubles are modelled by `Int`.
  The type `F64` holds all values of `double`, the infinities and NaN included,
  for the statements about `fmin` on values the program never produces.
* Work-groups of a kernel launch run one after the other in an order the caller
  of the model chooses (`sched`); inside a group the workers run in local-id
  order between two barriers.
* Scratch memory is handed out holding an arbitrary value `junk` in every slot.
-/

namespace ReductionSycl

/-! ## Memory -/

/-- Indexed read of a buffer or of scratch memory; `none` outside of it. -/
def readAt {α : Type} (xs : List α) (i : Nat) : Option α := xs[i]?

/-- Indexed write of a buffer or of scratch memory; `none` outside of it. -/
def writeAt {α : Type} (xs : List α) (i : Nat) (v : α) : Option (List α) :=
  if i < xs.length then some (xs.set i v) else none

/-! ## `reduction.hpp` -/

/-- The state a kernel body reaches through `LocalReducer`: the group's scratch
memory `local` and the global buffer behind the accessor `result`.  In
`reduceSYCLGeneric` the accessor `actual` is bound to the same buffer. -/
structure LocalReducer (α : Type) where
  localMem : List α
  result : List α
deriving DecidableEq, Repr

/-- The read accessor `actual`, which the allocator of `reduceSYCLGeneric` takes
on the buffer `result`. -/
def LocalReducer.actual {α : Type} (r : LocalReducer α) : List α := r.result

/-- The method `drain` of `LocalReducer`: `local[lid] = result[gid]`. -/
def LocalReducer.drain {α : Type} (r : LocalReducer α) (lid gid : Nat) :
    Option (LocalReducer α) :=
  match readAt r.result gid with
  | none => none
  | some v =>
    match writeAt r.localMem lid v with
    | none => none
    | some l => some { r with localMem := l }

/-- The value type `Range1D`. -/
structure Range1D where
  from_ : Nat
  to_ : Nat
  size : Nat
deriving DecidableEq, Repr

/-- The constructor of `Range1D`: `size` is `to - from` in `size_t` arithmetic
and the two assertions abort the construction. -/
def Range1D.make (from_ to_ : Nat) : Option Range1D :=
  let size := (to_ + 2 ^ 64 - from_) % 2 ^ 64
  if from_ < to_ then
    if size ≠ 0 then some { from_ := from_, to_ := to_, size := size } else none
  else none

/-- The capabilities of the device that the sizing code queries. -/
structure Device where
  is_cpu : Bool
  max_compute_units : Nat
  native_vector_width_double : Nat
  max_work_group_size : Nat
deriving DecidableEq, Repr

/-- The sizing code of `parallel_reduce_1d` (lines 62 to 76): the pair
`(dotNumGroups, dotWgsize)` for a range of `n` elements. -/
def sizing (dev : Device) (n : Nat) : Nat × Nat :=
  let p : Nat × Nat :=
    if dev.is_cpu then (dev.max_compute_units, dev.native_vector_width_double * 2)
    else (dev.max_compute_units * 4, dev.max_work_group_size)
  (min n p.1, p.2)

/-- The five callbacks handed to `parallel_reduce_1d`. -/
structure Callbacks (α : Type) where
  allocator : Nat → List α → LocalReducer α
  empty : LocalReducer α → Nat → Option (LocalReducer α)
  functor : LocalReducer α → Nat → Nat → Option (LocalReducer α)
  combiner : LocalReducer α → Nat → Nat → Option (LocalReducer α)
  finaliser : LocalReducer α → Nat → Nat → Option (LocalReducer α)

/-- The grid-stride loop of one worker:
`for (; globalId < n; globalId += globalSize) functor(ctx, localId, from + globalId)`.
The loop runs at most `n` times when `globalSize` is positive; `fuel` counts
the remaining iterations. -/
def strideLoop {α : Type} (cb : Callbacks α) (localId from_ n globalSize : Nat) :
    Nat → Nat → LocalReducer α → Option (LocalReducer α)
  | fuel, globalId, ctx =>
    if globalId < n then
      match fuel with
      | 0 => none
      | fuel + 1 =>
        match cb.functor ctx localId (from_ + globalId) with
        | none => none
        | some ctx1 => strideLoop cb localId from_ n globalSize fuel (globalId + globalSize) ctx1
    else some ctx

/-- The code of one worker up to the first barrier: seed the worker's scratch
slot, then fold the elements it owns. -/
def workerFold {α : Type} (cb : Callbacks α) (range : Range1D) (numGroups wgsize group : Nat)
    (ctx : LocalReducer α) (localId : Nat) : Option (LocalReducer α) :=
  match cb.empty ctx localId with
  | none => none
  | some ctx1 =>
    strideLoop cb localId range.from_ range.size (numGroups * wgsize) range.size
      (group * wgsize + localId) ctx1

/-- One round of the tree combine, after its barrier: every worker with
`localId < offset` runs `combiner(ctx, localId, localId + offset)`. -/
def combineRound {α : Type} (cb : Callbacks α) (wgsize offset : Nat) (ctx : LocalReducer α) :
    Option (LocalReducer α) :=
  (List.range wgsize).foldlM
    (fun c localId => if localId < offset then cb.combiner c localId (localId + offset) else some c)
    ctx

/-- The halving loop `for (offset = localSize / 2; offset > 0; offset /= 2)`,
entered with the current `offset`; `fuel` bounds the number of rounds. -/
def treeLoop {α : Type} (cb : Callbacks α) (wgsize : Nat) :
    Nat → Nat → LocalReducer α → Option (LocalReducer α)
  | fuel, offset, ctx =>
    if 0 < offset then
      match fuel with
      | 0 => none
      | fuel + 1 =>
        match combineRound cb wgsize offset ctx with
        | none => none
        | some ctx1 => treeLoop cb wgsize fuel (offset / 2) ctx1
    else some ctx

/-- One work-group of the first kernel: all workers seed and fold, the halving
rounds follow, and the worker with local id 0 publishes the group's result with
`finaliser(ctx, group * dotWgsize, 0)`.  Returns the global buffer. -/
def runGroup {α : Type} (cb : Callbacks α) (range : Range1D) (numGroups wgsize : Nat)
    (mem : List α) (group : Nat) : Option (List α) :=
  match (List.range wgsize).foldlM (workerFold cb range numGroups wgsize group)
      (cb.allocator wgsize mem) with
  | none => none
  | some ctx1 =>
    match treeLoop cb wgsize wgsize (wgsize / 2) ctx1 with
    | none => none
    | some ctx2 =>
      match cb.finaliser ctx2 (group * wgsize) 0 with
      | none => none
      | some ctx3 => some ctx3.result

/-- The first kernel launch, `nd_range(dotNumGroups * dotWgsize, dotWgsize)`: the
groups named by `sched` run one after the other.  A launch with an empty
work-group is rejected. -/
def phase1 {α : Type} (cb : Callbacks α) (range : Range1D) (numGroups wgsize : Nat)
    (sched : List Nat) (mem : List α) : Option (List α) :=
  if wgsize = 0 then none
  else sched.foldlM (runGroup cb range numGroups wgsize) mem

/-- The second kernel launch: one worker seeds slot 0, drains the partial
results, combines them into slot 0 and publishes slot 0 at index 0. -/
def phase2 {α : Type} (cb : Callbacks α) (numGroups wgsize : Nat) (mem : List α) :
    Option (List α) :=
  match cb.empty (cb.allocator numGroups mem) 0 with
  | none => none
  | some ctx1 =>
    match (List.range numGroups).foldlM (fun c i => LocalReducer.drain c i (i * wgsize)) ctx1 with
    | none => none
    | some ctx2 =>
      match (List.range' 1 (numGroups - 1)).foldlM (fun c i => cb.combiner c 0 i) ctx2 with
      | none => none
      | some ctx3 =>
        match cb.finaliser ctx3 0 0 with
        | none => none
        | some ctx4 => some ctx4.result

/-- The engine `parallel_reduce_1d`: sizing, first launch, second launch.
Returns the global buffer after both kernels. -/
def parallel_reduce_1d {α : Type} (dev : Device) (sched : List Nat) (range : Range1D)
    (cb : Callbacks α) (mem : List α) : Option (List α) :=
  let dotNumGroups := (sizing dev range.size).1
  let dotWgsize := (sizing dev range.size).2
  match phase1 cb range dotNumGroups dotWgsize sched mem with
  | none => none
  | some mem1 => phase2 cb dotNumGroups dotWgsize mem1

/-! ## `main.cpp` -/

/-- The conversion of a `size_t` value to `double`: exact below `2 ^ 53`, and
rounded to the nearest value with a 53-bit significand (ties to even) above. -/
def toDouble (k : Nat) : Int :=
  if k < 2 ^ 53 then (k : Int)
  else
    let e := Nat.log2 k - 52
    let q := k / 2 ^ e
    let r := k % 2 ^ e
    let h := 2 ^ (e - 1)
    let q1 := if h < r ∨ (r = h ∧ q % 2 = 1) then q + 1 else q
    ((q1 * 2 ^ e : Nat) : Int)

/-- The constant `DOUBLE_MAX`, the largest finite `double`: `2 ^ 1024 - 2 ^ 971`,
written out in decimal. -/
def DOUBLE_MAX : Int :=
  179769313486231570814527423731704356798070567525844996598917476803157260780028538760589558632766878171540458953514382464234321326889464182768467546703537516986049910576551282076245490090389328944075868508455133942304583236903222948165808559332123348274797826204144723168738177180919299881250404026184124858368

/-- The function `sycl::fmin` on the finite values the program handles. -/
def fmin (a b : Int) : Int := if b < a then b else a

/-- The value `*std::min_element(xs.begin(), xs.end())`: the smallest element of
a non-empty list; dereferencing the end iterator of an empty one aborts. -/
def min_element : List Int → Option Int
  | [] => none
  | x :: xs => some (xs.foldl (fun m y => if y < m then y else m) x)

/-- The sequential oracle `reduceSTL`: fill `xs[i] = i + 1`, store `0` at index
1, return the smallest element. -/
def reduceSTL (N : Nat) : Option Int :=
  let size := (N * N) % 2 ^ 64
  let xs := (List.range size).map (fun i => toDouble (i + 1))
  match writeAt xs 1 0 with
  | none => none
  | some xs1 => min_element xs1

/-- The buffer built by `prepareSYCLBuffer`:
`xs[idx] = idx == 1 ? 0 : idx + 1`. -/
def prepareSYCLBuffer (size : Nat) : List Int :=
  (List.range size).map (fun idx => toDouble (if idx = 1 then 0 else idx + 1))

/-- The allocator lambda of `reduceSYCLGeneric`: scratch memory of the requested
size, whose contents are unspecified until written (here `junk`), and the
accessors on the buffer `result`. -/
def minAllocator (junk : Int) (size : Nat) (mem : List Int) : LocalReducer Int :=
  { localMem := List.replicate size junk, result := mem }

/-- The lambda `empty`: `r.local[lidx] = DOUBLE_MAX`. -/
def minEmpty (r : LocalReducer Int) (lidx : Nat) : Option (LocalReducer Int) :=
  match writeAt r.localMem lidx DOUBLE_MAX with
  | none => none
  | some l => some { r with localMem := l }

/-- The lambda `functor`: `r.local[lidx] = fmin(r.local[lidx], r.actual[idx])`. -/
def minFunctor (r : LocalReducer Int) (lidx idx : Nat) : Option (LocalReducer Int) :=
  match readAt r.localMem lidx, readAt r.actual idx with
  | some a, some b =>
    match writeAt r.localMem lidx (fmin a b) with
    | none => none
    | some l => some { r with localMem := l }
  | _, _ => none

/-- The lambda `combiner`: `r.local[idx] = fmin(r.local[idx], r.local[idy])`. -/
def minCombiner (r : LocalReducer Int) (idx idy : Nat) : Option (LocalReducer Int) :=
  match readAt r.localMem idx, readAt r.localMem idy with
  | some a, some b =>
    match writeAt r.localMem idx (fmin a b) with
    | none => none
    | some l => some { r with localMem := l }
  | _, _ => none

/-- The lambda `finaliser`: `r.result[group] = r.local[idx]`. -/
def minFinaliser (r : LocalReducer Int) (group idx : Nat) : Option (LocalReducer Int) :=
  match readAt r.localMem idx with
  | none => none
  | some v =>
    match writeAt r.result group v with
    | none => none
    | some b => some { r with result := b }

/-- The callbacks `reduceSYCLGeneric` passes to the engine. -/
def minCallbacks (junk : Int) : Callbacks Int :=
  { allocator := minAllocator junk, empty := minEmpty, functor := minFunctor,
    combiner := minCombiner, finaliser := minFinaliser }

/-- The minimum reduction of `reduceSYCLGeneric` on an arbitrary buffer `mem`
and range `[from_, to_)`, in place: the buffer after both kernels. -/
def minReduce (dev : Device) (sched : List Nat) (junk : Int) (from_ to_ : Nat)
    (mem : List Int) : Option (List Int) :=
  match Range1D.make from_ to_ with
  | none => none
  | some range => parallel_reduce_1d dev sched range (minCallbacks junk) mem

/-- The buffer `result` of `reduceSYCLGeneric(queue, N)` after `wait_and_throw`. -/
def reduceSYCLGenericBuffer (dev : Device) (sched : List Nat) (junk : Int) (N : Nat) :
    Option (List Int) :=
  let size := (N * N) % 2 ^ 64
  minReduce dev sched junk 0 size (prepareSYCLBuffer size)

/-- The function `reduceSYCLGeneric`: element 0 of the buffer after the reduction. -/
def reduceSYCLGeneric (dev : Device) (sched : List Nat) (junk : Int) (N : Nat) : Option Int :=
  match reduceSYCLGenericBuffer dev sched junk N with
  | none => none
  | some buf => readAt buf 0

/-- The sizing code of `reduceSYCLNonGeneric` (lines 73 to 86), for a buffer of
`size` elements. -/
def sizingNonGeneric (dev : Device) (size : Nat) : Nat × Nat :=
  let p : Nat × Nat :=
    if dev.is_cpu then (dev.max_compute_units, dev.native_vector_width_double * 2)
    else (dev.max_compute_units * 4, dev.max_work_group_size)
  (min size p.1, p.2)

/-- The grid-stride loop of one worker of `reduceSYCLNonGeneric`:
`local[localId] = fmin(local[localId], drain[globalId])`. -/
def ngStrideLoop (drain : List Int) (localId size globalSize : Nat) :
    Nat → Nat → List Int → Option (List Int)
  | fuel, globalId, loc =>
    if globalId < size then
      match fuel with
      | 0 => none
      | fuel + 1 =>
        match readAt loc localId, readAt drain globalId with
        | some a, some b =>
          match writeAt loc localId (fmin a b) with
          | none => none
          | some loc1 => ngStrideLoop drain localId size globalSize fuel (globalId + globalSize) loc1
        | _, _ => none
    else some loc

/-- One worker of `reduceSYCLNonGeneric` up to the first barrier. -/
def ngWorkerFold (drain : List Int) (size numGroups wgsize group : Nat) (loc : List Int)
    (localId : Nat) : Option (List Int) :=
  match writeAt loc localId DOUBLE_MAX with
  | none => none
  | some loc1 =>
    ngStrideLoop drain localId size (numGroups * wgsize) size (group * wgsize + localId) loc1

/-- One round of the tree combine of `reduceSYCLNonGeneric`. -/
def ngCombineRound (wgsize offset : Nat) (loc : List Int) : Option (List Int) :=
  (List.range wgsize).foldlM
    (fun l localId =>
      if localId < offset then
        match readAt l localId, readAt l (localId + offset) with
        | some a, some b => writeAt l localId (fmin a b)
        | _, _ => none
      else some l)
    loc

/-- The halving loop of `reduceSYCLNonGeneric`. -/
def ngTreeLoop (wgsize : Nat) : Nat → Nat → List Int → Option (List Int)
  | fuel, offset, loc =>
    if 0 < offset then
      match fuel with
      | 0 => none
      | fuel + 1 =>
        match ngCombineRound wgsize offset loc with
        | none => none
        | some loc1 => ngTreeLoop wgsize fuel (offset / 2) loc1
    else some loc

/-- One work-group of the first kernel of `reduceSYCLNonGeneric`; the worker with
local id 0 ends with `drain[item.get_group(0)] = local[0]`. -/
def ngRunGroup (junk : Int) (size numGroups wgsize : Nat) (drain : List Int) (group : Nat) :
    Option (List Int) :=
  match (List.range wgsize).foldlM (ngWorkerFold drain size numGroups wgsize group)
      (List.replicate wgsize junk) with
  | none => none
  | some loc1 =>
    match ngTreeLoop wgsize wgsize (wgsize / 2) loc1 with
    | none => none
    | some loc2 =>
      match readAt loc2 0 with
      | none => none
      | some v => writeAt drain group v

/-- The second kernel of `reduceSYCLNonGeneric`. -/
def ngPhase2 (junk : Int) (numGroups : Nat) (drain : List Int) : Option (List Int) :=
  match writeAt (List.replicate numGroups junk) 0 DOUBLE_MAX with
  | none => none
  | some loc1 =>
    match (List.range numGroups).foldlM
        (fun l i => match readAt drain i with
          | none => none
          | some v => writeAt l i v) loc1 with
    | none => none
    | some loc2 =>
      match (List.range' 1 (numGroups - 1)).foldlM
          (fun l i => match readAt l 0, readAt l i with
            | some a, some b => writeAt l 0 (fmin a b)
            | _, _ => none) loc2 with
      | none => none
      | some loc3 =>
        match readAt loc3 0 with
        | none => none
        | some v => writeAt drain 0 v

/-- The function `reduceSYCLNonGeneric`; the groups of its first kernel run in
the order `sched`, and fresh scratch memory holds `junk`. -/
def reduceSYCLNonGeneric (dev : Device) (sched : List Nat) (junk : Int) (N : Nat) :
    Option Int :=
  let size := (N * N) % 2 ^ 64
  let result := prepareSYCLBuffer size
  let dotNumGroups := (sizingNonGeneric dev size).1
  let dotWgsize := (sizingNonGeneric dev size).2
  if dotWgsize = 0 then none
  else
    match sched.foldlM (ngRunGroup junk size dotNumGroups dotWgsize) result with
    | none => none
    | some result1 =>
      match ngPhase2 junk dotNumGroups result1 with
      | none => none
      | some result2 => readAt result2 0

/-! ## Index sequences of the two loops of a worker -/

/-- The indices worker `w` folds, in the words of the grid-stride pattern:
`from + w`, `from + w + T`, `from + w + 2T`, ... while `w + kT < n`. -/
def strideIndices (from_ n T w : Nat) : List Nat :=
  (List.range ((n - w + T - 1) / T)).map (fun k => from_ + (w + k * T))

/-- The values of `offset` for which the body of the halving loop
`for (offset = localSize / 2; offset > 0; offset /= 2)` runs, entered with the
current `offset`; `fuel` bounds their number as in `treeLoop`. -/
def halvingOffsets : Nat → Nat → List Nat
  | fuel, offset =>
    if 0 < offset then
      match fuel with
      | 0 => []
      | fuel + 1 => offset :: halvingOffsets fuel (offset / 2)
    else []

/-! ## The type `double` -/

/-- The values of the C++ type `double` (IEEE 754 binary64): not-a-number, the
two infinities, and the finite values, each given by the rational number it
stands for. -/
inductive F64 where
  | nan
  | negInf
  | finite (q : ℚ)
  | posInf
deriving DecidableEq

/-- The comparison `x < y` of two `double` values; it is false as soon as one of
them is a NaN. -/
def F64.lt : F64 → F64 → Bool
  | .nan, _ => false
  | _, .nan => false
  | .negInf, .negInf => false
  | .negInf, _ => true
  | .finite _, .negInf => false
  | .finite a, .finite b => decide (a < b)
  | .finite _, .posInf => true
  | .posInf, _ => false

/-- The function `sycl::fmin` on all values of `double`: it returns `y` if
`y < x` and `x` otherwise, and when one argument is a NaN it returns the other
argument. -/
def F64.fmin (x y : F64) : F64 :=
  match x, y with
  | .nan, y => y
  | x, .nan => x
  | x, y => if F64.lt y x then y else x

/-- The `double` that an integer-valued finite number of the program stands for. -/
def F64.ofInt (v : Int) : F64 := .finite (v : ℚ)

/-! ## Theorems -/

/-! ### `Range1D` and the sizing code -/

/-- For bounds that fit `size_t`, the constructor yields the range with
`size = to - from` when `from < to` and aborts otherwise. -/
theorem Range1D.make_eq (from_ to_ : Nat) (hf : from_ < 2 ^ 64) (ht : to_ < 2 ^ 64) :
    Range1D.make from_ to_ =
      if from_ < to_ then some { from_ := from_, to_ := to_, size := to_ - from_ } else none := by
  norm_num at hf ht
  by_cases h : from_ < to_
  · have h1 : (to_ + 18446744073709551616 - from_) % 18446744073709551616 = to_ - from_ := by
      omega
    have h2 : to_ - from_ ≠ 0 := by omega
    simp [Range1D.make, h, h1, h2]
  · simp [Range1D.make, h]

/-- C7: for `size_t` bounds, constructing `Range1D(from, to)` succeeds exactly
when `from < to`; the constructed range stores the bounds, `size = to - from`
and `size > 0`; for `from >= to` the construction aborts, and so does the
reduction built on it, which never reaches the engine. -/
theorem Range1D_make_spec (from_ to_ : Nat) (hf : from_ < 2 ^ 64) (ht : to_ < 2 ^ 64) :
    ((Range1D.make from_ to_).isSome = true ↔ from_ < to_) ∧
    (∀ r, Range1D.make from_ to_ = some r →
      r.from_ = from_ ∧ r.to_ = to_ ∧ r.size = to_ - from_ ∧ 0 < r.size) ∧
    (to_ ≤ from_ → Range1D.make from_ to_ = none ∧
      ∀ dev sched junk mem, minReduce dev sched junk from_ to_ mem = none) := by
  have hm := Range1D.make_eq from_ to_ hf ht
  refine ⟨?_, ?_, ?_⟩
  · rw [hm]; by_cases h : from_ < to_ <;> simp [h]
  · intro r hr
    rw [hm] at hr
    by_cases h : from_ < to_
    · simp only [h, if_true, Option.some.injEq] at hr
      subst hr
      exact ⟨rfl, rfl, rfl, by show 0 < to_ - from_; omega⟩
    · simp [h] at hr
  · intro h
    have h1 : ¬ from_ < to_ := by omega
    have h2 : Range1D.make from_ to_ = none := by rw [hm]; simp [h1]
    exact ⟨h2, fun dev sched junk mem => by simp [minReduce, h2]⟩

/-- The range of the harness, `[0, 16384)`, is constructed with size 16384, and
the empty range `[7, 7)` is rejected. -/
theorem Range1D_make_spec_witness :
    (∀ r, Range1D.make 0 16384 = some r →
      r.from_ = 0 ∧ r.to_ = 16384 ∧ r.size = 16384 - 0 ∧ 0 < r.size) ∧
    Range1D.make 7 7 = none :=
  ⟨(Range1D_make_spec 0 16384 (by decide) (by decide)).2.1,
   ((Range1D_make_spec 7 7 (by decide) (by decide)).2.2 (by decide)).1⟩

/-- C8: in the engine and in `reduceSYCLNonGeneric` alike the group count is
`min(naive, n)` with `naive = computeUnits` on a CPU and `computeUnits * 4` on an
accelerator; it never exceeds `n`, it is `n` when `n` is below the naive count,
and the engine uses it for both launches. -/
theorem sizing_numGroups_clamp (dev : Device) (n : Nat) :
    (sizing dev n).1 =
      min (if dev.is_cpu then dev.max_compute_units else dev.max_compute_units * 4) n ∧
    (sizingNonGeneric dev n).1 =
      min (if dev.is_cpu then dev.max_compute_units else dev.max_compute_units * 4) n ∧
    (sizing dev n).1 ≤ n ∧ (sizingNonGeneric dev n).1 ≤ n ∧
    (n < (if dev.is_cpu then dev.max_compute_units else dev.max_compute_units * 4) →
      (sizing dev n).1 = n ∧ (sizingNonGeneric dev n).1 = n) ∧
    (∀ (sched : List Nat) (range : Range1D) (cb : Callbacks Int) (mem : List Int),
      range.size = n →
      parallel_reduce_1d dev sched range cb mem =
        (phase1 cb range
          (min (if dev.is_cpu then dev.max_compute_units else dev.max_compute_units * 4) n)
          (sizing dev n).2 sched mem).bind
        (phase2 cb
          (min (if dev.is_cpu then dev.max_compute_units else dev.max_compute_units * 4) n)
          (sizing dev n).2)) := by
  have h1 : (sizing dev n).1 =
      min (if dev.is_cpu then dev.max_compute_units else dev.max_compute_units * 4) n := by
    cases hc : dev.is_cpu <;> simp [sizing, hc, Nat.min_comm]
  have h2 : (sizingNonGeneric dev n).1 =
      min (if dev.is_cpu then dev.max_compute_units else dev.max_compute_units * 4) n := by
    cases hc : dev.is_cpu <;> simp [sizingNonGeneric, hc, Nat.min_comm]
  refine ⟨h1, h2, ?_, ?_, ?_, ?_⟩
  · rw [h1]; exact Nat.min_le_right _ _
  · rw [h2]; exact Nat.min_le_right _ _
  · intro h
    rw [h1, h2]
    exact ⟨Nat.min_eq_right (Nat.le_of_lt h), Nat.min_eq_right (Nat.le_of_lt h)⟩
  · intro sched range cb mem hn
    subst hn
    rw [← h1]
    unfold parallel_reduce_1d
    dsimp only
    cases phase1 cb range (sizing dev range.size).1 (sizing dev range.size).2 sched mem <;> rfl

/-- A GPU with 80 compute units asks for 320 groups; on three elements it gets 3. -/
theorem sizing_numGroups_clamp_witness :
    (sizing ⟨false, 80, 0, 1024⟩ 3).1 = 3 ∧ (sizingNonGeneric ⟨false, 80, 0, 1024⟩ 3).1 = 3 :=
  (sizing_numGroups_clamp ⟨false, 80, 0, 1024⟩ 3).2.2.2.2.1 (by decide)

/-! ### Memory and loop lemmas -/

theorem readAt_eq {α : Type} (xs : List α) (i : Nat) : readAt xs i = xs[i]? := rfl

theorem writeAt_of_lt {α : Type} (xs : List α) (i : Nat) (v : α) (h : i < xs.length) :
    writeAt xs i v = some (xs.set i v) := by
  simp [writeAt, h]

theorem writeAt_of_le {α : Type} (xs : List α) (i : Nat) (v : α) (h : xs.length ≤ i) :
    writeAt xs i v = none := by
  simp [writeAt, Nat.not_lt.mpr h]

theorem set_same_of_getElem? {α : Type} (xs : List α) (i : Nat) (a : α)
    (h : xs[i]? = some a) : xs.set i a = xs := by
  apply List.ext_getElem?
  intro j
  by_cases hj : i = j
  · subst hj
    rw [h]
    have hlt : i < xs.length := by
      rcases List.getElem?_eq_some.mp h with ⟨hl, _⟩
      exact hl
    simp [List.getElem?_set, hlt]
  · simp [List.getElem?_set, hj]

theorem fmin_le_left (a b : Int) : fmin a b ≤ a := by
  unfold fmin; split <;> omega

theorem fmin_le_right (a b : Int) : fmin a b ≤ b := by
  unfold fmin; split <;> omega

theorem le_fmin (c a b : Int) (ha : c ≤ a) (hb : c ≤ b) : c ≤ fmin a b := by
  unfold fmin; split <;> omega

/-- An invariant indexed by the loop counter is carried through a loop over
`List.range' s m` whose body never aborts under the invariant. -/
theorem foldlM_range'_inv {σ : Type} (f : σ → Nat → Option σ) (I : Nat → σ → Prop) :
    ∀ (m s : Nat) (st : σ), I s st →
      (∀ i st, s ≤ i → i < s + m → I i st → ∃ st', f st i = some st' ∧ I (i + 1) st') →
      ∃ st', (List.range' s m).foldlM f st = some st' ∧ I (s + m) st' := by
  intro m
  induction m with
  | zero =>
    intro s st h0 _
    exact ⟨st, by simp, by simpa using h0⟩
  | succ m ih =>
    intro s st h0 hstep
    obtain ⟨st1, h1, hI1⟩ := hstep s st (Nat.le_refl _) (by omega) h0
    obtain ⟨st2, h2, hI2⟩ := ih (s + 1) st1 hI1 (fun i st hi hlt hI =>
      hstep i st (by omega) (by omega) hI)
    refine ⟨st2, ?_, ?_⟩
    · simp [List.range'_succ, List.foldlM_cons, h1, h2]
    · have : s + (m + 1) = s + 1 + m := by omega
      rw [this]; exact hI2

/-- The same for a loop over `List.range n`. -/
theorem foldlM_range_inv {σ : Type} (f : σ → Nat → Option σ) (I : Nat → σ → Prop)
    (n : Nat) (st : σ) (h0 : I 0 st)
    (hstep : ∀ i st, i < n → I i st → ∃ st', f st i = some st' ∧ I (i + 1) st') :
    ∃ st', (List.range n).foldlM f st = some st' ∧ I n st' := by
  have h := foldlM_range'_inv f I n 0 st h0 (fun i st _ hlt hI => hstep i st (by omega) hI)
  rw [List.range_eq_range']
  simpa using h

/-! ### The minimum callbacks -/

theorem minFunctor_eq (loc mem : List Int) (l i : Nat) (a b : Int)
    (ha : loc[l]? = some a) (hb : mem[i]? = some b) :
    minFunctor ⟨loc, mem⟩ l i = some ⟨loc.set l (fmin a b), mem⟩ := by
  have hl : l < loc.length := (List.getElem?_eq_some.mp ha).1
  simp [minFunctor, LocalReducer.actual, readAt, ha, hb, writeAt, hl]

theorem minCombiner_eq (loc mem : List Int) (x y : Nat) (a b : Int)
    (ha : loc[x]? = some a) (hb : loc[y]? = some b) :
    minCombiner ⟨loc, mem⟩ x y = some ⟨loc.set x (fmin a b), mem⟩ := by
  have hl : x < loc.length := (List.getElem?_eq_some.mp ha).1
  simp [minCombiner, readAt, ha, hb, writeAt, hl]

theorem minEmpty_eq (loc mem : List Int) (l : Nat) (hl : l < loc.length) :
    minEmpty ⟨loc, mem⟩ l = some ⟨loc.set l DOUBLE_MAX, mem⟩ := by
  simp [minEmpty, writeAt, hl]

theorem minFinaliser_eq (loc mem : List Int) (g x : Nat) (a : Int)
    (ha : loc[x]? = some a) (hg : g < mem.length) :
    minFinaliser ⟨loc, mem⟩ g x = some ⟨loc, mem.set g a⟩ := by
  simp [minFinaliser, readAt, ha, writeAt, hg]

theorem minFinaliser_none (r : LocalReducer Int) (g x : Nat) (hg : r.result.length ≤ g) :
    minFinaliser r g x = none := by
  unfold minFinaliser
  cases readAt r.localMem x with
  | none => rfl
  | some v => simp [writeAt, Nat.not_lt.mpr hg]

theorem DOUBLE_MAX_nonneg : 0 ≤ DOUBLE_MAX := by
  unfold DOUBLE_MAX; decide

/-- The grid-stride loop of the worker owning scratch slot `l`, started at
`gid` with slot value `a`: it ends, changes slot `l` only, and the new slot
value is below `a` and below every element visited, and above every common
lower bound of `a` and the buffer. -/
theorem strideLoop_min (junk : Int) (mem : List Int) (l n T : Nat) (hT : 0 < T)
    (hn : n ≤ mem.length) :
    ∀ (fuel gid : Nat) (loc : List Int) (a : Int), n ≤ gid + fuel → loc[l]? = some a →
      ∃ a', strideLoop (minCallbacks junk) l 0 n T fuel gid ⟨loc, mem⟩ =
          some ⟨loc.set l a', mem⟩ ∧ a' ≤ a ∧
        (∀ c, c ≤ a → (∀ v ∈ mem, c ≤ v) → c ≤ a') ∧
        (∀ t v, gid + t * T < n → mem[gid + t * T]? = some v → a' ≤ v) := by
  intro fuel
  induction fuel with
  | zero =>
    intro gid loc a hfuel ha
    have hge : ¬ gid < n := by omega
    refine ⟨a, ?_, le_refl _, fun c hc _ => hc, fun t v ht _ => ?_⟩
    · rw [strideLoop]; simp [hge, set_same_of_getElem? loc l a ha]
    · exfalso; have : gid ≤ gid + t * T := Nat.le_add_right _ _; omega
  | succ fuel ih =>
    intro gid loc a hfuel ha
    by_cases hlt : gid < n
    · have hb : gid < mem.length := by omega
      obtain ⟨b, hbv⟩ : ∃ b, mem[gid]? = some b := ⟨mem[gid], List.getElem?_eq_getElem hb⟩
      have hl : l < loc.length := (List.getElem?_eq_some.mp ha).1
      have ha1 : (loc.set l (fmin a b))[l]? = some (fmin a b) := by
        simp [List.getElem?_set, hl]
      obtain ⟨a', hrun, hle, hlow, hvis⟩ := ih (gid + T) (loc.set l (fmin a b)) (fmin a b)
        (by omega) ha1
      refine ⟨a', ?_, le_trans hle (fmin_le_left a b), ?_, ?_⟩
      · rw [strideLoop]
        have hf : (minCallbacks junk).functor ⟨loc, mem⟩ l (0 + gid) =
            some ⟨loc.set l (fmin a b), mem⟩ := by
          rw [Nat.zero_add]; exact minFunctor_eq loc mem l gid a b ha hbv
        simp only [hlt, if_true, hf, hrun, List.set_set]
      · intro c hc hmem
        exact hlow c (le_fmin c a b hc (hmem b (List.getElem?_mem hbv))) hmem
      · intro t v ht hv
        cases t with
        | zero =>
          simp only [Nat.zero_mul, Nat.add_zero] at hv
          rw [hbv] at hv
          cases hv
          exact le_trans hle (fmin_le_right a b)
        | succ t =>
          have e : gid + (t + 1) * T = gid + T + t * T := by
            rw [Nat.succ_mul]; omega
          rw [e] at ht hv
          exact hvis t v ht hv
    · refine ⟨a, ?_, le_refl _, fun c hc _ => hc, fun t v ht _ => ?_⟩
      · rw [strideLoop]; simp [hlt, set_same_of_getElem? loc l a ha]
      · exfalso; have : gid ≤ gid + t * T := Nat.le_add_right _ _; omega

theorem fmin_eq_left (c b : Int) (hb : c ≤ b) : fmin c b = c := by
  unfold fmin; split <;> omega

theorem fmin_eq_right (a c : Int) (ha : c ≤ a) : fmin a c = c := by
  unfold fmin; split <;> omega

/-- One worker of the first kernel, up to the first barrier, over the range
`[0, n)`: it ends, changes its own scratch slot only, and leaves there a value
that is above every lower bound `c` of the buffer and of `DOUBLE_MAX`, and below
every element the worker visits. -/
theorem workerFold_min (junk : Int) (mem : List Int) (n G W g l : Nat) (hT : 0 < G * W)
    (hn : n ≤ mem.length) (c : Int) (hc : c ≤ DOUBLE_MAX) (hpos : ∀ v ∈ mem, c ≤ v)
    (loc : List Int) (hl : l < loc.length) :
    ∃ a, workerFold (minCallbacks junk) ⟨0, n, n⟩ G W g ⟨loc, mem⟩ l =
        some ⟨loc.set l a, mem⟩ ∧ c ≤ a ∧
      (∀ t v, g * W + l + t * (G * W) < n → mem[g * W + l + t * (G * W)]? = some v → a ≤ v) := by
  have h1 : (loc.set l DOUBLE_MAX)[l]? = some DOUBLE_MAX := by
    simp [List.getElem?_set, hl]
  obtain ⟨a, hrun, _, hlow, hvis⟩ := strideLoop_min junk mem l n (G * W) hT hn n (g * W + l)
    (loc.set l DOUBLE_MAX) DOUBLE_MAX (by omega) h1
  refine ⟨a, ?_, hlow c hc hpos, hvis⟩
  have he : (minCallbacks junk).empty ⟨loc, mem⟩ l = some ⟨loc.set l DOUBLE_MAX, mem⟩ :=
    minEmpty_eq loc mem l hl
  simp only [workerFold, he, hrun, List.set_set]

/-- All workers of a group, up to the first barrier: the loop ends, the global
buffer is untouched, and every scratch slot `j` holds a value above the lower
bound `c` and below every element that worker `j` of the group visits. -/
theorem foldPhase_min (junk : Int) (mem : List Int) (n G W g : Nat) (hT : 0 < G * W)
    (hn : n ≤ mem.length) (c : Int) (hc : c ≤ DOUBLE_MAX) (hpos : ∀ v ∈ mem, c ≤ v) :
    ∃ loc, (List.range W).foldlM (workerFold (minCallbacks junk) ⟨0, n, n⟩ G W g)
        ((minCallbacks junk).allocator W mem) = some ⟨loc, mem⟩ ∧ loc.length = W ∧
      ∀ j, j < W → ∃ a, loc[j]? = some a ∧ c ≤ a ∧
        (∀ t v, g * W + j + t * (G * W) < n →
          mem[g * W + j + t * (G * W)]? = some v → a ≤ v) := by
  obtain ⟨ctx, hrun, hres, hlen, hslots⟩ := foldlM_range_inv
    (workerFold (minCallbacks junk) ⟨0, n, n⟩ G W g)
    (fun l ctx => ctx.result = mem ∧ ctx.localMem.length = W ∧
      ∀ j, j < l → ∃ a, ctx.localMem[j]? = some a ∧ c ≤ a ∧
        (∀ t v, g * W + j + t * (G * W) < n →
          mem[g * W + j + t * (G * W)]? = some v → a ≤ v))
    W ((minCallbacks junk).allocator W mem)
    ⟨rfl, by simp [minCallbacks, minAllocator], fun j hj => absurd hj (Nat.not_lt_zero j)⟩
    (by
      rintro l ⟨loc, res⟩ hl ⟨hres, hlen, hslots⟩
      simp only at hres hlen hslots
      subst hres
      obtain ⟨a, hrun, ha0, hvis⟩ := workerFold_min junk res n G W g l hT hn c hc hpos loc
        (by omega)
      refine ⟨_, hrun, rfl, by simp [hlen], ?_⟩
      intro j hj
      by_cases hjl : j = l
      · subst hjl
        exact ⟨a, by simp [List.getElem?_set, hlen, hl], ha0, hvis⟩
      · obtain ⟨b, hb, hb0, hbv⟩ := hslots j (by omega)
        refine ⟨b, ?_, hb0, hbv⟩
        simp only
        rw [List.getElem?_set_ne (Ne.symm hjl)]
        exact hb)
  obtain ⟨loc, res⟩ := ctx
  simp only at hres hlen hslots
  subst hres
  exact ⟨loc, hrun, hlen, hslots⟩
/-- One combiner call on scratch memory bounded below by `c`: slot `x` becomes
the minimum of slots `x` and `y`; the scratch stays bounded below by `c`, a value
`c` in slot 0 or in slot 1 stays, and combining slot 0 with slot 1 brings a `c`
of either into slot 0. -/
theorem minCombiner_step (c : Int) (loc mem : List Int) (x y : Nat) (hx : x < loc.length)
    (hy : y < loc.length) (hpos : ∀ v ∈ loc, c ≤ v) :
    ∃ loc1, minCombiner ⟨loc, mem⟩ x y = some ⟨loc1, mem⟩ ∧ loc1.length = loc.length ∧
      (∀ v ∈ loc1, c ≤ v) ∧ (loc[0]? = some c → loc1[0]? = some c) ∧
      (loc[1]? = some c → loc1[1]? = some c) ∧
      (x = 0 → y = 1 → (loc[0]? = some c ∨ loc[1]? = some c) → loc1[0]? = some c) := by
  have hxa : loc[x]? = some loc[x] := List.getElem?_eq_getElem hx
  have hyb : loc[y]? = some loc[y] := List.getElem?_eq_getElem hy
  have ha0 : c ≤ loc[x] := hpos _ (List.getElem_mem hx)
  have hb0 : c ≤ loc[y] := hpos _ (List.getElem_mem hy)
  have keep : ∀ i : Nat, loc[i]? = some c → (loc.set x (fmin loc[x] loc[y]))[i]? = some c := by
    intro i hi
    by_cases hix : x = i
    · subst hix
      rw [hxa] at hi
      have h0 : loc[x] = c := Option.some.inj hi
      simp [List.getElem?_set, hx, h0, fmin_eq_left c _ hb0]
    · rw [List.getElem?_set_ne hix]; exact hi
  refine ⟨loc.set x (fmin loc[x] loc[y]), minCombiner_eq loc mem x y _ _ hxa hyb, by simp,
    ?_, keep 0, keep 1, ?_⟩
  · intro v hv
    rcases List.mem_or_eq_of_mem_set hv with h | h
    · exact hpos v h
    · rw [h]; exact le_fmin c _ _ ha0 hb0
  · intro hx0 hy1 hz
    subst hx0 hy1
    rcases hz with h | h
    · exact keep 0 h
    · rw [hyb] at h
      have h0 : loc[1] = c := Option.some.inj h
      simp [List.getElem?_set, hx, h0, fmin_eq_right _ c ha0]

/-- One round of the tree combine with `2 * offset <= W` on scratch memory of
length `W` bounded below by `c`: the round ends, the buffer is untouched, the
scratch keeps its length and its bound, a value `c` in slot 0 stays, a `c` in
slot 0 or 1 stays in slot 0 or 1, and the round with offset 1 brings it into
slot 0. -/
theorem combineRound_min (junk c : Int) (mem : List Int) (W o : Nat) (ho : 2 * o ≤ W)
    (loc : List Int) (hlen : loc.length = W) (hpos : ∀ v ∈ loc, c ≤ v) :
    ∃ loc1, combineRound (minCallbacks junk) W o ⟨loc, mem⟩ = some ⟨loc1, mem⟩ ∧
      loc1.length = W ∧ (∀ v ∈ loc1, c ≤ v) ∧ (loc[0]? = some c → loc1[0]? = some c) ∧
      ((loc[0]? = some c ∨ loc[1]? = some c) → (loc1[0]? = some c ∨ loc1[1]? = some c)) ∧
      (o = 1 → (loc[0]? = some c ∨ loc[1]? = some c) → loc1[0]? = some c) := by
  obtain ⟨ctx, hrun, hres, hl1, hp1, hz0, hz, hz1⟩ := foldlM_range_inv
    (fun cx localId =>
      if localId < o then (minCallbacks junk).combiner cx localId (localId + o) else some cx)
    (fun l cx => cx.result = mem ∧ cx.localMem.length = W ∧ (∀ v ∈ cx.localMem, c ≤ v) ∧
      (loc[0]? = some c → cx.localMem[0]? = some c) ∧
      ((loc[0]? = some c ∨ loc[1]? = some c) →
        (cx.localMem[0]? = some c ∨ cx.localMem[1]? = some c)) ∧
      (o = 1 → (loc[0]? = some c ∨ loc[1]? = some c) → 1 ≤ l → cx.localMem[0]? = some c))
    W ⟨loc, mem⟩
    ⟨rfl, hlen, hpos, fun h => h, fun h => h, fun _ _ h => absurd h (by decide)⟩
    (by
      rintro l ⟨lc, res⟩ hl ⟨hres, hl1, hp1, hz0, hz, hz1⟩
      simp only at hres hl1 hp1 hz0 hz hz1
      subst hres
      by_cases hlo : l < o
      · obtain ⟨lc1, hrun, hlen1, hpos1, k0, k1, k01⟩ := minCombiner_step c lc res l (l + o)
          (by omega) (by omega) hp1
        refine ⟨⟨lc1, res⟩, by simp only [hlo, if_true]; exact hrun, rfl, hlen1.trans hl1, hpos1,
          fun h => k0 (hz0 h), ?_, ?_⟩
        · intro h
          rcases hz h with h0 | h1
          · exact Or.inl (k0 h0)
          · exact Or.inr (k1 h1)
        · intro ho1 h _
          by_cases hl0 : l = 0
          · subst hl0
            exact k01 rfl (by omega) (hz h)
          · exact k0 (hz1 ho1 h (by omega))
      · refine ⟨⟨lc, res⟩, by simp only [hlo, if_false], rfl, hl1, hp1, hz0, hz, ?_⟩
        intro ho1 h _
        exact hz1 ho1 h (by omega))
  obtain ⟨loc1, res⟩ := ctx
  simp only at hres hl1 hp1 hz0 hz hz1
  subst hres
  exact ⟨loc1, hrun, hl1, hp1, hz0, hz, fun ho1 h => hz1 ho1 h (by omega)⟩
/-- The halving loop entered with `offset = o`, `2 * o <= W`, with at least `o`
units of fuel, on scratch memory of length `W` bounded below by `c`: the loop
ends, the buffer is untouched, the scratch keeps its length and its bound, a
value `c` in slot 0 stays there, and when at least one round runs a `c` in slot
0 or 1 ends in slot 0. -/
theorem treeLoop_min (junk c : Int) (mem : List Int) (W : Nat) :
    ∀ (fuel o : Nat) (loc : List Int), o ≤ fuel → 2 * o ≤ W → loc.length = W →
      (∀ v ∈ loc, c ≤ v) →
      ∃ loc1, treeLoop (minCallbacks junk) W fuel o ⟨loc, mem⟩ = some ⟨loc1, mem⟩ ∧
        loc1.length = W ∧ (∀ v ∈ loc1, c ≤ v) ∧ (loc[0]? = some c → loc1[0]? = some c) ∧
        (0 < o → (loc[0]? = some c ∨ loc[1]? = some c) → loc1[0]? = some c) := by
  intro fuel
  induction fuel with
  | zero =>
    intro o loc hf _ hlen hpos
    have ho : o = 0 := by omega
    subst ho
    exact ⟨loc, by rw [treeLoop]; simp, hlen, hpos, fun h => h, fun h => absurd h (by decide)⟩
  | succ fuel ih =>
    intro o loc hf hoW hlen hpos
    by_cases ho : 0 < o
    · obtain ⟨loc1, hrun1, hlen1, hpos1, hz0, hz, hz1⟩ :=
        combineRound_min junk c mem W o hoW loc hlen hpos
      obtain ⟨loc2, hrun2, hlen2, hpos2, hk0, hk⟩ := ih (o / 2) loc1 (by omega) (by omega)
        hlen1 hpos1
      refine ⟨loc2, ?_, hlen2, hpos2, fun h => hk0 (hz0 h), ?_⟩
      · rw [treeLoop]; simp only [ho, if_true, hrun1, hrun2]
      · intro _ h
        by_cases ho1 : o = 1
        · exact hk0 (hz1 ho1 h)
        · exact hk (by omega) (hz h)
    · have ho0 : o = 0 := by omega
      subst ho0
      exact ⟨loc, by rw [treeLoop]; simp, hlen, hpos, fun h => h,
        fun h => absurd h (by decide)⟩

/-- One work-group of the first kernel of the minimum reduction over `[0, n)`, in
place on a buffer of `n` elements of which `c` is a lower bound, as it is of
`DOUBLE_MAX`.  When the group's output index `g * W` is outside the buffer the
group aborts.  Otherwise it ends, having changed the buffer at index `g * W`
only, where it stores a value that is at least `c`, and is `c` as soon as worker
0 or worker 1 of the group visits an element `c`. -/
theorem runGroup_min (junk : Int) (mem : List Int) (n G W g : Nat) (hG : 0 < G) (hW : 0 < W)
    (hn : mem.length = n) (c : Int) (hc : c ≤ DOUBLE_MAX) (hpos : ∀ v ∈ mem, c ≤ v) :
    (n ≤ g * W → runGroup (minCallbacks junk) ⟨0, n, n⟩ G W mem g = none) ∧
    (g * W < n → ∃ v, runGroup (minCallbacks junk) ⟨0, n, n⟩ G W mem g =
        some (mem.set (g * W) v) ∧ c ≤ v ∧
      (∀ s t, s < 2 → s < W → g * W + s + t * (G * W) < n →
        mem[g * W + s + t * (G * W)]? = some c → v = c)) := by
  have hT : 0 < G * W := Nat.mul_pos hG hW
  obtain ⟨loc, hrunA, hlenA, hslots⟩ := foldPhase_min junk mem n G W g hT (by omega) c hc hpos
  have hposA : ∀ v ∈ loc, c ≤ v := by
    intro v hv
    obtain ⟨j, hj⟩ := List.mem_iff_getElem?.mp hv
    have hjW : j < W := by
      have := (List.getElem?_eq_some.mp hj).1
      omega
    obtain ⟨a, ha, ha0, _⟩ := hslots j hjW
    rw [hj] at ha
    cases ha
    exact ha0
  obtain ⟨loc1, hrunT, hlenT, hposT, hk0, hk⟩ := treeLoop_min junk c mem W W (W / 2) loc
    (Nat.div_le_self W 2) (by omega) hlenA hposA
  have h0 : loc1[0]? = some loc1[0] := List.getElem?_eq_getElem (by omega)
  constructor
  · intro hge
    simp only [runGroup, hrunA, hrunT]
    have : (minCallbacks junk).finaliser ⟨loc1, mem⟩ (g * W) 0 = none :=
      minFinaliser_none ⟨loc1, mem⟩ (g * W) 0 (by simpa [hn] using hge)
    rw [this]
  · intro hlt
    refine ⟨loc1[0], ?_, hposT _ (List.getElem_mem _), ?_⟩
    · simp only [runGroup, hrunA, hrunT]
      have : (minCallbacks junk).finaliser ⟨loc1, mem⟩ (g * W) 0 =
          some ⟨loc1, mem.set (g * W) loc1[0]⟩ :=
        minFinaliser_eq loc1 mem (g * W) 0 _ h0 (by omega)
      rw [this]
    · intro s t hs hsW hidx hval
      obtain ⟨a, ha, ha0, hvis⟩ := hslots s hsW
      have haz : a = c := le_antisymm (hvis t c hidx hval) ha0
      rw [haz] at ha
      have hz : loc[0]? = some c ∨ loc[1]? = some c := by
        have hs01 : s = 0 ∨ s = 1 := by omega
        rcases hs01 with h | h
        · left; rw [← h]; exact ha
        · right; rw [← h]; exact ha
      have hfin : loc1[0]? = some c := by
        by_cases hW2 : 2 ≤ W
        · exact hk (by omega) hz
        · have hs0 : s = 0 := by omega
          subst hs0
          exact hk0 ha
      rw [h0] at hfin
      exact Option.some.inj hfin

theorem set_bounded (mem : List Int) (i : Nat) (v c : Int) (hpos : ∀ u ∈ mem, c ≤ u)
    (hv : c ≤ v) : ∀ u ∈ mem.set i v, c ≤ u := by
  intro u hu
  rcases List.mem_or_eq_of_mem_set hu with h1 | h1
  · exact hpos u h1
  · rw [h1]; exact hv

/-- A schedule that names a group whose output index is outside the buffer
aborts the first kernel, whatever the order of the groups. -/
theorem phase1_min_none (junk : Int) (n G W : Nat) (hG : 0 < G) (hW : 0 < W) (c : Int)
    (hc : c ≤ DOUBLE_MAX) :
    ∀ (sched : List Nat) (mem : List Int), mem.length = n → (∀ v ∈ mem, c ≤ v) →
      (∃ g ∈ sched, n ≤ g * W) →
      sched.foldlM (runGroup (minCallbacks junk) ⟨0, n, n⟩ G W) mem = none := by
  intro sched
  induction sched with
  | nil =>
    intro mem _ _ h
    obtain ⟨g, hg, _⟩ := h
    cases hg
  | cons g rest ih =>
    intro mem hn hpos h
    have hrg := runGroup_min junk mem n G W g hG hW hn c hc hpos
    by_cases hbad : n ≤ g * W
    · simp [List.foldlM_cons, hrg.1 hbad]
    · obtain ⟨v, hrun, hv0, _⟩ := hrg.2 (by omega)
      have hrest : ∃ g1 ∈ rest, n ≤ g1 * W := by
        obtain ⟨g1, hg1, hb1⟩ := h
        rcases List.mem_cons.mp hg1 with e | e
        · subst e; exact absurd hb1 hbad
        · exact ⟨g1, e, hb1⟩
      have := ih (mem.set (g * W) v) (by simp [hn]) (set_bounded mem _ v c hpos hv0) hrest
      simp [List.foldlM_cons, hrun, this]

/-- The first kernel under a schedule without repetition, all of whose groups
are below `G` and write inside the buffer, on a buffer of which `c` is a lower
bound: it ends; the buffer keeps its length and its bound; it changes at the
groups' output indices only; and when element `p` is `c` and is owned by worker
0 or 1 of a scheduled group, that group's output slot holds `c` at the end. -/
theorem phase1_min_some (junk : Int) (n G W : Nat) (hG : 0 < G) (hW : 0 < W) (c : Int)
    (hc : c ≤ DOUBLE_MAX) (p : Nat) (hp : p < n) (hs2 : p % (G * W) % W < 2) :
    ∀ (sched : List Nat) (mem : List Int), sched.Nodup → (∀ g ∈ sched, g < G) →
      (∀ g ∈ sched, g * W < n) → mem.length = n → (∀ v ∈ mem, c ≤ v) →
      ∃ mem1, sched.foldlM (runGroup (minCallbacks junk) ⟨0, n, n⟩ G W) mem = some mem1 ∧
        mem1.length = n ∧ (∀ v ∈ mem1, c ≤ v) ∧
        (∀ i : Nat, (∀ g ∈ sched, i ≠ g * W) → mem1[i]? = mem[i]?) ∧
        (p % (G * W) / W ∈ sched → mem[p]? = some c →
          mem1[p % (G * W) / W * W]? = some c) := by
  intro sched
  induction sched with
  | nil =>
    intro mem _ _ _ hn hpos
    exact ⟨mem, by simp, hn, hpos, fun _ _ => rfl, fun h => by cases h⟩
  | cons g rest ih =>
    intro mem hnd hlt hin hn hpos
    obtain ⟨v, hrun, hv0, hzero⟩ := (runGroup_min junk mem n G W g hG hW hn c hc hpos).2
      (hin g (List.mem_cons_self _ _))
    have hnd1 : rest.Nodup := (List.nodup_cons.mp hnd).2
    have hg_notin : g ∉ rest := (List.nodup_cons.mp hnd).1
    obtain ⟨mem1, hrun1, hlen1, hpos1, hframe1, hk1⟩ := ih (mem.set (g * W) v) hnd1
      (fun g1 h1 => hlt g1 (List.mem_cons_of_mem _ h1))
      (fun g1 h1 => hin g1 (List.mem_cons_of_mem _ h1)) (by simp [hn])
      (set_bounded mem _ v c hpos hv0)
    refine ⟨mem1, by simp [List.foldlM_cons, hrun, hrun1], hlen1, hpos1, ?_, ?_⟩
    · intro i hi
      rw [hframe1 i (fun g1 h1 => hi g1 (List.mem_cons_of_mem _ h1))]
      exact List.getElem?_set_ne (Ne.symm (hi g (List.mem_cons_self _ _)))
    · intro hk hm1
      -- the worker that owns element `p`
      have hw : p % (G * W) / W * W + p % (G * W) % W = p % (G * W) :=
        Nat.div_add_mod' _ _
      have hw2 : p % (G * W) + p / (G * W) * (G * W) = p := Nat.mod_add_div' _ _
      by_cases hgk : g = p % (G * W) / W
      · -- the owner runs now; later groups leave its slot alone
        have hidx : g * W + p % (G * W) % W + p / (G * W) * (G * W) = p := by
          rw [hgk, hw, hw2]
        have hv : v = c := hzero (p % (G * W) % W) (p / (G * W)) hs2 (Nat.mod_lt _ hW)
          (by rw [hidx]; exact hp) (by rw [hidx]; exact hm1)
        rw [hframe1 _ (fun g1 h1 => by
          intro he
          have : g1 = p % (G * W) / W := Nat.eq_of_mul_eq_mul_right hW he.symm
          exact hg_notin (by rw [hgk, ← this]; exact h1))]
        rw [← hgk, hv]
        simp [List.getElem?_set, hin g (List.mem_cons_self _ _), hn]
      · -- the owner runs later and still finds element `p` untouched
        have hk' : p % (G * W) / W ∈ rest := by
          rcases List.mem_cons.mp hk with e | e
          · exact absurd e.symm hgk
          · exact e
        apply hk1 hk'
        rw [List.getElem?_set_ne]
        · exact hm1
        · intro he
          -- `g * W = p` makes `g` the owner of `p`
          apply hgk
          have hgG : g < G := hlt g (List.mem_cons_self _ _)
          have hlt2 : g * W < G * W := Nat.mul_lt_mul_of_pos_right hgG hW
          rw [← he, Nat.mod_eq_of_lt hlt2, Nat.mul_div_cancel _ hW]
theorem drain_eq (loc mem : List Int) (lid gid : Nat) (v : Int) (hv : mem[gid]? = some v)
    (hl : lid < loc.length) :
    LocalReducer.drain ⟨loc, mem⟩ lid gid = some ⟨loc.set lid v, mem⟩ := by
  simp [LocalReducer.drain, readAt, hv, writeAt, hl]

/-- The second kernel without any group aborts: scratch memory of size 0 has
no slot 0 to seed. -/
theorem phase2_min_zero (junk : Int) (W : Nat) (mem : List Int) :
    phase2 (minCallbacks junk) 0 W mem = none := by
  simp [phase2, minCallbacks, minAllocator, minEmpty, writeAt]

/-- The second kernel of the minimum reduction on a buffer that has `c` as a
lower bound and contains every index `i * W`, `i < G`: it ends, changes the
buffer at index 0 only, and stores there a value that is at least `c` and below
each partial result. -/
theorem phase2_min (junk : Int) (mem : List Int) (n G W : Nat) (hG : 0 < G)
    (hn : mem.length = n) (hin : (G - 1) * W < n) (c : Int) (hpos : ∀ v ∈ mem, c ≤ v) :
    ∃ v, phase2 (minCallbacks junk) G W mem = some (mem.set 0 v) ∧ c ≤ v ∧
      ∀ k u, k < G → mem[k * W]? = some u → v ≤ u := by
  have hidx : ∀ i, i < G → i * W < mem.length := by
    intro i hi
    have : i * W ≤ (G - 1) * W := Nat.mul_le_mul_right W (by omega)
    omega
  have hex : ∀ i, i < G → ∃ b, mem[i * W]? = some b ∧ c ≤ b := by
    intro i hi
    exact ⟨_, List.getElem?_eq_getElem (hidx i hi), hpos _ (List.getElem_mem (hidx i hi))⟩
  -- seed
  have hE : (minCallbacks junk).empty ((minCallbacks junk).allocator G mem) 0 =
      some ⟨(List.replicate G junk).set 0 DOUBLE_MAX, mem⟩ :=
    minEmpty_eq _ mem 0 (by simpa using hG)
  -- drain loop
  obtain ⟨c2, hrun2, hres2, hlen2, hsl2⟩ := foldlM_range_inv
    (fun cx i => LocalReducer.drain cx i (i * W))
    (fun i cx => mem = cx.result ∧ cx.localMem.length = G ∧
      ∀ j, j < i → cx.localMem[j]? = mem[j * W]?)
    G ⟨(List.replicate G junk).set 0 DOUBLE_MAX, mem⟩
    ⟨rfl, by simp, fun j hj => absurd hj (Nat.not_lt_zero j)⟩
    (by
      rintro i ⟨loc, res⟩ hi ⟨hres, hlen, hsl⟩
      simp only at hres hlen hsl
      subst hres
      obtain ⟨b, hb, _⟩ := hex i hi
      refine ⟨_, drain_eq loc mem i (i * W) b hb (by omega), rfl, by simp [hlen], ?_⟩
      intro j hj
      by_cases hji : j = i
      · subst hji
        simp [List.getElem?_set, hlen, hi, hb]
      · simp only
        rw [List.getElem?_set_ne (Ne.symm hji)]
        exact hsl j (by omega))
  obtain ⟨loc2, res2⟩ := c2
  simp only at hres2 hlen2 hsl2
  subst hres2
  -- combine loop
  obtain ⟨b0, hb0, hb0pos⟩ := hex 0 hG
  obtain ⟨c3, hrun3, hres3, hlen3, _, a, ha, ha0, hale⟩ := foldlM_range'_inv
    (fun cx i => (minCallbacks junk).combiner cx 0 i)
    (fun i cx => mem = cx.result ∧ cx.localMem.length = G ∧
      (∀ j, i ≤ j → j < G → cx.localMem[j]? = mem[j * W]?) ∧
      ∃ a, cx.localMem[0]? = some a ∧ c ≤ a ∧ ∀ j u, j < i → mem[j * W]? = some u → a ≤ u)
    (G - 1) 1 ⟨loc2, mem⟩
    ⟨rfl, hlen2, fun j _ hj => hsl2 j hj, b0, by rw [hsl2 0 hG]; exact hb0, hb0pos,
      fun j u hj hu => by
        have : j = 0 := by omega
        subst this
        rw [hb0] at hu
        exact le_of_eq (Option.some.inj hu)⟩
    (by
      rintro i ⟨loc, res⟩ hi1 hi2 ⟨hres, hlen, hsl, a, ha, ha0, hale⟩
      simp only at hres hlen hsl ha
      subst hres
      have hiG : i < G := by omega
      obtain ⟨b, hb, hbpos⟩ := hex i hiG
      have hbl : loc[i]? = some b := by rw [hsl i (Nat.le_refl _) hiG]; exact hb
      refine ⟨_, minCombiner_eq loc mem 0 i a b ha hbl, rfl, by simp [hlen], ?_,
        fmin a b, by simp [List.getElem?_set, hlen, hG], le_fmin c _ _ ha0 hbpos, ?_⟩
      · intro j hj hjG
        simp only
        rw [List.getElem?_set_ne (by omega)]
        exact hsl j (by omega) hjG
      · intro j u hj hu
        by_cases hji : j = i
        · subst hji
          rw [hb] at hu
          rw [← Option.some.inj hu]
          exact fmin_le_right _ _
        · exact le_trans (fmin_le_left _ _) (hale j u (by omega) hu))
  obtain ⟨loc3, res3⟩ := c3
  simp only at hres3 hlen3 ha
  subst hres3
  refine ⟨a, ?_, ha0, fun k u hk hu => hale k u (by omega) hu⟩
  have hF : (minCallbacks junk).finaliser ⟨loc3, mem⟩ 0 0 = some ⟨loc3, mem.set 0 a⟩ :=
    minFinaliser_eq loc3 mem 0 0 a ha (by have := hidx 0 hG; omega)
  simp only [phase2, hE, hrun2, hrun3, hF]

/-! ### The engine on the minimum callbacks -/

/-- The engine with the minimum callbacks, in place on a buffer of `n` elements
over the range `[0, n)`, for a sizing `(G, W)` with `G, W >= 1` whose last output
index `(G - 1) * W` is inside the buffer, and for any order of the groups: when
the buffer has a least element `c` at an index `p` that worker 0 or worker 1 of a
group owns, both kernels end, slot 0 of the buffer holds `c`, and the buffer is
unchanged at every index that is no group's output index. -/
theorem parallel_reduce_1d_min (junk : Int) (dev : Device) (sched : List Nat) (n : Nat)
    (mem : List Int) (c : Int) (p : Nat)
    (hG : 0 < (sizing dev n).1) (hW : 0 < (sizing dev n).2)
    (hin : ((sizing dev n).1 - 1) * (sizing dev n).2 < n)
    (hperm : sched.Perm (List.range (sizing dev n).1))
    (hn : mem.length = n) (hc : c ≤ DOUBLE_MAX) (hpos : ∀ v ∈ mem, c ≤ v)
    (hp : p < n) (hmp : mem[p]? = some c)
    (hs2 : p % ((sizing dev n).1 * (sizing dev n).2) % (sizing dev n).2 < 2) :
    ∃ mem1, parallel_reduce_1d dev sched ⟨0, n, n⟩ (minCallbacks junk) mem = some mem1 ∧
      mem1.length = n ∧ mem1[0]? = some c ∧
      ∀ i : Nat, (∀ g, g < (sizing dev n).1 → i ≠ g * (sizing dev n).2) →
        mem1[i]? = mem[i]? := by
  generalize hGd : (sizing dev n).1 = G at *
  generalize hWd : (sizing dev n).2 = W at *
  have hmem : ∀ g, g ∈ sched ↔ g < G := fun g => by
    rw [hperm.mem_iff, List.mem_range]
  have hnd : sched.Nodup := hperm.nodup_iff.mpr (List.nodup_range G)
  have hidx : ∀ g, g < G → g * W < n := by
    intro g hg
    have : g * W ≤ (G - 1) * W := Nat.mul_le_mul_right W (by omega)
    omega
  have hk : p % (G * W) / W < G := by
    apply Nat.div_lt_of_lt_mul
    have h := Nat.mod_lt p (Nat.mul_pos hG hW)
    rwa [Nat.mul_comm W G]
  obtain ⟨mem1, hrun1, hlen1, hpos1, hframe1, hk1⟩ :=
    phase1_min_some junk n G W hG hW c hc p hp hs2 sched mem hnd
      (fun g hg => (hmem g).mp hg) (fun g hg => hidx g ((hmem g).mp hg)) hn hpos
  have hkc := hk1 ((hmem _).mpr hk) hmp
  obtain ⟨v, hrun2, hv0, hv1⟩ := phase2_min junk mem1 n G W hG hlen1 hin c hpos1
  have hvc : v = c := le_antisymm (hv1 _ c hk hkc) hv0
  subst hvc
  refine ⟨mem1.set 0 v, ?_, by simp [hlen1], ?_, ?_⟩
  · have hW0 : W ≠ 0 := by omega
    simp only [parallel_reduce_1d, hGd, hWd, phase1, hW0, if_false, hrun1, hrun2]
  · have : 0 < mem1.length := by omega
    simp [List.getElem?_set, this]
  · intro i hi
    have hi0 : i ≠ 0 := by
      have := hi 0 hG
      simpa using this
    rw [List.getElem?_set_ne (Ne.symm hi0)]
    exact hframe1 i (fun g hg => hi g ((hmem g).mp hg))

/-- The engine aborts, for any order of the groups, when the work-group size is
0, when there is no group, or when the last output index `(G - 1) * W` is
outside the buffer. -/
theorem parallel_reduce_1d_min_none (junk : Int) (dev : Device) (sched : List Nat) (n : Nat)
    (mem : List Int) (c : Int)
    (hperm : sched.Perm (List.range (sizing dev n).1))
    (hn : mem.length = n) (hc : c ≤ DOUBLE_MAX) (hpos : ∀ v ∈ mem, c ≤ v)
    (hbad : (sizing dev n).1 = 0 ∨ (sizing dev n).2 = 0 ∨
      n ≤ ((sizing dev n).1 - 1) * (sizing dev n).2) :
    parallel_reduce_1d dev sched ⟨0, n, n⟩ (minCallbacks junk) mem = none := by
  generalize hGd : (sizing dev n).1 = G at *
  generalize hWd : (sizing dev n).2 = W at *
  by_cases hW : W = 0
  · simp [parallel_reduce_1d, hGd, hWd, phase1, hW]
  by_cases hG : G = 0
  · subst hG
    simp only [parallel_reduce_1d, hGd, hWd]
    cases phase1 (minCallbacks junk) ⟨0, n, n⟩ 0 W sched mem with
    | none => rfl
    | some m => exact phase2_min_zero junk W m
  have hlast : n ≤ (G - 1) * W := by
    rcases hbad with h | h | h
    · exact absurd h hG
    · exact absurd h hW
    · exact h
  have hmemG : G - 1 ∈ sched := by
    rw [hperm.mem_iff, List.mem_range]; omega
  have := phase1_min_none junk n G W (by omega) (by omega) c hc sched mem hn hpos
    ⟨G - 1, hmemG, hlast⟩
  simp [parallel_reduce_1d, hGd, hWd, phase1, hW, this]

/-! ### The data set of the harness -/

theorem toDouble_nonneg (k : Nat) : 0 ≤ toDouble k := by
  unfold toDouble
  split
  · exact Int.ofNat_nonneg k
  · exact Int.ofNat_nonneg _

theorem toDouble_zero : toDouble 0 = 0 := by decide

theorem prepareSYCLBuffer_length (size : Nat) : (prepareSYCLBuffer size).length = size := by
  simp [prepareSYCLBuffer]

theorem prepareSYCLBuffer_getElem? (size i : Nat) (hi : i < size) :
    (prepareSYCLBuffer size)[i]? = some (toDouble (if i = 1 then 0 else i + 1)) := by
  simp [prepareSYCLBuffer, List.getElem?_map, List.getElem?_range hi]

theorem prepareSYCLBuffer_nonneg (size : Nat) : ∀ v ∈ prepareSYCLBuffer size, 0 ≤ v := by
  intro v hv
  simp only [prepareSYCLBuffer, List.mem_map] at hv
  obtain ⟨i, _, rfl⟩ := hv
  exact toDouble_nonneg _

/-- The buffer of `prepareSYCLBuffer` has a least element, at index 1 when it has
two elements or more and at index 0 otherwise; that element is `0` in the first
case, and it is below `DOUBLE_MAX`. -/
theorem prepareSYCLBuffer_least (size : Nat) (hs : 0 < size) :
    ∃ (c : Int) (p : Nat), c ≤ DOUBLE_MAX ∧ (∀ v ∈ prepareSYCLBuffer size, c ≤ v) ∧
      p < size ∧ (prepareSYCLBuffer size)[p]? = some c ∧ p < 2 ∧ (2 ≤ size → c = 0) := by
  by_cases h2 : 2 ≤ size
  · refine ⟨0, 1, DOUBLE_MAX_nonneg, prepareSYCLBuffer_nonneg size, by omega, ?_, by omega,
      fun _ => rfl⟩
    rw [prepareSYCLBuffer_getElem? size 1 (by omega)]
    simp [toDouble_zero]
  · have h1 : size = 1 := by omega
    subst h1
    refine ⟨1, 0, by unfold DOUBLE_MAX; decide, ?_, by omega, by decide, by omega,
      fun h => absurd h (by decide)⟩
    intro v hv
    have : prepareSYCLBuffer 1 = [1] := by decide
    rw [this] at hv
    simp at hv
    omega

theorem mod_mod_lt_two (p T W : Nat) (hp : p < 2) : p % T % W < 2 := by
  have h1 : p % T ≤ p := Nat.mod_le _ _
  have h2 : p % T % W ≤ p % T := Nat.mod_le _ _
  omega

/-- For a data set with at least one element, `reduceSYCLGeneric` is the engine
run in place on the prepared buffer over `[0, size)`, followed by the read of
element 0. -/
theorem reduceSYCLGenericBuffer_eq (dev : Device) (sched : List Nat) (junk : Int) (N : Nat)
    (hs : 0 < (N * N) % 2 ^ 64) :
    reduceSYCLGenericBuffer dev sched junk N =
      parallel_reduce_1d dev sched ⟨0, (N * N) % 2 ^ 64, (N * N) % 2 ^ 64⟩
        (minCallbacks junk) (prepareSYCLBuffer ((N * N) % 2 ^ 64)) := by
  have hlt : (N * N) % 2 ^ 64 < 2 ^ 64 := Nat.mod_lt _ (by decide)
  have hm := Range1D.make_eq 0 ((N * N) % 2 ^ 64) (by decide) hlt
  simp only [hs, if_true, Nat.sub_zero] at hm
  simp only [reduceSYCLGenericBuffer, minReduce, hm]

/-- The run of `reduceSYCLGenericBuffer`, for every data set, every device and
every order of the groups: it aborts when the data set is empty, when the sizing
has no group or an empty work-group, or when the last output index is outside
the buffer; otherwise it ends with the least element of the data set in slot 0
and with every index that is no group's output index unchanged. -/
theorem reduceSYCLGenericBuffer_cases (dev : Device) (sched : List Nat) (junk : Int) (N : Nat)
    (hperm : sched.Perm (List.range (sizing dev ((N * N) % 2 ^ 64)).1)) :
    (((N * N) % 2 ^ 64 = 0 ∨ (sizing dev ((N * N) % 2 ^ 64)).1 = 0 ∨
        (sizing dev ((N * N) % 2 ^ 64)).2 = 0 ∨
        (N * N) % 2 ^ 64 ≤
          ((sizing dev ((N * N) % 2 ^ 64)).1 - 1) * (sizing dev ((N * N) % 2 ^ 64)).2) ∧
      reduceSYCLGenericBuffer dev sched junk N = none) ∨
    ((0 < (N * N) % 2 ^ 64 ∧ 0 < (sizing dev ((N * N) % 2 ^ 64)).1 ∧
        0 < (sizing dev ((N * N) % 2 ^ 64)).2 ∧
        ((sizing dev ((N * N) % 2 ^ 64)).1 - 1) * (sizing dev ((N * N) % 2 ^ 64)).2 <
          (N * N) % 2 ^ 64) ∧
      ∃ (c : Int) (buf : List Int), reduceSYCLGenericBuffer dev sched junk N = some buf ∧
        buf.length = (N * N) % 2 ^ 64 ∧ buf[0]? = some c ∧
        c ∈ prepareSYCLBuffer ((N * N) % 2 ^ 64) ∧
        (∀ v ∈ prepareSYCLBuffer ((N * N) % 2 ^ 64), c ≤ v) ∧
        (2 ≤ (N * N) % 2 ^ 64 → c = 0) ∧
        ∀ i : Nat, (∀ g, g < (sizing dev ((N * N) % 2 ^ 64)).1 →
            i ≠ g * (sizing dev ((N * N) % 2 ^ 64)).2) →
          buf[i]? = (prepareSYCLBuffer ((N * N) % 2 ^ 64))[i]?) := by
  generalize hsz : (N * N) % 2 ^ 64 = size at *
  have hlt : size < 2 ^ 64 := by rw [← hsz]; exact Nat.mod_lt _ (by decide)
  by_cases hs : size = 0
  · left
    refine ⟨Or.inl hs, ?_⟩
    subst hs
    have hsz' : N * N % 18446744073709551616 = 0 := by simpa using hsz
    simp [reduceSYCLGenericBuffer, minReduce, hsz', Range1D.make]
  have hs' : 0 < size := by omega
  have heq := reduceSYCLGenericBuffer_eq dev sched junk N (by rw [hsz]; exact hs')
  rw [hsz] at heq
  obtain ⟨c, p, hc, hpos, hp, hmp, hp2, hc0⟩ := prepareSYCLBuffer_least size hs'
  by_cases hok : 0 < (sizing dev size).1 ∧ 0 < (sizing dev size).2 ∧
      ((sizing dev size).1 - 1) * (sizing dev size).2 < size
  · right
    obtain ⟨hG, hW, hin⟩ := hok
    obtain ⟨buf, hrun, hlen, h0, hframe⟩ := parallel_reduce_1d_min junk dev sched size
      (prepareSYCLBuffer size) c p hG hW hin hperm (prepareSYCLBuffer_length size) hc hpos hp
      hmp (mod_mod_lt_two p _ _ hp2)
    exact ⟨⟨hs', hG, hW, hin⟩, c, buf, by rw [heq, hrun], hlen, h0, List.getElem?_mem hmp,
      hpos, hc0, hframe⟩
  · left
    have hbad : (sizing dev size).1 = 0 ∨ (sizing dev size).2 = 0 ∨
        size ≤ ((sizing dev size).1 - 1) * (sizing dev size).2 := by
      by_cases h1 : (sizing dev size).1 = 0
      · exact Or.inl h1
      by_cases h2 : (sizing dev size).2 = 0
      · exact Or.inr (Or.inl h2)
      right; right
      by_contra h3
      exact hok ⟨by omega, by omega, by omega⟩
    refine ⟨Or.inr hbad, ?_⟩
    rw [heq]
    exact parallel_reduce_1d_min_none junk dev sched size (prepareSYCLBuffer size) c hperm
      (prepareSYCLBuffer_length size) hc hpos hbad

theorem reduceSYCLGeneric_of_none (dev : Device) (sched : List Nat) (junk : Int) (N : Nat)
    (h : reduceSYCLGenericBuffer dev sched junk N = none) :
    reduceSYCLGeneric dev sched junk N = none := by
  simp only [reduceSYCLGeneric, h]

theorem reduceSYCLGeneric_of_some (dev : Device) (sched : List Nat) (junk : Int) (N : Nat)
    (buf : List Int) (h : reduceSYCLGenericBuffer dev sched junk N = some buf) :
    reduceSYCLGeneric dev sched junk N = buf[0]? := by
  simp only [reduceSYCLGeneric, h, readAt]

/-! ### The sequential oracle -/

theorem foldl_min_spec (l : List Int) :
    ∀ m0 : Int, (l.foldl (fun m y => if y < m then y else m) m0 = m0 ∨
        l.foldl (fun m y => if y < m then y else m) m0 ∈ l) ∧
      l.foldl (fun m y => if y < m then y else m) m0 ≤ m0 ∧
      ∀ v ∈ l, l.foldl (fun m y => if y < m then y else m) m0 ≤ v := by
  induction l with
  | nil => intro m0; simp
  | cons x xs ih =>
    intro m0
    obtain ⟨h1, h2, h3⟩ := ih (if x < m0 then x else m0)
    simp only [List.foldl_cons]
    refine ⟨?_, ?_, ?_⟩
    · rcases h1 with h | h
      · by_cases hx : x < m0
        · right; rw [h]; simp [hx]
        · left; rw [h]; simp [hx]
      · right; exact List.mem_cons_of_mem _ h
    · refine le_trans h2 ?_
      split <;> omega
    · intro v hv
      rcases List.mem_cons.mp hv with e | e
      · subst e
        refine le_trans h2 ?_
        split <;> omega
      · exact h3 v e

/-- The function `min_element` on a non-empty list returns an element of the
list that is below every element. -/
theorem min_element_spec (l : List Int) (hl : l ≠ []) :
    ∃ m, min_element l = some m ∧ m ∈ l ∧ ∀ v ∈ l, m ≤ v := by
  cases l with
  | nil => exact absurd rfl hl
  | cons x xs =>
    obtain ⟨h1, h2, h3⟩ := foldl_min_spec xs x
    refine ⟨_, rfl, ?_, ?_⟩
    · rcases h1 with h | h
      · rw [h]; exact List.mem_cons_self _ _
      · exact List.mem_cons_of_mem _ h
    · intro v hv
      rcases List.mem_cons.mp hv with e | e
      · rw [e]; exact h2
      · exact h3 v e

/-- The oracle returns `0` on every data set with two elements or more. -/
theorem reduceSTL_eq_zero (N : Nat) (h2 : 2 ≤ (N * N) % 2 ^ 64) : reduceSTL N = some 0 := by
  generalize hxs : (List.range ((N * N) % 2 ^ 64)).map (fun i => toDouble (i + 1)) = xs
  have hlen : xs.length = (N * N) % 2 ^ 64 := by rw [← hxs]; simp
  have hw : writeAt xs 1 0 = some (xs.set 1 0) := writeAt_of_lt xs 1 0 (by omega)
  have hne : xs.set 1 0 ≠ [] := by
    intro h
    have : (xs.set 1 0).length = 0 := by rw [h]; rfl
    rw [List.length_set] at this
    omega
  obtain ⟨m, hm, hmem, hle⟩ := min_element_spec (xs.set 1 0) hne
  have h0 : (0 : Int) ∈ xs.set 1 0 := by
    have h1 : 1 < xs.length := by omega
    have h : (xs.set 1 0)[1]? = some 0 := by simp [List.getElem?_set, h1]
    exact List.getElem?_mem h
  have hm0 : 0 ≤ m := by
    rcases List.mem_or_eq_of_mem_set hmem with h | h
    · rw [← hxs] at h
      simp only [List.mem_map] at h
      obtain ⟨i, _, rfl⟩ := h
      exact toDouble_nonneg _
    · omega
  have : m = 0 := le_antisymm (hle 0 h0) hm0
  subst this
  simp only [reduceSTL, hxs, hw, hm]

/-! ### The claims -/

/-- C1 (the code departs from the claim): on a CPU with one compute unit and
native vector width 3 the group size is 6; the reduction of `[5, 5, 1, 5, 5, 5]`
over `[0, 6)` leaves `5` in output slot 0, while the sequential fold of the
minimum over the same data is `1`. -/
theorem parallel_reduce_1d_drops_slots :
    (sizing ⟨true, 1, 3, 0⟩ 6 = (1, 6)) ∧
    (minReduce ⟨true, 1, 3, 0⟩ [0] 0 0 6 [5, 5, 1, 5, 5, 5]).bind (fun b => readAt b 0) =
      some 5 ∧
    List.foldl fmin DOUBLE_MAX [5, 5, 1, 5, 5, 5] = 1 := by
  decide!

/-- C2, as stated, fails: for `N = 1` the data set is the single element `1`
and `reduceSYCLGeneric` returns `1`. -/
theorem reduceSYCLGeneric_single_element :
    prepareSYCLBuffer ((1 * 1) % 2 ^ 64) = [1] ∧
    reduceSYCLGeneric ⟨true, 1, 1, 0⟩ [0] 0 1 = some 1 ∧
    reduceSYCLGeneric ⟨true, 1, 1, 0⟩ [0] 0 1 ≠ some 0 := by
  decide!

/-- C2, amended: for every `N` whose data set has two elements or more, every
device whose sizing has at least one group, a non-empty work-group and its last
output index `(numGroups - 1) * groupSize` inside the buffer, every order of the
groups and every initial content of scratch memory, `reduceSYCLGeneric` returns
exactly `0`. -/
theorem reduceSYCLGeneric_returns_zero (dev : Device) (sched : List Nat) (junk : Int) (N : Nat)
    (h2 : 2 ≤ (N * N) % 2 ^ 64)
    (hG : 0 < (sizing dev ((N * N) % 2 ^ 64)).1)
    (hW : 0 < (sizing dev ((N * N) % 2 ^ 64)).2)
    (hin : ((sizing dev ((N * N) % 2 ^ 64)).1 - 1) * (sizing dev ((N * N) % 2 ^ 64)).2 <
      (N * N) % 2 ^ 64)
    (hperm : sched.Perm (List.range (sizing dev ((N * N) % 2 ^ 64)).1)) :
    reduceSYCLGeneric dev sched junk N = some 0 := by
  rcases reduceSYCLGenericBuffer_cases dev sched junk N hperm with ⟨hbad, _⟩ | ⟨_, h⟩
  · omega
  · obtain ⟨c, buf, hrun, _, h0, _, _, hc0, _⟩ := h
    rw [hc0 h2] at h0
    rw [reduceSYCLGeneric_of_some _ _ _ _ buf hrun, h0]

/-- The harness run, `N = 128`, on a CPU with 8 compute units and native vector
width 4 (8 groups of 8 workers) returns `0`. -/
theorem reduceSYCLGeneric_returns_zero_witness :
    reduceSYCLGeneric ⟨true, 8, 4, 0⟩ (List.range 8) 0 128 = some 0 :=
  reduceSYCLGeneric_returns_zero ⟨true, 8, 4, 0⟩ (List.range 8) 0 128 (by decide) (by decide)
    (by decide) (by decide) (List.Perm.refl _)

/-- C3 (the code departs from the claim): on an accelerator with 80 compute
units and work-groups of 1024 the harness run `N = 128` asks for 320 groups;
group 16 publishes at index `16 * 1024 = 16384`, outside the buffer of 16384
elements, and the run aborts, while the oracle returns `0`. -/
theorem reduceSYCLGeneric_harness_out_of_bounds :
    sizing ⟨false, 80, 0, 1024⟩ ((128 * 128) % 2 ^ 64) = (320, 1024) ∧
    reduceSYCLGeneric ⟨false, 80, 0, 1024⟩ (List.range 320) 0 128 = none ∧
    reduceSTL 128 = some 0 := by
  refine ⟨by decide, ?_, reduceSTL_eq_zero 128 (by decide)⟩
  have hsz : sizing ⟨false, 80, 0, 1024⟩ ((128 * 128) % 2 ^ 64) = (320, 1024) := by decide
  rcases reduceSYCLGenericBuffer_cases ⟨false, 80, 0, 1024⟩ (List.range 320) 0 128
    (by rw [hsz]) with ⟨_, hnone⟩ | ⟨⟨_, _, _, hin⟩, _⟩
  · exact reduceSYCLGeneric_of_none _ _ _ _ hnone
  · rw [hsz] at hin
    exact absurd hin (by decide)

/-- C4 (the code departs from the claim): with a group size of 6 the halving
loop runs the offsets 3 and 1; started on the scratch contents
`[9, 8, 1, 7, 6, 5]` it ends with `6` in slot 0, in the engine and in
`reduceSYCLNonGeneric` alike, because slots 2 and 5 are never combined into
slot 0, while the minimum of the six slots is `1`. -/
theorem treeLoop_six_misses_minimum :
    (treeLoop (minCallbacks 0) 6 6 (6 / 2) ⟨[9, 8, 1, 7, 6, 5], []⟩ =
      some ⟨[6, 6, 1, 7, 6, 5], []⟩) ∧
    ngTreeLoop 6 6 (6 / 2) [9, 8, 1, 7, 6, 5] = some [6, 6, 1, 7, 6, 5] ∧
    min_element [9, 8, 1, 7, 6, 5] = some 1 := by
  decide!

/-- C5 (the code departs from the claim): on an accelerator with one compute
unit and work-groups of 256, `N = 3` gives a buffer of 9 elements and 4 groups,
so the buffer is longer than the number of groups; group 1 publishes at index
256, outside the buffer, and aborts, and so does the whole run. -/
theorem runGroup_output_index_out_of_bounds :
    sizing ⟨false, 1, 0, 256⟩ ((3 * 3) % 2 ^ 64) = (4, 256) ∧
    4 ≤ (prepareSYCLBuffer ((3 * 3) % 2 ^ 64)).length ∧
    (prepareSYCLBuffer ((3 * 3) % 2 ^ 64)).length ≤ 1 * 256 ∧
    runGroup (minCallbacks 0) ⟨0, 9, 9⟩ 4 256 (prepareSYCLBuffer 9) 1 = none ∧
    reduceSYCLGenericBuffer ⟨false, 1, 0, 256⟩ [0, 1, 2, 3] 0 3 = none := by
  have hsz : sizing ⟨false, 1, 0, 256⟩ ((3 * 3) % 2 ^ 64) = (4, 256) := by decide
  refine ⟨hsz, by decide, by decide, ?_, ?_⟩
  · exact (runGroup_min 0 (prepareSYCLBuffer 9) 9 4 256 1 (by decide) (by decide)
      (prepareSYCLBuffer_length 9) 0 DOUBLE_MAX_nonneg (prepareSYCLBuffer_nonneg 9)).1
      (by decide)
  · rcases reduceSYCLGenericBuffer_cases ⟨false, 1, 0, 256⟩ [0, 1, 2, 3] 0 3
      (by rw [hsz]; decide) with ⟨_, hnone⟩ | ⟨⟨_, _, _, hin⟩, _⟩
    · exact hnone
    · rw [hsz] at hin
      exact absurd hin (by decide)

/-- C6 (the code departs from the claim): on a CPU with two compute units and
native vector width 1 (two groups of two workers), `N = 2`, when group 1 runs
before group 0, `reduceSYCLNonGeneric` returns `1` and `reduceSYCLGeneric`
returns `0`: group 1 of the hand-written variant publishes at index 1 and
overwrites the element `0` before worker 1 of group 0 reads it. -/
theorem reduceSYCLNonGeneric_differs :
    reduceSYCLNonGeneric ⟨true, 2, 1, 0⟩ [1, 0] 0 2 = some 1 ∧
    reduceSYCLGeneric ⟨true, 2, 1, 0⟩ [1, 0] 0 2 = some 0 := by
  decide!

/-- C9, as stated, fails: `reduceSYCLGeneric` reduces in place, its input and
its output are one buffer.  For `N = 2` on a CPU with two compute units and
native vector width 1 the buffer is `[1, 0, 3, 4]` before the reduction and
`[0, 0, 3, 4]` after it: element 0 has changed. -/
theorem reduceSYCLGeneric_overwrites_input :
    prepareSYCLBuffer ((2 * 2) % 2 ^ 64) = [1, 0, 3, 4] ∧
    reduceSYCLGenericBuffer ⟨true, 2, 1, 0⟩ [0, 1] 0 2 = some [0, 0, 3, 4] ∧
    ¬ (∀ buf, reduceSYCLGenericBuffer ⟨true, 2, 1, 0⟩ [0, 1] 0 2 = some buf →
      ∀ i : Nat, buf[i]? = (prepareSYCLBuffer ((2 * 2) % 2 ^ 64))[i]?) := by
  have h1 : prepareSYCLBuffer ((2 * 2) % 2 ^ 64) = [1, 0, 3, 4] := by decide!
  have h2 : reduceSYCLGenericBuffer ⟨true, 2, 1, 0⟩ [0, 1] 0 2 = some [0, 0, 3, 4] := by
    decide!
  refine ⟨h1, h2, fun h => ?_⟩
  have h3 := h _ h2 0
  rw [h1] at h3
  exact absurd h3 (by decide)

/-! ### The loops as folds over their index sequences -/

theorem strideIndices_of_le (from_ n T w : Nat) (hT : 0 < T) (h : n ≤ w) :
    strideIndices from_ n T w = [] := by
  have h0 : (n - w + T - 1) / T = 0 := by
    apply Nat.div_eq_of_lt
    omega
  simp [strideIndices, h0]

theorem strideIndices_of_lt (from_ n T w : Nat) (hT : 0 < T) (h : w < n) :
    strideIndices from_ n T w = (from_ + w) :: strideIndices from_ n T (w + T) := by
  have h1 : (n - w + T - 1) / T = (n - (w + T) + T - 1) / T + 1 := by
    by_cases h2 : w + T ≤ n
    · have e : n - w + T - 1 = (n - (w + T) + T - 1) + T := by omega
      rw [e, Nat.add_div_right _ hT]
    · have e1 : (n - (w + T) + T - 1) / T = 0 := by
        apply Nat.div_eq_of_lt
        omega
      have e2 : n - w + T - 1 = (n - w - 1) + T := by omega
      rw [e1, e2, Nat.add_div_right _ hT]
      have e3 : (n - w - 1) / T = 0 := by
        apply Nat.div_eq_of_lt
        omega
      rw [e3]
  simp only [strideIndices, h1, List.range_succ_eq_map, List.map_cons, List.map_map]
  congr 1
  · simp
  · apply List.map_congr_left
    intro k _
    simp only [Function.comp]
    rw [Nat.succ_mul]
    omega

/-- The grid-stride loop of a worker calls `functor` on the indices of
`strideIndices`, in that order, and on nothing else. -/
theorem strideLoop_eq_foldlM {α : Type} (cb : Callbacks α) (l from_ n T : Nat) (hT : 0 < T) :
    ∀ (fuel gid : Nat) (ctx : LocalReducer α), n ≤ gid + fuel →
      strideLoop cb l from_ n T fuel gid ctx =
        (strideIndices from_ n T gid).foldlM (fun c i => cb.functor c l i) ctx := by
  intro fuel
  induction fuel with
  | zero =>
    intro gid ctx h
    rw [strideLoop, strideIndices_of_le from_ n T gid hT (by omega)]
    simp [show ¬ gid < n by omega]
  | succ fuel ih =>
    intro gid ctx h
    rw [strideLoop]
    by_cases hlt : gid < n
    · rw [strideIndices_of_lt from_ n T gid hT hlt]
      simp only [hlt, if_true, List.foldlM_cons]
      cases hf : cb.functor ctx l (from_ + gid) with
      | none => rfl
      | some ctx1 =>
        simp only [Option.bind_eq_bind, Option.some_bind]
        exact ih (gid + T) ctx1 (by omega)
    · rw [strideIndices_of_le from_ n T gid hT (by omega)]
      simp [hlt]

theorem mem_strideIndices_iff_exists (from_ n T w : Nat) (hT : 0 < T) (i : Nat) :
    i ∈ strideIndices from_ n T w ↔ ∃ k, w + k * T < n ∧ i = from_ + (w + k * T) := by
  simp only [strideIndices, List.mem_map, List.mem_range]
  constructor
  · rintro ⟨k, hk, rfl⟩
    refine ⟨k, ?_, rfl⟩
    have h1 : (k + 1) * T ≤ n - w + T - 1 := (Nat.le_div_iff_mul_le hT).mp hk
    rw [Nat.succ_mul] at h1
    omega
  · rintro ⟨k, hk, rfl⟩
    refine ⟨k, ?_, rfl⟩
    apply (Nat.le_div_iff_mul_le hT).mpr
    rw [Nat.succ_mul]
    omega

/-- Worker `w < T` visits exactly the indices of `[from, from + n)` whose
offset from `from` is congruent to `w` modulo `T`. -/
theorem mem_strideIndices (from_ n T w : Nat) (hT : 0 < T) (hw : w < T) (i : Nat) :
    i ∈ strideIndices from_ n T w ↔ from_ ≤ i ∧ i < from_ + n ∧ (i - from_) % T = w := by
  rw [mem_strideIndices_iff_exists from_ n T w hT]
  constructor
  · rintro ⟨k, hk, rfl⟩
    refine ⟨by omega, by omega, ?_⟩
    have e : from_ + (w + k * T) - from_ = w + k * T := by omega
    rw [e, Nat.add_mul_mod_self_right]
    exact Nat.mod_eq_of_lt hw
  · rintro ⟨h1, h2, h3⟩
    refine ⟨(i - from_) / T, ?_, ?_⟩
    · have := Nat.mod_add_div' (i - from_) T
      omega
    · have := Nat.mod_add_div' (i - from_) T
      omega

theorem strideIndices_nodup (from_ n T w : Nat) (hT : 0 < T) :
    (strideIndices from_ n T w).Nodup := by
  unfold strideIndices
  apply List.Nodup.map _ (List.nodup_range _)
  intro a b h
  simp only at h
  have h1 : a * T = b * T := by omega
  exact Nat.eq_of_mul_eq_mul_right hT h1

/-- The grid-stride loop of `reduceSYCLNonGeneric` folds `drain` at the indices
of `strideIndices`, in that order. -/
theorem ngStrideLoop_eq_foldlM (drain : List Int) (l n T : Nat) (hT : 0 < T) :
    ∀ (fuel gid : Nat) (loc : List Int), n ≤ gid + fuel →
      ngStrideLoop drain l n T fuel gid loc =
        (strideIndices 0 n T gid).foldlM
          (fun lc i => match readAt lc l, readAt drain i with
            | some a, some b => writeAt lc l (fmin a b)
            | _, _ => none) loc := by
  intro fuel
  induction fuel with
  | zero =>
    intro gid loc h
    rw [ngStrideLoop, strideIndices_of_le 0 n T gid hT (by omega)]
    simp [show ¬ gid < n by omega]
  | succ fuel ih =>
    intro gid loc h
    rw [ngStrideLoop]
    by_cases hlt : gid < n
    · rw [strideIndices_of_lt 0 n T gid hT hlt]
      simp only [hlt, if_true, List.foldlM_cons, Nat.zero_add]
      cases ha : readAt loc l with
      | none => simp
      | some a =>
        cases hb : readAt drain gid with
        | none => simp
        | some b =>
          cases hw : writeAt loc l (fmin a b) with
          | none => simp [hw]
          | some loc1 =>
            simp only [hw, Option.bind_eq_bind, Option.some_bind]
            exact ih (gid + T) loc1 (by omega)
    · rw [strideIndices_of_le 0 n T gid hT (by omega)]
      simp [hlt]

/-- C12: for a range built by `Range1D(from, to)` and a sizing with
`numGroups >= 1`, `groupSize >= 1`, `T = numGroups * groupSize`: the grid-stride
loop of worker `(g, l)`, in the engine and in `reduceSYCLNonGeneric`, folds into
scratch slot `l` the indices `strideIndices from n T (g * groupSize + l)` and
no others; worker `w < T` visits exactly the indices `i` of `[from, to)` with
`(i - from) mod T = w`, each once; the index sets of two workers are disjoint;
and every `i` of `[from, to)` is visited by the worker of group
`((i - from) mod T) / groupSize` with local id `(i - from) mod groupSize`. -/
theorem grid_stride_coverage (from_ to_ : Nat) (range : Range1D) (G W : Nat)
    (hf : from_ < 2 ^ 64) (ht : to_ < 2 ^ 64) (hr : Range1D.make from_ to_ = some range)
    (hG : 1 ≤ G) (hW : 1 ≤ W) :
    range.from_ = from_ ∧ range.from_ + range.size = to_ ∧ 1 ≤ range.size ∧
    (∀ {α : Type} (cb : Callbacks α) (g l : Nat) (ctx : LocalReducer α),
      workerFold cb range G W g ctx l =
        (cb.empty ctx l).bind (fun c1 =>
          (strideIndices range.from_ range.size (G * W) (g * W + l)).foldlM
            (fun c i => cb.functor c l i) c1)) ∧
    (∀ (drain loc : List Int) (g l : Nat),
      ngWorkerFold drain range.size G W g loc l =
        (writeAt loc l DOUBLE_MAX).bind (fun loc1 =>
          (strideIndices 0 range.size (G * W) (g * W + l)).foldlM
            (fun lc i => match readAt lc l, readAt drain i with
              | some a, some b => writeAt lc l (fmin a b)
              | _, _ => none) loc1)) ∧
    (∀ w i, w < G * W →
      (i ∈ strideIndices range.from_ range.size (G * W) w ↔
        from_ ≤ i ∧ i < to_ ∧ (i - from_) % (G * W) = w)) ∧
    (∀ w, (strideIndices range.from_ range.size (G * W) w).Nodup) ∧
    (∀ w1 w2, w1 < G * W → w2 < G * W → w1 ≠ w2 →
      List.Disjoint (strideIndices range.from_ range.size (G * W) w1)
        (strideIndices range.from_ range.size (G * W) w2)) ∧
    (∀ i, from_ ≤ i → i < to_ →
      (i - from_) % (G * W) / W < G ∧ (i - from_) % W < W ∧
      (i - from_) % (G * W) / W * W + (i - from_) % W = (i - from_) % (G * W) ∧
      i ∈ strideIndices range.from_ range.size (G * W)
        ((i - from_) % (G * W) / W * W + (i - from_) % W)) := by
  have hT : 0 < G * W := Nat.mul_pos hG hW
  have hm := Range1D.make_eq from_ to_ hf ht
  rw [hr] at hm
  have hlt : from_ < to_ := by
    by_contra h
    simp [h] at hm
  simp only [hlt, if_true, Option.some.injEq] at hm
  subst hm
  have hmem : ∀ w i, w < G * W →
      (i ∈ strideIndices from_ (to_ - from_) (G * W) w ↔
        from_ ≤ i ∧ i < to_ ∧ (i - from_) % (G * W) = w) := by
    intro w i hw
    rw [mem_strideIndices from_ (to_ - from_) (G * W) w hT hw]
    constructor
    · rintro ⟨h1, h2, h3⟩; exact ⟨h1, by omega, h3⟩
    · rintro ⟨h1, h2, h3⟩; exact ⟨h1, by omega, h3⟩
  refine ⟨rfl, by show from_ + (to_ - from_) = to_; omega, by show 1 ≤ to_ - from_; omega,
    ?_, ?_, hmem, ?_, ?_, ?_⟩
  · intro α cb g l ctx
    unfold workerFold
    cases cb.empty ctx l with
    | none => rfl
    | some c1 =>
      simp only [Option.some_bind]
      exact strideLoop_eq_foldlM cb l from_ (to_ - from_) (G * W) hT _ _ c1 (by omega)
  · intro drain loc g l
    unfold ngWorkerFold
    cases writeAt loc l DOUBLE_MAX with
    | none => rfl
    | some loc1 =>
      simp only [Option.some_bind]
      exact ngStrideLoop_eq_foldlM drain l (to_ - from_) (G * W) hT _ _ loc1 (by omega)
  · intro w
    exact strideIndices_nodup from_ (to_ - from_) (G * W) w hT
  · intro w1 w2 h1 h2 hne i hi1 hi2
    have e1 := ((hmem w1 i h1).mp hi1).2.2
    have e2 := ((hmem w2 i h2).mp hi2).2.2
    exact hne (e1.symm.trans e2)
  · intro i h1 h2
    have hdm : (i - from_) % (G * W) / W * W + (i - from_) % (G * W) % W =
        (i - from_) % (G * W) := Nat.div_add_mod' _ _
    have hmm : (i - from_) % (G * W) % W = (i - from_) % W :=
      Nat.mod_mod_of_dvd _ (Dvd.intro_left G rfl)
    rw [hmm] at hdm
    refine ⟨?_, Nat.mod_lt _ hW, hdm, ?_⟩
    · apply Nat.div_lt_of_lt_mul
      have h := Nat.mod_lt (i - from_) hT
      rwa [Nat.mul_comm W G]
    · rw [hdm]
      exact (hmem _ i (Nat.mod_lt _ hT)).mpr ⟨h1, h2, rfl⟩

/-- The harness range `[0, 16384)` with 8 groups of 8 workers: element 100 is
folded by the worker of group `(100 mod 64) / 8 = 4` with local id
`100 mod 8 = 4`. -/
theorem grid_stride_coverage_witness :
    (100 - 0) % (8 * 8) / 8 < 8 ∧ (100 - 0) % 8 < 8 ∧
      (100 - 0) % (8 * 8) / 8 * 8 + (100 - 0) % 8 = (100 - 0) % (8 * 8) ∧
      100 ∈ strideIndices (Range1D.mk 0 16384 16384).from_ (Range1D.mk 0 16384 16384).size
        (8 * 8) ((100 - 0) % (8 * 8) / 8 * 8 + (100 - 0) % 8) :=
  (grid_stride_coverage 0 16384 ⟨0, 16384, 16384⟩ 8 8 (by decide) (by decide) (by decide)
    (by decide) (by decide)).2.2.2.2.2.2.2.2 100 (by decide) (by decide)

/-! ### The halving loop -/

theorem halvingOffsets_zero (fuel : Nat) : halvingOffsets fuel 0 = [] := by
  cases fuel <;> simp [halvingOffsets]

theorem halvingOffsets_pos (fuel o : Nat) (ho : 0 < o) :
    halvingOffsets (fuel + 1) o = o :: halvingOffsets fuel (o / 2) := by
  rw [halvingOffsets]; simp [ho]

/-- The halving loop is the fold of its rounds over the offsets of
`halvingOffsets`: with `fuel >= offset` the fuel is never used up, the loop ends
unless a round aborts. -/
theorem treeLoop_eq_foldlM {α : Type} (cb : Callbacks α) (W : Nat) :
    ∀ (fuel o : Nat) (ctx : LocalReducer α), o ≤ fuel →
      treeLoop cb W fuel o ctx =
        (halvingOffsets fuel o).foldlM (fun c off => combineRound cb W off c) ctx := by
  intro fuel
  induction fuel with
  | zero =>
    intro o ctx h
    have ho : o = 0 := by omega
    subst ho
    rw [treeLoop, halvingOffsets_zero]; simp
  | succ fuel ih =>
    intro o ctx h
    by_cases ho : 0 < o
    · rw [treeLoop, halvingOffsets_pos fuel o ho]
      simp only [ho, if_true, List.foldlM_cons]
      cases combineRound cb W o ctx with
      | none => rfl
      | some ctx1 =>
        simp only [Option.bind_eq_bind, Option.some_bind]
        exact ih (o / 2) ctx1 (by omega)
    · have ho0 : o = 0 := by omega
      subst ho0
      rw [treeLoop, halvingOffsets_zero]; simp

/-- The same for the halving loop of `reduceSYCLNonGeneric`. -/
theorem ngTreeLoop_eq_foldlM (W : Nat) :
    ∀ (fuel o : Nat) (loc : List Int), o ≤ fuel →
      ngTreeLoop W fuel o loc =
        (halvingOffsets fuel o).foldlM (fun lc off => ngCombineRound W off lc) loc := by
  intro fuel
  induction fuel with
  | zero =>
    intro o loc h
    have ho : o = 0 := by omega
    subst ho
    rw [ngTreeLoop, halvingOffsets_zero]; simp
  | succ fuel ih =>
    intro o loc h
    by_cases ho : 0 < o
    · rw [ngTreeLoop, halvingOffsets_pos fuel o ho]
      simp only [ho, if_true, List.foldlM_cons]
      cases ngCombineRound W o loc with
      | none => rfl
      | some loc1 =>
        simp only [Option.bind_eq_bind, Option.some_bind]
        exact ih (o / 2) loc1 (by omega)
    · have ho0 : o = 0 := by omega
      subst ho0
      rw [ngTreeLoop, halvingOffsets_zero]; simp

/-- With enough fuel the offsets do not depend on the fuel, every offset is
positive and at most the first, the offsets decrease strictly, the last one is
1, and there are `floor(log2 o) + 1` of them. -/
theorem halvingOffsets_spec :
    ∀ (fuel o : Nat), o ≤ fuel →
      halvingOffsets fuel o = halvingOffsets o o ∧
      (∀ x ∈ halvingOffsets fuel o, 0 < x ∧ x ≤ o) ∧
      (halvingOffsets fuel o).Pairwise (fun a b => b < a) ∧
      (0 < o → (halvingOffsets fuel o).getLast? = some 1) ∧
      (0 < o → (halvingOffsets fuel o).length = Nat.log 2 o + 1) := by
  intro fuel
  induction fuel using Nat.strong_induction_on with
  | _ fuel ih =>
    intro o h
    by_cases ho : 0 < o
    · obtain ⟨f, rfl⟩ : ∃ f, fuel = f + 1 := ⟨fuel - 1, by omega⟩
      obtain ⟨o1, rfl⟩ : ∃ o1, o = o1 + 1 := ⟨o - 1, by omega⟩
      have hhalf : (o1 + 1) / 2 ≤ o1 := by omega
      obtain ⟨e1, m1, p1, l1, n1⟩ := ih f (by omega) ((o1 + 1) / 2) (by omega)
      obtain ⟨e2, _, _, _, _⟩ := ih o1 (by omega) ((o1 + 1) / 2) hhalf
      rw [halvingOffsets_pos f (o1 + 1) ho]
      refine ⟨?_, ?_, ?_, ?_, ?_⟩
      · rw [halvingOffsets_pos o1 (o1 + 1) ho, e1, e2]
      · intro x hx
        rcases List.mem_cons.mp hx with e | e
        · omega
        · have := m1 x e
          omega
      · apply List.Pairwise.cons _ p1
        intro x hx
        have := m1 x hx
        omega
      · intro _
        by_cases h2 : 0 < (o1 + 1) / 2
        · have hl := l1 h2
          have hn := n1 h2
          cases hrest : halvingOffsets f ((o1 + 1) / 2) with
          | nil => rw [hrest] at hn; simp at hn
          | cons y ys =>
            rw [hrest] at hl
            rw [List.getLast?_cons_cons]
            exact hl
        · have h0 : (o1 + 1) / 2 = 0 := by omega
          have ho1 : o1 = 0 := by omega
          subst ho1
          rw [h0, halvingOffsets_zero]
          rfl
      · intro _
        by_cases h2 : 0 < (o1 + 1) / 2
        · rw [List.length_cons, n1 h2, Nat.log_div_base]
          have : 0 < Nat.log 2 (o1 + 1) := Nat.log_pos (by decide) (by omega)
          omega
        · have h0 : (o1 + 1) / 2 = 0 := by omega
          have ho1 : o1 = 0 := by omega
          subst ho1
          rw [h0, halvingOffsets_zero]
          simp
    · have ho0 : o = 0 := by omega
      subst ho0
      rw [halvingOffsets_zero]
      exact ⟨by rw [halvingOffsets_zero], fun x hx => (by cases hx), List.Pairwise.nil,
        fun h => absurd h (by decide), fun h => absurd h (by decide)⟩

/-! ### The tree combine for an arbitrary operator -/

/-- One round of the tree combine with `2 * offset <= W`, for callbacks whose
combiner is `local[x] = op(local[x], local[y])`, on scratch memory `s` of length
`W`: the round ends, leaves the buffer alone, and the scratch becomes the
slot-wise `op` of the first `offset` slots with the `offset` slots that follow,
followed by the untouched slots from `offset` on. -/
theorem combineRound_op {α : Type} (cb : Callbacks α) (op : α → α → α)
    (hC : ∀ (loc mem : List α) (x y : Nat) (a b : α), loc[x]? = some a → loc[y]? = some b →
      cb.combiner ⟨loc, mem⟩ x y = some ⟨loc.set x (op a b), mem⟩)
    (W o : Nat) (ho : 2 * o ≤ W) (s : List α) (hlen : s.length = W) (mem : List α) :
    combineRound cb W o ⟨s, mem⟩ =
      some ⟨List.zipWith op (s.take o) (s.drop o) ++ s.drop o, mem⟩ := by
  have hZ : ∀ j a b, j < o → s[j]? = some a → s[j + o]? = some b →
      (List.zipWith op (s.take o) (s.drop o))[j]? = some (op a b) := by
    intro j a b hj ha hb
    rw [List.getElem?_zipWith, List.getElem?_take_of_lt hj, List.getElem?_drop,
      Nat.add_comm o j, ha, hb]
  obtain ⟨ctx, hrun, hres, hl1, hget⟩ := foldlM_range_inv
    (fun cx localId =>
      if localId < o then cb.combiner cx localId (localId + o) else some cx)
    (fun l cx => cx.result = mem ∧ cx.localMem.length = W ∧
      ∀ j : Nat, cx.localMem[j]? =
        if j < l ∧ j < o then (List.zipWith op (s.take o) (s.drop o))[j]? else s[j]?)
    W ⟨s, mem⟩ ⟨rfl, hlen, fun j => by simp⟩
    (by
      rintro l ⟨cur, res⟩ hl ⟨hres, hl1, hget⟩
      simp only at hres hl1 hget
      subst hres
      by_cases hlo : l < o
      · have ha : cur[l]? = some s[l] := by
          rw [hget l]; simp [List.getElem?_eq_getElem (show l < s.length by omega)]
        have hb : cur[l + o]? = some s[l + o] := by
          rw [hget (l + o)]
          simp [List.getElem?_eq_getElem (show l + o < s.length by omega)]
        refine ⟨_, by simp only [hlo, if_true]; exact hC cur res l (l + o) _ _ ha hb, rfl,
          by simp [hl1], ?_⟩
        intro j
        by_cases hjl : j = l
        · subst hjl
          simp only [List.getElem?_set, hl1, hl, if_true, hlo, Nat.lt_succ_self, and_self]
          exact (hZ j _ _ hlo (List.getElem?_eq_getElem (by omega))
            (List.getElem?_eq_getElem (by omega))).symm
        · simp only
          rw [List.getElem?_set_ne (Ne.symm hjl), hget j]
          have : (j < l + 1 ∧ j < o) ↔ (j < l ∧ j < o) := by omega
          simp only [this]
      · refine ⟨⟨cur, res⟩, by simp only [hlo, if_false], rfl, hl1, ?_⟩
        intro j
        simp only
        rw [hget j]
        have : (j < l + 1 ∧ j < o) ↔ (j < l ∧ j < o) := by omega
        simp only [this])
  obtain ⟨cur, res⟩ := ctx
  simp only at hres hl1 hget
  subst hres
  unfold combineRound
  rw [hrun]
  congr 2
  apply List.ext_getElem?
  intro j
  rw [hget j, List.getElem?_append]
  have hzl : (List.zipWith op (s.take o) (s.drop o)).length = o := by
    simp [List.length_zipWith, List.length_take, List.length_drop]
    omega
  rw [hzl]
  by_cases hjo : j < o
  · have : j < W ∧ j < o := ⟨by omega, hjo⟩
    rw [if_pos this, if_pos hjo]
  · have : ¬ (j < W ∧ j < o) := fun h => hjo h.2
    rw [if_neg this, if_neg hjo, List.getElem?_drop, show o + (j - o) = j by omega]

theorem foldl_op_assoc {α : Type} (op : α → α → α)
    (hA : ∀ a b c, op (op a b) c = op a (op b c)) :
    ∀ (ys : List α) (c b : α), ys.foldl op (op c b) = op c (ys.foldl op b) := by
  intro ys
  induction ys with
  | nil => intro c b; rfl
  | cons y ys ih =>
    intro c b
    simp only [List.foldl_cons]
    rw [hA, ih]

theorem foldl_zipWith_op {α : Type} (op : α → α → α)
    (hA : ∀ a b c, op (op a b) c = op a (op b c)) (hK : ∀ a b, op a b = op b a) :
    ∀ (xs ys : List α) (a b : α), xs.length = ys.length →
      (List.zipWith op xs ys).foldl op (op a b) = op (xs.foldl op a) (ys.foldl op b) := by
  intro xs
  induction xs with
  | nil =>
    intro ys a b h
    cases ys with
    | nil => rfl
    | cons y ys => simp at h
  | cons x xs ih =>
    intro ys a b h
    cases ys with
    | nil => simp at h
    | cons y ys =>
      simp only [List.zipWith_cons_cons, List.foldl_cons]
      have e : op (op a b) (op x y) = op (op a x) (op b y) := by
        rw [hA a b (op x y), ← hA b x y, hK b x, hA x b y, ← hA a x (op b y)]
      rw [e]
      exact ih ys (op a x) (op b y) (by simpa using h)

/-- Folding the slot-wise `op` of two halves of equal length is folding their
concatenation, for an associative and commutative `op`. -/
theorem foldl_halves {α : Type} (op : α → α → α)
    (hA : ∀ a b c, op (op a b) c = op a (op b c)) (hK : ∀ a b, op a b = op b a)
    (a b : α) (as bs : List α) (h : as.length = bs.length) :
    (List.zipWith op as bs).foldl op (op a b) = (as ++ b :: bs).foldl op a := by
  rw [foldl_zipWith_op op hA hK as bs a b h, List.foldl_append, List.foldl_cons,
    foldl_op_assoc op hA]

theorem treeLoop_zero {α : Type} (cb : Callbacks α) (W fuel : Nat) (ctx : LocalReducer α) :
    treeLoop cb W fuel 0 ctx = some ctx := by
  cases fuel <;> simp [treeLoop]

/-- The halving loop entered with a power of two `offset = 2 ^ j`,
`2 * offset <= W`, for callbacks whose combiner is an associative and commutative
`op`: the loop ends and slot 0 holds the `op` of the first `2 * offset` slots. -/
theorem treeLoop_pow2 {α : Type} (cb : Callbacks α) (op : α → α → α)
    (hA : ∀ a b c, op (op a b) c = op a (op b c)) (hK : ∀ a b, op a b = op b a)
    (hC : ∀ (loc mem : List α) (x y : Nat) (a b : α), loc[x]? = some a → loc[y]? = some b →
      cb.combiner ⟨loc, mem⟩ x y = some ⟨loc.set x (op a b), mem⟩)
    (W : Nat) (mem : List α) :
    ∀ (j fuel : Nat) (s : List α), 2 ^ j ≤ fuel → 2 * 2 ^ j ≤ W → s.length = W →
      ∃ s', treeLoop cb W fuel (2 ^ j) ⟨s, mem⟩ = some ⟨s', mem⟩ ∧ s'.length = W ∧
        ∀ x xs, s.take (2 * 2 ^ j) = x :: xs → s'[0]? = some (xs.foldl op x) := by
  intro j
  induction j with
  | zero =>
    intro fuel s hf hW hlen
    obtain ⟨f, rfl⟩ : ∃ f, fuel = f + 1 := ⟨fuel - 1, by simp at hf; omega⟩
    have hr := combineRound_op cb op hC W 1 (by simpa using hW) s hlen mem
    refine ⟨List.zipWith op (s.take 1) (s.drop 1) ++ s.drop 1, ?_, ?_, ?_⟩
    · rw [treeLoop]
      simp only [pow_zero, if_true, hr, Nat.zero_lt_one]
      exact treeLoop_zero cb W f _
    · simp [List.length_zipWith, List.length_take, List.length_drop]
      simp at hW
      omega
    · intro x xs hx
      match s, hlen, hx with
      | [], _, hx => simp at hx
      | [a], hl, _ => simp at hl; simp at hW; omega
      | a :: b :: rest, _, hx =>
        simp at hx
        obtain ⟨rfl, rfl⟩ := hx
        simp
  | succ j ih =>
    intro fuel s hf hW hlen
    have hpos : 0 < 2 ^ (j + 1) := Nat.two_pow_pos (j + 1)
    obtain ⟨f, rfl⟩ : ∃ f, fuel = f + 1 := ⟨fuel - 1, by omega⟩
    have hr := combineRound_op cb op hC W (2 ^ (j + 1)) (by omega) s hlen mem
    have hhalf : 2 ^ (j + 1) / 2 = 2 ^ j := by
      rw [Nat.pow_succ]; exact Nat.mul_div_cancel _ (by decide)
    have h2 : 2 ^ (j + 1) = 2 * 2 ^ j := by rw [Nat.pow_succ, Nat.mul_comm]
    have hzl : (List.zipWith op (s.take (2 ^ (j + 1))) (s.drop (2 ^ (j + 1)))).length =
        2 ^ (j + 1) := by
      simp only [List.length_zipWith, List.length_take, List.length_drop]
      omega
    have hl1 : (List.zipWith op (s.take (2 ^ (j + 1))) (s.drop (2 ^ (j + 1))) ++
        s.drop (2 ^ (j + 1))).length = W := by
      rw [List.length_append, hzl, List.length_drop]; omega
    obtain ⟨s', hrun, hlen', hval⟩ := ih f _ (by omega) (by omega) hl1
    refine ⟨s', ?_, hlen', ?_⟩
    · rw [treeLoop]
      simp only [hpos, if_true, hr, hhalf]
      exact hrun
    · intro x xs hx
      -- the two halves of the live region
      have hsplit : s.take (2 * 2 ^ (j + 1)) =
          s.take (2 ^ (j + 1)) ++ (s.drop (2 ^ (j + 1))).take (2 ^ (j + 1)) := by
        rw [show 2 * 2 ^ (j + 1) = 2 ^ (j + 1) + 2 ^ (j + 1) by omega, List.take_add]
      have hla : (s.take (2 ^ (j + 1))).length = 2 ^ (j + 1) := by
        rw [List.length_take]; omega
      have hlb : ((s.drop (2 ^ (j + 1))).take (2 ^ (j + 1))).length = 2 ^ (j + 1) := by
        rw [List.length_take, List.length_drop]; omega
      have hz : List.zipWith op (s.take (2 ^ (j + 1))) (s.drop (2 ^ (j + 1))) =
          List.zipWith op (s.take (2 ^ (j + 1)))
            ((s.drop (2 ^ (j + 1))).take (2 ^ (j + 1))) := by
        apply List.ext_getElem?
        intro i
        rw [List.getElem?_zipWith, List.getElem?_zipWith]
        by_cases hi : i < 2 ^ (j + 1)
        · rw [List.getElem?_take_of_lt hi, List.getElem?_take_of_lt hi]
        · rw [List.getElem?_take_eq_none (by omega)]
      cases hA1 : s.take (2 ^ (j + 1)) with
      | nil => rw [hA1] at hla; simp at hla; omega
      | cons a as =>
        cases hB1 : (s.drop (2 ^ (j + 1))).take (2 ^ (j + 1)) with
        | nil => rw [hB1] at hlb; simp at hlb; omega
        | cons b bs =>
          rw [hA1, hB1] at hsplit
          rw [hsplit] at hx
          simp only [List.cons_append, List.cons.injEq] at hx
          obtain ⟨rfl, rfl⟩ := hx
          have hlen_ab : as.length = bs.length := by
            rw [hA1] at hla; rw [hB1] at hlb
            simp only [List.length_cons] at hla hlb
            omega
          have htake : (List.zipWith op (s.take (2 ^ (j + 1))) (s.drop (2 ^ (j + 1))) ++
              s.drop (2 ^ (j + 1))).take (2 * 2 ^ j) =
              op a b :: List.zipWith op as bs := by
            rw [← h2, List.take_append_of_le_length (by omega), List.take_of_length_le (by omega),
              hz, hA1, hB1, List.zipWith_cons_cons]
          rw [hval _ _ htake, foldl_halves op hA hK a b as bs hlen_ab]

theorem fmin_assoc (a b c : Int) : fmin (fmin a b) c = fmin a (fmin b c) := by
  unfold fmin; split_ifs <;> omega

theorem fmin_comm (a b : Int) : fmin a b = fmin b a := by
  unfold fmin; split_ifs <;> omega

theorem minCallbacks_combiner (junk : Int) (loc mem : List Int) (x y : Nat) (a b : Int)
    (ha : loc[x]? = some a) (hb : loc[y]? = some b) :
    (minCallbacks junk).combiner ⟨loc, mem⟩ x y = some ⟨loc.set x (fmin a b), mem⟩ :=
  minCombiner_eq loc mem x y a b ha hb

/-- C11: for a group size `2 ^ k` (`k = 0` included) and any initial scratch
contents `s` of that length, the halving loop of phase 1 ends and leaves in slot
0 the combine `op(...op(op(s[0], s[1]), s[2])..., s[2^k - 1])` of all slots, for
every callback set whose combiner is `local[x] = op(local[x], local[y])` with
`op` associative and commutative; for the callbacks of `reduceSYCLGeneric` slot
0 ends as the minimum of `s`. -/
theorem treeLoop_power_of_two (k : Nat) :
    (∀ {α : Type} (cb : Callbacks α) (op : α → α → α),
      (∀ a b c, op (op a b) c = op a (op b c)) → (∀ a b, op a b = op b a) →
      (∀ (loc mem : List α) (x y : Nat) (a b : α), loc[x]? = some a → loc[y]? = some b →
        cb.combiner ⟨loc, mem⟩ x y = some ⟨loc.set x (op a b), mem⟩) →
      ∀ (s mem : List α), s.length = 2 ^ k →
        ∃ s', treeLoop cb (2 ^ k) (2 ^ k) (2 ^ k / 2) ⟨s, mem⟩ = some ⟨s', mem⟩ ∧
          s'.length = 2 ^ k ∧
          ∃ x xs, s = x :: xs ∧ s'[0]? = some (xs.foldl op x)) ∧
    (∀ (junk : Int) (s mem : List Int), s.length = 2 ^ k →
      ∃ s' m, treeLoop (minCallbacks junk) (2 ^ k) (2 ^ k) (2 ^ k / 2) ⟨s, mem⟩ =
          some ⟨s', mem⟩ ∧
        s'[0]? = some m ∧ min_element s = some m ∧ m ∈ s ∧ ∀ v ∈ s, m ≤ v) := by
  have gen : ∀ {α : Type} (cb : Callbacks α) (op : α → α → α),
      (∀ a b c, op (op a b) c = op a (op b c)) → (∀ a b, op a b = op b a) →
      (∀ (loc mem : List α) (x y : Nat) (a b : α), loc[x]? = some a → loc[y]? = some b →
        cb.combiner ⟨loc, mem⟩ x y = some ⟨loc.set x (op a b), mem⟩) →
      ∀ (s mem : List α), s.length = 2 ^ k →
        ∃ s', treeLoop cb (2 ^ k) (2 ^ k) (2 ^ k / 2) ⟨s, mem⟩ = some ⟨s', mem⟩ ∧
          s'.length = 2 ^ k ∧
          ∃ x xs, s = x :: xs ∧ s'[0]? = some (xs.foldl op x) := by
    intro α cb op hA hK hC s mem hlen
    obtain ⟨x, xs, rfl⟩ : ∃ x xs, s = x :: xs := by
      cases s with
      | nil => have := Nat.two_pow_pos k; simp at hlen; omega
      | cons x xs => exact ⟨x, xs, rfl⟩
    cases k with
    | zero =>
      have hxs : xs = [] := by
        simp at hlen
        exact hlen
      subst hxs
      refine ⟨[x], ?_, rfl, x, [], rfl, rfl⟩
      exact treeLoop_zero cb _ _ _
    | succ j =>
      have hhalf : 2 ^ (j + 1) / 2 = 2 ^ j := by
        rw [Nat.pow_succ]; exact Nat.mul_div_cancel _ (by decide)
      have h2 : 2 ^ (j + 1) = 2 * 2 ^ j := by rw [Nat.pow_succ, Nat.mul_comm]
      rw [hhalf]
      obtain ⟨s', hrun, hlen', hval⟩ := treeLoop_pow2 cb op hA hK hC (2 ^ (j + 1)) mem j
        (2 ^ (j + 1)) (x :: xs) (by omega) (by omega) hlen
      refine ⟨s', hrun, hlen', x, xs, rfl, hval x xs ?_⟩
      rw [← h2, List.take_of_length_le (by omega)]
  refine ⟨gen, ?_⟩
  intro junk s mem hlen
  obtain ⟨s', hrun, _, x, xs, rfl, hval⟩ := gen (minCallbacks junk) fmin fmin_assoc fmin_comm
    (minCallbacks_combiner junk) s mem hlen
  obtain ⟨m, hm, hmem, hle⟩ := min_element_spec (x :: xs) (by simp)
  have hm' : some (xs.foldl fmin x) = some m := hm
  exact ⟨s', m, hrun, by rw [hval, hm'], hm, hmem, hle⟩

/-- Four workers, scratch contents `[4, 3, 1, 2]`: slot 0 ends as the minimum. -/
theorem treeLoop_power_of_two_witness :
    ∃ s' m, treeLoop (minCallbacks 0) (2 ^ 2) (2 ^ 2) (2 ^ 2 / 2) ⟨[4, 3, 1, 2], []⟩ =
        some ⟨s', []⟩ ∧
      s'[0]? = some m ∧ min_element [4, 3, 1, 2] = some m ∧ m ∈ [4, 3, 1, 2] ∧
      ∀ v ∈ [4, 3, 1, 2], m ≤ v :=
  (treeLoop_power_of_two 2).2 0 [4, 3, 1, 2] [] (by decide)

/-- The halving loop entered with any `offset`, `2 * offset <= W`, with at least
`offset` units of fuel, for callbacks whose combiner is
`local[x] = op(local[x], local[y])`, on scratch memory of length `W`: the loop
ends without touching the buffer, and the scratch it leaves has length `W` and
does not depend on the buffer. -/
theorem treeLoop_total {α : Type} (cb : Callbacks α) (op : α → α → α)
    (hC : ∀ (loc mem : List α) (x y : Nat) (a b : α), loc[x]? = some a → loc[y]? = some b →
      cb.combiner ⟨loc, mem⟩ x y = some ⟨loc.set x (op a b), mem⟩)
    (W : Nat) :
    ∀ (fuel o : Nat) (s : List α), o ≤ fuel → 2 * o ≤ W → s.length = W →
      ∃ s', s'.length = W ∧ ∀ mem, treeLoop cb W fuel o ⟨s, mem⟩ = some ⟨s', mem⟩ := by
  intro fuel
  induction fuel with
  | zero =>
    intro o s hf _ hlen
    have ho : o = 0 := by omega
    subst ho
    exact ⟨s, hlen, fun mem => treeLoop_zero cb W 0 _⟩
  | succ fuel ih =>
    intro o s hf hoW hlen
    by_cases ho : 0 < o
    · have hl1 : (List.zipWith op (s.take o) (s.drop o) ++ s.drop o).length = W := by
        simp only [List.length_append, List.length_zipWith, List.length_take,
          List.length_drop]
        omega
      obtain ⟨s', hlen', hrun⟩ := ih (o / 2) _ (by omega) (by omega) hl1
      refine ⟨s', hlen', fun mem => ?_⟩
      rw [treeLoop]
      simp only [ho, if_true, combineRound_op cb op hC W o hoW s hlen mem]
      exact hrun mem
    · have ho0 : o = 0 := by omega
      subst ho0
      exact ⟨s, hlen, fun mem => treeLoop_zero cb W _ _⟩

theorem halvingOffsets_getElem? :
    ∀ (fuel o i : Nat), o ≤ fuel → i < (halvingOffsets fuel o).length →
      (halvingOffsets fuel o)[i]? = some (o / 2 ^ i) := by
  intro fuel
  induction fuel with
  | zero =>
    intro o i h hi
    have ho : o = 0 := by omega
    subst ho
    rw [halvingOffsets_zero] at hi
    simp at hi
  | succ fuel ih =>
    intro o i h hi
    by_cases ho : 0 < o
    · rw [halvingOffsets_pos fuel o ho] at hi ⊢
      cases i with
      | zero => simp
      | succ i =>
        rw [List.getElem?_cons_succ, ih (o / 2) i (by omega) (by simpa using hi),
          Nat.div_div_eq_div_mul, Nat.pow_succ']
    · have ho0 : o = 0 := by omega
      subst ho0
      rw [halvingOffsets_zero] at hi
      simp at hi

/-- C14: for every group size `W`, the halving loop of a group runs its
rounds for the offsets of `halvingOffsets W (W / 2)`, and for each of them and
every worker with `localId < offset` both scratch indices of the combiner call,
`localId` and `localId + offset`, are below `W`; so for callbacks whose combiner
reads and writes scratch memory only at these two indices the loop never
aborts, in particular for the callbacks of `reduceSYCLGeneric`. -/
theorem treeLoop_indices_in_bounds (W : Nat) :
    (∀ {α : Type} (cb : Callbacks α) (ctx : LocalReducer α),
      treeLoop cb W W (W / 2) ctx =
        (halvingOffsets W (W / 2)).foldlM (fun c off => combineRound cb W off c) ctx) ∧
    (∀ off ∈ halvingOffsets W (W / 2), ∀ localId, localId < off →
      localId < W ∧ localId + off < W) ∧
    (∀ {α : Type} (cb : Callbacks α) (op : α → α → α),
      (∀ (loc mem : List α) (x y : Nat) (a b : α), loc[x]? = some a → loc[y]? = some b →
        cb.combiner ⟨loc, mem⟩ x y = some ⟨loc.set x (op a b), mem⟩) →
      ∀ (s mem : List α), s.length = W →
        ∃ s', treeLoop cb W W (W / 2) ⟨s, mem⟩ = some ⟨s', mem⟩ ∧ s'.length = W) ∧
    (∀ (junk : Int) (s mem : List Int), s.length = W →
      ∃ s', treeLoop (minCallbacks junk) W W (W / 2) ⟨s, mem⟩ = some ⟨s', mem⟩ ∧
        s'.length = W) := by
  have hhalf : W / 2 ≤ W := Nat.div_le_self W 2
  have gen : ∀ {α : Type} (cb : Callbacks α) (op : α → α → α),
      (∀ (loc mem : List α) (x y : Nat) (a b : α), loc[x]? = some a → loc[y]? = some b →
        cb.combiner ⟨loc, mem⟩ x y = some ⟨loc.set x (op a b), mem⟩) →
      ∀ (s mem : List α), s.length = W →
        ∃ s', treeLoop cb W W (W / 2) ⟨s, mem⟩ = some ⟨s', mem⟩ ∧ s'.length = W := by
    intro α cb op hC s mem hlen
    obtain ⟨s', hlen', hrun⟩ := treeLoop_total cb op hC W W (W / 2) s hhalf (by omega) hlen
    exact ⟨s', hrun mem, hlen'⟩
  refine ⟨fun cb ctx => treeLoop_eq_foldlM cb W W (W / 2) ctx hhalf, ?_, gen, ?_⟩
  · intro off hoff l hl
    have := ((halvingOffsets_spec W (W / 2) hhalf).2.1 off hoff).2
    omega
  · intro junk s mem hlen
    exact gen (minCallbacks junk) fmin (minCallbacks_combiner junk) s mem hlen

/-- A group of 6 workers: the rounds have the offsets 3 and 1, and worker 2 of
the first round combines the slots 2 and 5. -/
theorem treeLoop_indices_in_bounds_witness :
    halvingOffsets 6 (6 / 2) = [3, 1] ∧ (2 < 6 ∧ 2 + 3 < 6) :=
  ⟨by decide, (treeLoop_indices_in_bounds 6).2.1 3 (by decide) 2 (by decide)⟩

/-- C15: for every group size `W` the halving loop ends: it runs one round for
each offset of `halvingOffsets W (W / 2)` and then stops.  These offsets are
`W / 2, W / 4, ...`, the `i`-th being `W / 2 ^ (i + 1)`; they are positive and
strictly decreasing; for `W >= 2` the last one is 1; their number is
`floor(log2 W)`, that is `2 ^ rounds <= W < 2 ^ (rounds + 1)`; and for `W = 1`
there is none, the body never runs. -/
theorem treeLoop_terminates (W : Nat) :
    (∀ {α : Type} (cb : Callbacks α) (ctx : LocalReducer α),
      treeLoop cb W W (W / 2) ctx =
        (halvingOffsets W (W / 2)).foldlM (fun c off => combineRound cb W off c) ctx) ∧
    (∀ fuel, W / 2 ≤ fuel → halvingOffsets fuel (W / 2) = halvingOffsets W (W / 2)) ∧
    (∀ i, i < (halvingOffsets W (W / 2)).length →
      (halvingOffsets W (W / 2))[i]? = some (W / 2 ^ (i + 1))) ∧
    (∀ off ∈ halvingOffsets W (W / 2), 0 < off) ∧
    (halvingOffsets W (W / 2)).Pairwise (fun a b => b < a) ∧
    (2 ≤ W → (halvingOffsets W (W / 2)).getLast? = some 1) ∧
    (halvingOffsets W (W / 2)).length = Nat.log 2 W ∧
    (1 ≤ W → 2 ^ (halvingOffsets W (W / 2)).length ≤ W ∧
      W < 2 ^ ((halvingOffsets W (W / 2)).length + 1)) ∧
    (W = 1 → halvingOffsets W (W / 2) = [] ∧
      ∀ {α : Type} (cb : Callbacks α) (ctx : LocalReducer α),
        treeLoop cb W W (W / 2) ctx = some ctx) := by
  have hhalf : W / 2 ≤ W := Nat.div_le_self W 2
  obtain ⟨_, hmem, hpw, hlast, hlen⟩ := halvingOffsets_spec W (W / 2) hhalf
  have hlog : (halvingOffsets W (W / 2)).length = Nat.log 2 W := by
    by_cases h2 : 2 ≤ W
    · rw [hlen (by omega), Nat.log_div_base]
      have : 0 < Nat.log 2 W := Nat.log_pos (by decide) h2
      omega
    · have h0 : W / 2 = 0 := by omega
      rw [h0, halvingOffsets_zero, Nat.log_of_lt (by omega)]
      rfl
  refine ⟨fun cb ctx => treeLoop_eq_foldlM cb W W (W / 2) ctx hhalf, ?_, ?_, ?_, hpw, ?_,
    hlog, ?_, ?_⟩
  · intro fuel hf
    rw [(halvingOffsets_spec fuel (W / 2) hf).1, (halvingOffsets_spec W (W / 2) hhalf).1]
  · intro i hi
    rw [halvingOffsets_getElem? W (W / 2) i hhalf hi, Nat.div_div_eq_div_mul, Nat.pow_succ']
  · intro off hoff
    exact (hmem off hoff).1
  · intro h2
    exact hlast (by omega)
  · intro h1
    rw [hlog]
    exact ⟨Nat.pow_log_le_self 2 (by omega), Nat.lt_pow_succ_log_self (by decide) W⟩
  · intro h1
    subst h1
    refine ⟨by decide, fun cb ctx => ?_⟩
    exact treeLoop_zero cb 1 1 ctx

/-- Group sizes 8 and 6 run three and two rounds; group size 1 runs none. -/
theorem treeLoop_terminates_witness :
    halvingOffsets 8 (8 / 2) = [4, 2, 1] ∧ halvingOffsets 6 (6 / 2) = [3, 1] ∧
    (halvingOffsets 6 (6 / 2)).getLast? = some 1 ∧
    (2 ^ (halvingOffsets 6 (6 / 2)).length ≤ 6 ∧
      6 < 2 ^ ((halvingOffsets 6 (6 / 2)).length + 1)) ∧
    halvingOffsets 1 (1 / 2) = [] :=
  ⟨by decide, by decide, (treeLoop_terminates 6).2.2.2.2.2.1 (by decide),
    (treeLoop_terminates 6).2.2.2.2.2.2.2.1 (by decide),
    ((treeLoop_terminates 1).2.2.2.2.2.2.2.2 rfl).1⟩

/-! ### The second kernel for an arbitrary operator -/

/-- The second kernel for callbacks of the shape of those of `reduceSYCLGeneric`
(the allocator hands out scratch memory of the requested size over the buffer,
`empty` writes some seed into a slot, the combiner is
`local[x] = op(local[x], local[y])`, the finaliser copies a scratch slot to a
buffer slot), on a buffer that holds the partial results `vals` at the indices
`i * W`, `i < G`: the kernel ends, changes the buffer at index 0 only, and
stores there the left-to-right `op` of the partial results. -/
theorem phase2_op {α : Type} (cb : Callbacks α) (op : α → α → α)
    (hAl : ∀ size mem, (cb.allocator size mem).result = mem ∧
      (cb.allocator size mem).localMem.length = size)
    (hE : ∀ (loc mem : List α) (l : Nat), l < loc.length →
      ∃ e, cb.empty ⟨loc, mem⟩ l = some ⟨loc.set l e, mem⟩)
    (hC : ∀ (loc mem : List α) (x y : Nat) (a b : α), loc[x]? = some a → loc[y]? = some b →
      cb.combiner ⟨loc, mem⟩ x y = some ⟨loc.set x (op a b), mem⟩)
    (hF : ∀ (loc mem : List α) (g x : Nat) (a : α), loc[x]? = some a → g < mem.length →
      cb.finaliser ⟨loc, mem⟩ g x = some ⟨loc, mem.set g a⟩)
    (G W : Nat) (mem : List α) (x : α) (xs : List α) (hlen : (x :: xs).length = G)
    (hv : ∀ i, i < G → mem[i * W]? = (x :: xs)[i]?) :
    phase2 cb G W mem = some (mem.set 0 (xs.foldl op x)) := by
  have hG : 0 < G := by rw [← hlen]; simp
  have hxs : xs.length = G - 1 := by simp at hlen; omega
  have h0 : 0 < mem.length := by
    have := hv 0 hG
    simp only [Nat.zero_mul, List.getElem?_cons_zero] at this
    exact (List.getElem?_eq_some.mp this).1
  -- allocator and seed
  rcases hal : cb.allocator G mem with ⟨loc0, res0⟩
  have hal1 := hAl G mem
  rw [hal] at hal1
  obtain ⟨hres0, hlen0⟩ := hal1
  simp only at hres0 hlen0
  subst hres0
  obtain ⟨e, hE1⟩ := hE loc0 res0 0 (by omega)
  -- drain loop
  obtain ⟨c2, hrun2, hres2, hlen2, hsl2⟩ := foldlM_range_inv
    (fun cx i => LocalReducer.drain cx i (i * W))
    (fun i cx => res0 = cx.result ∧ cx.localMem.length = G ∧
      ∀ j, j < i → cx.localMem[j]? = (x :: xs)[j]?)
    G ⟨loc0.set 0 e, res0⟩
    ⟨rfl, by simp [hlen0], fun j hj => absurd hj (Nat.not_lt_zero j)⟩
    (by
      rintro i ⟨loc, res⟩ hi ⟨hres, hl, hsl⟩
      simp only at hres hl hsl
      subst hres
      have hb : res0[i * W]? = some (x :: xs)[i] := by
        rw [hv i hi]; exact List.getElem?_eq_getElem (by omega)
      have hd : LocalReducer.drain ⟨loc, res0⟩ i (i * W) =
          some ⟨loc.set i (x :: xs)[i], res0⟩ := by
        simp [LocalReducer.drain, readAt, hb, writeAt, hl, hi]
      refine ⟨_, hd, rfl, by simp [hl], ?_⟩
      intro j hj
      by_cases hji : j = i
      · subst hji
        simp [List.getElem?_set, hl, hi, List.getElem?_eq_getElem (show j < (x :: xs).length by omega)]
      · simp only
        rw [List.getElem?_set_ne (Ne.symm hji)]
        exact hsl j (by omega))
  obtain ⟨loc2, res2⟩ := c2
  simp only at hres2 hlen2 hsl2
  subst hres2
  have hloc2 : loc2 = x :: xs := by
    apply List.ext_getElem?
    intro j
    by_cases hj : j < G
    · exact hsl2 j hj
    · rw [List.getElem?_eq_none (by omega), List.getElem?_eq_none (by omega)]
  subst hloc2
  -- combine loop
  obtain ⟨c3, hrun3, hres3, hloc3⟩ := foldlM_range'_inv
    (fun cx i => cb.combiner cx 0 i)
    (fun i cx => res0 = cx.result ∧
      cx.localMem = (xs.take (i - 1)).foldl op x :: xs)
    (G - 1) 1 ⟨x :: xs, res0⟩ ⟨rfl, by simp⟩
    (by
      rintro i ⟨loc, res⟩ hi1 hi2 ⟨hres, hloc⟩
      simp only at hres hloc
      subst hres hloc
      obtain ⟨t, rfl⟩ : ∃ t, i = t + 1 := ⟨i - 1, by omega⟩
      have ht : t < xs.length := by omega
      have hb : ((xs.take (t + 1 - 1)).foldl op x :: xs)[t + 1]? = some xs[t] := by
        rw [List.getElem?_cons_succ]; exact List.getElem?_eq_getElem ht
      refine ⟨_, hC _ res0 0 (t + 1) _ _ (List.getElem?_cons_zero) hb, rfl, ?_⟩
      simp only [Nat.add_sub_cancel, List.set_cons_zero, List.cons.injEq, and_true]
      rw [List.take_succ, List.foldl_append, List.getElem?_eq_getElem ht]
      rfl)
  obtain ⟨loc3, res3⟩ := c3
  simp only at hres3 hloc3
  subst hres3
  have hfull : xs.take (1 + (G - 1) - 1) = xs := by
    apply List.take_of_length_le; omega
  rw [hfull] at hloc3
  subst hloc3
  have hF1 := hF (xs.foldl op x :: xs) res0 0 0 _ List.getElem?_cons_zero h0
  simp only [phase2, hal, hE1, hrun2, hrun3, hF1]

/-- C13: for `numGroups >= 1` and any `groupSize`, on a buffer that holds the
partial results `vals` of phase 1 at the indices `i * groupSize`,
`i < numGroups`, phase 2 ends and leaves in output slot 0 the left-to-right
combine `op(...op(op(vals[0], vals[1]), vals[2])...)` of these values and
nothing of the seed, for every callback set of the shape of those of
`reduceSYCLGeneric`; for the callbacks of `reduceSYCLGeneric` slot 0 ends as the
minimum of the partial results. -/
theorem phase2_left_to_right (G W : Nat) (hG : 1 ≤ G) :
    (∀ {α : Type} (cb : Callbacks α) (op : α → α → α),
      (∀ size mem, (cb.allocator size mem).result = mem ∧
        (cb.allocator size mem).localMem.length = size) →
      (∀ (loc mem : List α) (l : Nat), l < loc.length →
        ∃ e, cb.empty ⟨loc, mem⟩ l = some ⟨loc.set l e, mem⟩) →
      (∀ (loc mem : List α) (x y : Nat) (a b : α), loc[x]? = some a → loc[y]? = some b →
        cb.combiner ⟨loc, mem⟩ x y = some ⟨loc.set x (op a b), mem⟩) →
      (∀ (loc mem : List α) (g x : Nat) (a : α), loc[x]? = some a → g < mem.length →
        cb.finaliser ⟨loc, mem⟩ g x = some ⟨loc, mem.set g a⟩) →
      ∀ (mem vals : List α), vals.length = G → (∀ i, i < G → mem[i * W]? = vals[i]?) →
        ∃ x xs, vals = x :: xs ∧
          phase2 cb G W mem = some (mem.set 0 (xs.foldl op x))) ∧
    (∀ (junk : Int) (mem vals : List Int), vals.length = G →
      (∀ i, i < G → mem[i * W]? = vals[i]?) →
      ∃ m, phase2 (minCallbacks junk) G W mem = some (mem.set 0 m) ∧
        min_element vals = some m ∧ m ∈ vals ∧ ∀ v ∈ vals, m ≤ v) := by
  have gen : ∀ {α : Type} (cb : Callbacks α) (op : α → α → α),
      (∀ size mem, (cb.allocator size mem).result = mem ∧
        (cb.allocator size mem).localMem.length = size) →
      (∀ (loc mem : List α) (l : Nat), l < loc.length →
        ∃ e, cb.empty ⟨loc, mem⟩ l = some ⟨loc.set l e, mem⟩) →
      (∀ (loc mem : List α) (x y : Nat) (a b : α), loc[x]? = some a → loc[y]? = some b →
        cb.combiner ⟨loc, mem⟩ x y = some ⟨loc.set x (op a b), mem⟩) →
      (∀ (loc mem : List α) (g x : Nat) (a : α), loc[x]? = some a → g < mem.length →
        cb.finaliser ⟨loc, mem⟩ g x = some ⟨loc, mem.set g a⟩) →
      ∀ (mem vals : List α), vals.length = G → (∀ i, i < G → mem[i * W]? = vals[i]?) →
        ∃ x xs, vals = x :: xs ∧
          phase2 cb G W mem = some (mem.set 0 (xs.foldl op x)) := by
    intro α cb op hAl hE hC hF mem vals hlen hv
    cases vals with
    | nil => simp at hlen; omega
    | cons x xs => exact ⟨x, xs, rfl, phase2_op cb op hAl hE hC hF G W mem x xs hlen hv⟩
  refine ⟨gen, ?_⟩
  intro junk mem vals hlen hv
  obtain ⟨x, xs, rfl, hrun⟩ := gen (minCallbacks junk) fmin
    (fun size mem => ⟨rfl, by simp [minCallbacks, minAllocator]⟩)
    (fun loc mem l hl => ⟨DOUBLE_MAX, minEmpty_eq loc mem l hl⟩)
    (minCallbacks_combiner junk)
    (fun loc mem g x a ha hg => minFinaliser_eq loc mem g x a ha hg) mem vals hlen hv
  obtain ⟨m, hm, hmem, hle⟩ := min_element_spec (x :: xs) (by simp)
  have hm' : some (xs.foldl fmin x) = some m := hm
  rw [Option.some.inj hm'] at hrun
  exact ⟨m, hrun, hm, hmem, hle⟩

/-- Two groups of two workers whose partial results `3` and `1` sit at the
indices 0 and 2: phase 2 stores `1` at index 0. -/
theorem phase2_left_to_right_witness :
    ∃ m, phase2 (minCallbacks 0) 2 2 [3, 0, 1, 4] = some ([3, 0, 1, 4].set 0 m) ∧
      min_element [3, 1] = some m ∧ m ∈ [3, 1] ∧ ∀ v ∈ [3, 1], m ≤ v :=
  (phase2_left_to_right 2 2 (by decide)).2 0 [3, 0, 1, 4] [3, 1] (by decide)
    (fun i hi => by
      have : i = 0 ∨ i = 1 := by omega
      rcases this with h | h <;> subst h <;> rfl)

theorem exists_lower_bound (mem : List Int) : ∃ c, c ≤ DOUBLE_MAX ∧ ∀ v ∈ mem, c ≤ v := by
  induction mem with
  | nil => exact ⟨DOUBLE_MAX, le_refl _, fun v hv => by cases hv⟩
  | cons x xs ih =>
    obtain ⟨c, hc, hle⟩ := ih
    refine ⟨min c x, le_trans (min_le_left _ _) hc, ?_⟩
    intro v hv
    rcases List.mem_cons.mp hv with e | e
    · rw [e]; exact min_le_right _ _
    · exact le_trans (min_le_left _ _) (hle v e)

/-- The minimum reduction over `[0, n)` in place on any buffer of `n`
elements, for a sizing with `numGroups >= 1`, `groupSize >= 1` and the last
output index inside the buffer, and any order of the groups.  Both kernels end.
Each group `g`, run on any buffer of `n` elements, changes index
`g * groupSize` only, and distinct groups have distinct indices; so phase 1
changes the buffer only at the indices `g * groupSize`, `g < numGroups`.  Phase
2 changes it only at index 0.  Every element at any other index has the same
value after the reduction as before. -/
theorem phases_frame_total (junk : Int) (n G W : Nat) (sched : List Nat) (mem : List Int)
    (hG : 1 ≤ G) (hW : 1 ≤ W) (hin : (G - 1) * W < n) (hn : mem.length = n)
    (hperm : sched.Perm (List.range G)) :
    ∃ mem1 mem2, phase1 (minCallbacks junk) ⟨0, n, n⟩ G W sched mem = some mem1 ∧
      phase2 (minCallbacks junk) G W mem1 = some mem2 ∧
      mem1.length = n ∧ mem2.length = n ∧
      (∀ g, g < G → ∀ m : List Int, m.length = n →
        ∃ v, runGroup (minCallbacks junk) ⟨0, n, n⟩ G W m g = some (m.set (g * W) v)) ∧
      (∀ g1 g2, g1 < G → g2 < G → g1 ≠ g2 → g1 * W ≠ g2 * W) ∧
      (∀ i : Nat, (∀ g, g < G → i ≠ g * W) → mem1[i]? = mem[i]?) ∧
      (∀ i : Nat, i ≠ 0 → mem2[i]? = mem1[i]?) ∧
      (∀ i : Nat, (∀ g, g < G → i ≠ g * W) → mem2[i]? = mem[i]?) := by
  have hidx : ∀ g, g < G → g * W < n := by
    intro g hg
    have : g * W ≤ (G - 1) * W := Nat.mul_le_mul_right W (by omega)
    omega
  have hmemG : ∀ g, g ∈ sched ↔ g < G := fun g => by rw [hperm.mem_iff, List.mem_range]
  have hnd : sched.Nodup := hperm.nodup_iff.mpr (List.nodup_range G)
  obtain ⟨c, hc, hpos⟩ := exists_lower_bound mem
  obtain ⟨mem1, hrun1, hlen1, hpos1, hframe1, _⟩ :=
    phase1_min_some junk n G W hG hW c hc 0 (by omega) (by simp) sched mem hnd
      (fun g hg => (hmemG g).mp hg) (fun g hg => hidx g ((hmemG g).mp hg)) hn hpos
  obtain ⟨v, hrun2, _, _⟩ := phase2_min junk mem1 n G W hG hlen1 hin c hpos1
  have hf1 : ∀ i : Nat, (∀ g, g < G → i ≠ g * W) → mem1[i]? = mem[i]? :=
    fun i hi => hframe1 i (fun g hg => hi g ((hmemG g).mp hg))
  refine ⟨mem1, mem1.set 0 v, ?_, hrun2, hlen1, by simp [hlen1], ?_, ?_, hf1, ?_, ?_⟩
  · have hW0 : W ≠ 0 := by omega
    simp only [phase1, hW0, if_false]
    exact hrun1
  · intro g hg m hm
    obtain ⟨c', hc', hpos'⟩ := exists_lower_bound m
    obtain ⟨v', hv', _, _⟩ := (runGroup_min junk m n G W g hG hW hm c' hc' hpos').2 (hidx g hg)
    exact ⟨v', hv'⟩
  · intro g1 g2 _ _ hne he
    exact hne (Nat.eq_of_mul_eq_mul_right hW he)
  · intro i hi
    exact List.getElem?_set_ne (Ne.symm hi)
  · intro i hi
    have hi0 : i ≠ 0 := by
      have := hi 0 hG
      simpa using this
    rw [List.getElem?_set_ne (Ne.symm hi0)]
    exact hf1 i hi

theorem drain_result {α : Type} (r r1 : LocalReducer α) (lid gid : Nat)
    (h : LocalReducer.drain r lid gid = some r1) : r1.result = r.result := by
  unfold LocalReducer.drain at h
  cases h1 : readAt r.result gid with
  | none => simp [h1] at h
  | some v =>
    cases h2 : writeAt r.localMem lid v with
    | none => simp [h1, h2] at h
    | some l =>
      simp [h1, h2] at h
      rw [← h]

theorem drain_loop_result {α : Type} (W : Nat) :
    ∀ (l : List Nat) (r r1 : LocalReducer α),
      l.foldlM (fun c i => LocalReducer.drain c i (i * W)) r = some r1 →
      r1.result = r.result := by
  intro l
  induction l with
  | nil =>
    intro r r1 h
    simp at h
    rw [h]
  | cons i l ih =>
    intro r r1 h
    rw [List.foldlM_cons] at h
    cases h1 : LocalReducer.drain r i (i * W) with
    | none => simp [h1] at h
    | some r2 =>
      simp only [h1, Option.bind_eq_bind, Option.some_bind] at h
      rw [ih r2 r1 h, drain_result r r2 i (i * W) h1]

/-- The second kernel aborts when the last index it drains is outside the
buffer. -/
theorem phase2_min_none (junk : Int) (mem : List Int) (G W : Nat) (hG : 0 < G)
    (hbad : mem.length ≤ (G - 1) * W) : phase2 (minCallbacks junk) G W mem = none := by
  have hE : (minCallbacks junk).empty ((minCallbacks junk).allocator G mem) 0 =
      some ⟨(List.replicate G junk).set 0 DOUBLE_MAX, mem⟩ :=
    minEmpty_eq _ mem 0 (by simpa using hG)
  have hdrain : (List.range G).foldlM (fun c i => LocalReducer.drain c i (i * W))
      (⟨(List.replicate G junk).set 0 DOUBLE_MAX, mem⟩ : LocalReducer Int) = none := by
    obtain ⟨G1, rfl⟩ : ∃ G1, G = G1 + 1 := ⟨G - 1, by omega⟩
    rw [List.range_succ, List.foldlM_append]
    cases h1 : (List.range G1).foldlM (fun c i => LocalReducer.drain c i (i * W))
        (⟨(List.replicate (G1 + 1) junk).set 0 DOUBLE_MAX, mem⟩ : LocalReducer Int) with
    | none => rfl
    | some r =>
      have hr := drain_loop_result W _ _ _ h1
      simp only at hr
      have hread : readAt r.result (G1 * W) = none := by
        rw [hr, readAt]
        exact List.getElem?_eq_none (by simpa using hbad)
      simp [LocalReducer.drain, hread]
  simp only [phase2, hE, hdrain]

/-- C16: the minimum reduction over `[0, n)` in place on any buffer of `n`
elements, for every sizing with `groupSize >= 1` and any order of the groups.
Whenever phase 1 ends it has changed the buffer only at the indices
`g * groupSize`, `g < numGroups`, and distinct groups have distinct indices;
whenever phase 2 ends it has changed the buffer only at index 0; so every
element at any other index has the same value after the reduction as before.
Both phases do end, each group writing its own slot only, when there is at
least one group and the last output index is inside the buffer. -/
theorem phases_frame (junk : Int) (n G W : Nat) (sched : List Nat) (mem : List Int)
    (hW : 1 ≤ W) (hn : mem.length = n) (hperm : sched.Perm (List.range G)) :
    (∀ mem1, phase1 (minCallbacks junk) ⟨0, n, n⟩ G W sched mem = some mem1 →
      mem1.length = n ∧
      ∀ i : Nat, (∀ g, g < G → i ≠ g * W) → mem1[i]? = mem[i]?) ∧
    (∀ g1 g2, g1 < G → g2 < G → g1 ≠ g2 → g1 * W ≠ g2 * W) ∧
    (∀ mem1 mem2 : List Int, mem1.length = n →
      phase2 (minCallbacks junk) G W mem1 = some mem2 →
      mem2.length = n ∧ ∀ i : Nat, i ≠ 0 → mem2[i]? = mem1[i]?) ∧
    (∀ mem1 mem2, phase1 (minCallbacks junk) ⟨0, n, n⟩ G W sched mem = some mem1 →
      phase2 (minCallbacks junk) G W mem1 = some mem2 →
      ∀ i : Nat, (∀ g, g < G → i ≠ g * W) → mem2[i]? = mem[i]?) ∧
    (1 ≤ G → (G - 1) * W < n →
      ∃ mem1 mem2, phase1 (minCallbacks junk) ⟨0, n, n⟩ G W sched mem = some mem1 ∧
        phase2 (minCallbacks junk) G W mem1 = some mem2 ∧
        ∀ g, g < G → ∀ m : List Int, m.length = n →
          ∃ v, runGroup (minCallbacks junk) ⟨0, n, n⟩ G W m g = some (m.set (g * W) v)) := by
  have hW0 : W ≠ 0 := by omega
  have hp1 : ∀ mem1, phase1 (minCallbacks junk) ⟨0, n, n⟩ G W sched mem = some mem1 →
      mem1.length = n ∧
      ∀ i : Nat, (∀ g, g < G → i ≠ g * W) → mem1[i]? = mem[i]? := by
    intro mem1 h1
    by_cases hG : G = 0
    · subst hG
      have hs : sched = [] := by simpa using hperm
      subst hs
      simp [phase1, hW0] at h1
      subst h1
      exact ⟨hn, fun _ _ => rfl⟩
    · by_cases hin : (G - 1) * W < n
      · obtain ⟨m1, m2, e1, _, l1, _, _, _, f1, _, _⟩ :=
          phases_frame_total junk n G W sched mem (by omega) hW hin hn hperm
        rw [e1] at h1
        have : m1 = mem1 := Option.some.inj h1
        subst this
        exact ⟨l1, f1⟩
      · exfalso
        obtain ⟨c, hc, hpos⟩ := exists_lower_bound mem
        have hmemG : G - 1 ∈ sched := by
          rw [hperm.mem_iff, List.mem_range]; omega
        have := phase1_min_none junk n G W (by omega) hW c hc sched mem hn hpos
          ⟨G - 1, hmemG, by omega⟩
        simp only [phase1, hW0, if_false] at h1
        rw [this] at h1
        cases h1
  have hp2 : ∀ mem1 mem2 : List Int, mem1.length = n →
      phase2 (minCallbacks junk) G W mem1 = some mem2 →
      mem2.length = n ∧ ∀ i : Nat, i ≠ 0 → mem2[i]? = mem1[i]? := by
    intro mem1 mem2 hl1 h2
    by_cases hG : G = 0
    · subst hG
      rw [phase2_min_zero] at h2
      cases h2
    · by_cases hin : (G - 1) * W < n
      · obtain ⟨c, _, hpos⟩ := exists_lower_bound mem1
        obtain ⟨v, hrun, _, _⟩ := phase2_min junk mem1 n G W (by omega) hl1 hin c hpos
        rw [hrun] at h2
        have : mem1.set 0 v = mem2 := Option.some.inj h2
        subst this
        exact ⟨by simp [hl1], fun i hi => List.getElem?_set_ne (Ne.symm hi)⟩
      · rw [phase2_min_none junk mem1 G W (by omega) (by omega)] at h2
        cases h2
  refine ⟨hp1, ?_, hp2, ?_, ?_⟩
  · intro g1 g2 _ _ hne he
    exact hne (Nat.eq_of_mul_eq_mul_right hW he)
  · intro mem1 mem2 h1 h2 i hi
    obtain ⟨l1, f1⟩ := hp1 mem1 h1
    obtain ⟨_, f2⟩ := hp2 mem1 mem2 l1 h2
    by_cases hG : G = 0
    · subst hG
      rw [phase2_min_zero] at h2
      cases h2
    · have hi0 : i ≠ 0 := by
        have := hi 0 (by omega)
        simpa using this
      rw [f2 i hi0, f1 i hi]
  · intro hG hin
    obtain ⟨m1, m2, e1, e2, _, _, hg, _⟩ :=
      phases_frame_total junk n G W sched mem hG hW hin hn hperm
    exact ⟨m1, m2, e1, e2, hg⟩

/-- Two groups of two workers on the buffer `[7, 5, 9, 8]`: both phases end. -/
theorem phases_frame_witness :
    ∃ mem1 mem2, phase1 (minCallbacks 0) ⟨0, 4, 4⟩ 2 2 [1, 0] [7, 5, 9, 8] = some mem1 ∧
      phase2 (minCallbacks 0) 2 2 mem1 = some mem2 ∧
      ∀ g, g < 2 → ∀ m : List Int, m.length = 4 →
        ∃ v, runGroup (minCallbacks 0) ⟨0, 4, 4⟩ 2 2 m g = some (m.set (g * 2) v) :=
  (phases_frame 0 4 2 2 [1, 0] [7, 5, 9, 8] (by decide) rfl (by decide)).2.2.2.2
    (by decide) (by decide)

/-! ### The seed -/

/-- On the finite integer-valued numbers of the program `sycl::fmin` is the
function `fmin` of the embedding. -/
theorem F64_fmin_ofInt (a b : Int) :
    F64.fmin (F64.ofInt a) (F64.ofInt b) = F64.ofInt (fmin a b) := by
  simp only [F64.fmin, F64.ofInt, F64.lt, fmin]
  by_cases h : b < a
  · simp [h]
  · simp [h]

theorem toDouble_le (k : Nat) : toDouble k ≤ 2 * (k : Int) := by
  unfold toDouble
  split
  · omega
  · rename_i h
    have hk : k ≠ 0 := by
      intro h0; subst h0; simp at h
    have h1 : 2 ^ (Nat.log2 k - 52) ≤ k :=
      le_trans (Nat.pow_le_pow_right (by decide) (Nat.sub_le _ _)) (Nat.log2_self_le hk)
    have h2 : k / 2 ^ (Nat.log2 k - 52) * 2 ^ (Nat.log2 k - 52) ≤ k := Nat.div_mul_le_self _ _
    simp only
    split
    · have : (k / 2 ^ (Nat.log2 k - 52) + 1) * 2 ^ (Nat.log2 k - 52) ≤ 2 * k := by
        rw [Nat.add_mul]; omega
      exact_mod_cast this
    · have : k / 2 ^ (Nat.log2 k - 52) * 2 ^ (Nat.log2 k - 52) ≤ 2 * k := by omega
      exact_mod_cast this

theorem prepareSYCLBuffer_le_max (size : Nat) (hs : size < 2 ^ 64) :
    ∀ v ∈ prepareSYCLBuffer size, v ≤ DOUBLE_MAX := by
  intro v hv
  simp only [prepareSYCLBuffer, List.mem_map, List.mem_range] at hv
  obtain ⟨i, hi, rfl⟩ := hv
  have h1 := toDouble_le (if i = 1 then 0 else i + 1)
  have h2 : (if i = 1 then 0 else i + 1) ≤ 2 ^ 64 := by
    split <;> omega
  have h3 : (2 : Int) * ((if i = 1 then 0 else i + 1 : Nat) : Int) ≤ 2 * 2 ^ 64 := by
    have : (((if i = 1 then 0 else i + 1 : Nat)) : Int) ≤ ((2 ^ 64 : Nat) : Int) :=
      Int.ofNat_le.mpr h2
    norm_num at this ⊢
    omega
  have h4 : (2 : Int) * 2 ^ 64 ≤ DOUBLE_MAX := by
    unfold DOUBLE_MAX; decide
  omega

/-- A worker that owns no element of the range leaves the seed in its slot. -/
theorem workerFold_idle (junk : Int) (mem loc : List Int) (n G W g l : Nat) (hT : 0 < G * W)
    (hl : l < loc.length) (hno : n ≤ g * W + l) :
    workerFold (minCallbacks junk) ⟨0, n, n⟩ G W g ⟨loc, mem⟩ l =
      some ⟨loc.set l DOUBLE_MAX, mem⟩ := by
  have he : (minCallbacks junk).empty ⟨loc, mem⟩ l = some ⟨loc.set l DOUBLE_MAX, mem⟩ :=
    minEmpty_eq loc mem l hl
  simp only [workerFold, he]
  rw [strideLoop_eq_foldlM (minCallbacks junk) l 0 n (G * W) hT n (g * W + l) _ (by omega),
    strideIndices_of_le 0 n (G * W) (g * W + l) hT hno]
  rfl

/-- C17, as stated, fails: `DOUBLE_MAX` is the largest finite `double`, not an
identity of `fmin` on all of `double`.  For `x = +infinity` and for `x = NaN`,
`fmin(DOUBLE_MAX, x)` is `DOUBLE_MAX`, not `x`. -/
theorem seed_not_identity_for_infinity :
    F64.fmin (F64.ofInt DOUBLE_MAX) F64.posInf = F64.ofInt DOUBLE_MAX ∧
    F64.fmin (F64.ofInt DOUBLE_MAX) F64.posInf ≠ F64.posInf ∧
    F64.fmin (F64.ofInt DOUBLE_MAX) F64.nan = F64.ofInt DOUBLE_MAX ∧
    F64.fmin (F64.ofInt DOUBLE_MAX) F64.nan ≠ F64.nan := by
  simp [F64.fmin, F64.lt, F64.ofInt]

/-- C17, amended: for every value `x` of type `double` other than `+infinity`
and NaN, that is for `-infinity` and for every finite value (which is at most
`DOUBLE_MAX`), `fmin(DOUBLE_MAX, x) = x` and `fmin(x, DOUBLE_MAX) = x`.  Every
element of the data set is such a value; a worker that owns no element of the
range leaves the seed in its scratch slot; and a combiner call whose second
slot holds the seed leaves the scratch memory as it is, while one whose first
slot holds the seed copies the second slot. -/
theorem seed_identity (x : F64) (hnan : x ≠ F64.nan) (hinf : x ≠ F64.posInf)
    (hfin : ∀ q, x = F64.finite q → q ≤ ((DOUBLE_MAX : Int) : ℚ)) :
    F64.fmin (F64.ofInt DOUBLE_MAX) x = x ∧ F64.fmin x (F64.ofInt DOUBLE_MAX) = x ∧
    (∀ size, size < 2 ^ 64 → ∀ v ∈ prepareSYCLBuffer size,
      v ≤ DOUBLE_MAX ∧ fmin DOUBLE_MAX v = v ∧ fmin v DOUBLE_MAX = v ∧
      F64.fmin (F64.ofInt DOUBLE_MAX) (F64.ofInt v) = F64.ofInt v) ∧
    (∀ (junk : Int) (mem loc : List Int) (n G W g l : Nat), 0 < G * W → l < loc.length →
      n ≤ g * W + l →
      workerFold (minCallbacks junk) ⟨0, n, n⟩ G W g ⟨loc, mem⟩ l =
        some ⟨loc.set l DOUBLE_MAX, mem⟩) ∧
    (∀ (loc mem : List Int) (i j : Nat) (a : Int), a ≤ DOUBLE_MAX →
      loc[i]? = some a → loc[j]? = some DOUBLE_MAX →
      minCombiner ⟨loc, mem⟩ i j = some ⟨loc, mem⟩ ∧
      minCombiner ⟨loc, mem⟩ j i = some ⟨loc.set j a, mem⟩) := by
  refine ⟨?_, ?_, ?_, ?_, ?_⟩
  · cases x with
    | nan => exact absurd rfl hnan
    | negInf => simp [F64.fmin, F64.lt, F64.ofInt]
    | posInf => exact absurd rfl hinf
    | finite q =>
      have hq := hfin q rfl
      simp only [F64.fmin, F64.lt, F64.ofInt]
      by_cases h : q < ((DOUBLE_MAX : Int) : ℚ)
      · simp [h]
      · have : q = ((DOUBLE_MAX : Int) : ℚ) := le_antisymm hq (not_lt.mp h)
        simp [this]
  · cases x with
    | nan => exact absurd rfl hnan
    | negInf => simp [F64.fmin, F64.lt, F64.ofInt]
    | posInf => exact absurd rfl hinf
    | finite q =>
      have hq := hfin q rfl
      simp only [F64.fmin, F64.lt, F64.ofInt]
      have : ¬ ((DOUBLE_MAX : Int) : ℚ) < q := not_lt.mpr hq
      simp [this]
  · intro size hs v hv
    have hle := prepareSYCLBuffer_le_max size hs v hv
    refine ⟨hle, fmin_eq_right _ _ hle, fmin_eq_left _ _ hle, ?_⟩
    rw [F64_fmin_ofInt, fmin_eq_right _ _ hle]
  · intro junk mem loc n G W g l hT hl hno
    exact workerFold_idle junk mem loc n G W g l hT hl hno
  · intro loc mem i j a ha hi hj
    constructor
    · rw [minCombiner_eq loc mem i j a DOUBLE_MAX hi hj, fmin_eq_left a DOUBLE_MAX ha,
        set_same_of_getElem? loc i a hi]
    · rw [minCombiner_eq loc mem j i DOUBLE_MAX a hj hi, fmin_eq_right DOUBLE_MAX a ha]

/-- The value `0.0`, the minimum of the data set, is left alone by the seed. -/
theorem seed_identity_witness :
    F64.fmin (F64.ofInt DOUBLE_MAX) (F64.finite 0) = F64.finite 0 ∧
    F64.fmin (F64.finite 0) (F64.ofInt DOUBLE_MAX) = F64.finite 0 :=
  ⟨(seed_identity (F64.finite 0) (by simp) (by simp) (fun q hq => by
      have : q = 0 := (F64.finite.inj hq).symm
      rw [this]
      exact_mod_cast DOUBLE_MAX_nonneg)).1,
   (seed_identity (F64.finite 0) (by simp) (by simp) (fun q hq => by
      have : q = 0 := (F64.finite.inj hq).symm
      rw [this]
      exact_mod_cast DOUBLE_MAX_nonneg)).2.1⟩

/-! ### What a group reads -/

/-- Folding `functor` of `reduceSYCLGeneric` into slot `l` over in-bounds
indices `idxs` ends and leaves in slot `l` the `fmin` of the old slot value and
the elements at these indices. -/
theorem minFunctor_foldlM (mem : List Int) (l : Nat) :
    ∀ (idxs : List Nat) (loc : List Int) (a : Int), loc[l]? = some a →
      (∀ i ∈ idxs, i < mem.length) →
      idxs.foldlM (fun c i => minFunctor c l i) ⟨loc, mem⟩ =
        some ⟨loc.set l (idxs.foldl (fun acc i => fmin acc (mem[i]?.getD 0)) a), mem⟩ := by
  intro idxs
  induction idxs with
  | nil =>
    intro loc a ha _
    simp [set_same_of_getElem? loc l a ha]
  | cons i idxs ih =>
    intro loc a ha hin
    have hi : i < mem.length := hin i (List.mem_cons_self _ _)
    have hb : mem[i]? = some mem[i] := List.getElem?_eq_getElem hi
    have hl : l < loc.length := (List.getElem?_eq_some.mp ha).1
    rw [List.foldlM_cons, minFunctor_eq loc mem l i a mem[i] ha hb]
    simp only [Option.bind_eq_bind, Option.some_bind, List.foldl_cons]
    rw [ih (loc.set l (fmin a mem[i])) (fmin a mem[i]) (by simp [List.getElem?_set, hl])
      (fun j hj => hin j (List.mem_cons_of_mem _ hj)), List.set_set, hb]
    rfl

/-- The scratch memory of group `g` at the first barrier: slot `l` holds the
`fmin` of the seed and the elements of worker `l`. -/
theorem foldPhase_exact (junk : Int) (mem : List Int) (n G W g : Nat) (hT : 0 < G * W)
    (hn : n ≤ mem.length) :
    (List.range W).foldlM (workerFold (minCallbacks junk) ⟨0, n, n⟩ G W g)
        ((minCallbacks junk).allocator W mem) =
      some ⟨(List.range W).map (fun l =>
        (strideIndices 0 n (G * W) (g * W + l)).foldl
          (fun acc i => fmin acc (mem[i]?.getD 0)) DOUBLE_MAX), mem⟩ := by
  obtain ⟨ctx, hrun, hres, hlen, hslots⟩ := foldlM_range_inv
    (workerFold (minCallbacks junk) ⟨0, n, n⟩ G W g)
    (fun l cx => cx.result = mem ∧ cx.localMem.length = W ∧
      ∀ j, j < l → cx.localMem[j]? = some ((strideIndices 0 n (G * W) (g * W + j)).foldl
          (fun acc i => fmin acc (mem[i]?.getD 0)) DOUBLE_MAX))
    W ((minCallbacks junk).allocator W mem)
    ⟨rfl, by simp [minCallbacks, minAllocator], fun j hj => absurd hj (Nat.not_lt_zero j)⟩
    (by
      rintro l ⟨loc, res⟩ hl ⟨hres, hlen, hslots⟩
      simp only at hres hlen hslots
      subst hres
      have hE : (minCallbacks junk).empty ⟨loc, res⟩ l = some ⟨loc.set l DOUBLE_MAX, res⟩ :=
        minEmpty_eq loc res l (by omega)
      have hrun : workerFold (minCallbacks junk) ⟨0, n, n⟩ G W g ⟨loc, res⟩ l =
          some ⟨loc.set l ((strideIndices 0 n (G * W) (g * W + l)).foldl
            (fun acc i => fmin acc (res[i]?.getD 0)) DOUBLE_MAX), res⟩ := by
        simp only [workerFold, hE]
        rw [strideLoop_eq_foldlM (minCallbacks junk) l 0 n (G * W) hT n (g * W + l) _
          (by omega)]
        have := minFunctor_foldlM res l (strideIndices 0 n (G * W) (g * W + l))
          (loc.set l DOUBLE_MAX) DOUBLE_MAX (by simp [List.getElem?_set, hlen, hl])
          (fun i hi => by
            obtain ⟨k, hk, rfl⟩ := (mem_strideIndices_iff_exists 0 n (G * W) _ hT i).mp hi
            omega)
        rw [List.set_set] at this
        exact this
      refine ⟨_, hrun, rfl, by simp [hlen], ?_⟩
      intro j hj
      by_cases hjl : j = l
      · subst hjl
        simp [List.getElem?_set, hlen, hl]
      · simp only
        rw [List.getElem?_set_ne (Ne.symm hjl)]
        exact hslots j (by omega))
  obtain ⟨loc, res⟩ := ctx
  simp only at hres hlen hslots
  subst hres
  rw [hrun]
  congr 2
  apply List.ext_getElem?
  intro j
  by_cases hj : j < W
  · rw [hslots j hj, List.getElem?_map, List.getElem?_range hj]
    rfl
  · rw [List.getElem?_eq_none (by omega), List.getElem?_eq_none (by simp; omega)]

theorem owner_of_worker (W g l : Nat) (hl : l < W) : (g * W + l) / W = g := by
  have hW : 0 < W := by omega
  rw [Nat.add_comm, Nat.add_mul_div_right _ _ hW, Nat.div_eq_of_lt hl, Nat.zero_add]

/-- The value a group publishes depends only on the elements its own workers
own: on two buffers of `n` elements that agree on these elements, group `g`
ends on both and publishes the same value at index `g * W`. -/
theorem runGroup_congr (junk : Int) (n G W g : Nat) (hG : g < G) (hW : 0 < W)
    (mem mem' : List Int) (hn : mem.length = n) (hn' : mem'.length = n) (hidx : g * W < n)
    (hagree : ∀ i, i < n → i % (G * W) / W = g → mem'[i]? = mem[i]?) :
    ∃ v, runGroup (minCallbacks junk) ⟨0, n, n⟩ G W mem g = some (mem.set (g * W) v) ∧
      runGroup (minCallbacks junk) ⟨0, n, n⟩ G W mem' g = some (mem'.set (g * W) v) := by
  have hT : 0 < G * W := Nat.mul_pos (by omega) hW
  have hS : (List.range W).map (fun l =>
        (strideIndices 0 n (G * W) (g * W + l)).foldl
          (fun acc i => fmin acc (mem'[i]?.getD 0)) DOUBLE_MAX) =
      (List.range W).map (fun l =>
        (strideIndices 0 n (G * W) (g * W + l)).foldl
          (fun acc i => fmin acc (mem[i]?.getD 0)) DOUBLE_MAX) := by
    apply List.map_congr_left
    intro l hl
    have hlW : l < W := List.mem_range.mp hl
    have hw : g * W + l < G * W := by
      have : (g + 1) * W ≤ G * W := Nat.mul_le_mul_right W (by omega)
      rw [Nat.succ_mul] at this
      omega
    apply List.foldl_ext
    intro acc i hi
    have hmem := (mem_strideIndices 0 n (G * W) (g * W + l) hT hw i).mp hi
    have h1 : i < n := by omega
    have h2 : i % (G * W) / W = g := by
      have := hmem.2.2
      simp only [Nat.sub_zero] at this
      rw [this, owner_of_worker W g l hlW]
    rw [hagree i h1 h2]
  have hA := foldPhase_exact junk mem n G W g hT (by omega)
  have hA' := foldPhase_exact junk mem' n G W g hT (by omega)
  rw [hS] at hA'
  obtain ⟨s', hlen', htree⟩ := treeLoop_total (minCallbacks junk) fmin
    (minCallbacks_combiner junk) W W (W / 2)
    ((List.range W).map (fun l =>
        (strideIndices 0 n (G * W) (g * W + l)).foldl
          (fun acc i => fmin acc (mem[i]?.getD 0)) DOUBLE_MAX))
    (Nat.div_le_self W 2) (by omega) (by simp)
  have h0 : s'[0]? = some s'[0] := List.getElem?_eq_getElem (by omega)
  refine ⟨s'[0], ?_, ?_⟩
  · have hF : (minCallbacks junk).finaliser ⟨s', mem⟩ (g * W) 0 =
        some ⟨s', mem.set (g * W) s'[0]⟩ := minFinaliser_eq s' mem (g * W) 0 _ h0 (by omega)
    simp only [runGroup, hA, htree mem, hF]
  · have hF : (minCallbacks junk).finaliser ⟨s', mem'⟩ (g * W) 0 =
        some ⟨s', mem'.set (g * W) s'[0]⟩ := minFinaliser_eq s' mem' (g * W) 0 _ h0 (by omega)
    simp only [runGroup, hA', htree mem', hF]

/-- The first kernel, started on a buffer `cur` that agrees with the original
buffer `orig` on every element owned by a group still to run: it ends, and each
group of the schedule has published the value it computes when run alone on the
original buffer. -/
theorem phase1_independent (junk : Int) (n G W : Nat) (hW : 0 < W) (orig : List Int)
    (ho : orig.length = n) :
    ∀ (sched : List Nat) (cur : List Int), sched.Nodup → (∀ g ∈ sched, g < G) →
      (∀ g ∈ sched, g * W < n) → cur.length = n →
      (∀ i, i < n → i % (G * W) / W ∈ sched → cur[i]? = orig[i]?) →
      ∃ mem1, sched.foldlM (runGroup (minCallbacks junk) ⟨0, n, n⟩ G W) cur = some mem1 ∧
        mem1.length = n ∧
        (∀ i : Nat, (∀ g ∈ sched, i ≠ g * W) → mem1[i]? = cur[i]?) ∧
        (∀ g ∈ sched, ∃ v,
          runGroup (minCallbacks junk) ⟨0, n, n⟩ G W orig g = some (orig.set (g * W) v) ∧
          mem1[g * W]? = some v) := by
  intro sched
  induction sched with
  | nil =>
    intro cur _ _ _ hc _
    exact ⟨cur, by simp, hc, fun _ _ => rfl, fun g hg => by cases hg⟩
  | cons g rest ih =>
    intro cur hnd hlt hin hc hag
    have hgG : g < G := hlt g (List.mem_cons_self _ _)
    have hgn : g * W < n := hin g (List.mem_cons_self _ _)
    have hg_notin : g ∉ rest := (List.nodup_cons.mp hnd).1
    obtain ⟨v, hrun_o, hrun_c⟩ := runGroup_congr junk n G W g hgG hW orig cur ho hc hgn
      (fun i hi hown => hag i hi (by rw [hown]; exact List.mem_cons_self _ _))
    have hown_g : g * W % (G * W) / W = g := by
      rw [Nat.mod_eq_of_lt (Nat.mul_lt_mul_of_pos_right hgG hW), Nat.mul_div_cancel _ hW]
    obtain ⟨mem1, hrun1, hlen1, hframe1, hvals1⟩ := ih (cur.set (g * W) v)
      (List.nodup_cons.mp hnd).2
      (fun g1 h1 => hlt g1 (List.mem_cons_of_mem _ h1))
      (fun g1 h1 => hin g1 (List.mem_cons_of_mem _ h1)) (by simp [hc])
      (fun i hi hown => by
        have hne : g * W ≠ i := by
          intro he
          rw [← he, hown_g] at hown
          exact hg_notin hown
        rw [List.getElem?_set_ne hne]
        exact hag i hi (List.mem_cons_of_mem _ hown))
    refine ⟨mem1, by simp [List.foldlM_cons, hrun_c, hrun1], hlen1, ?_, ?_⟩
    · intro i hi
      rw [hframe1 i (fun g1 h1 => hi g1 (List.mem_cons_of_mem _ h1))]
      exact List.getElem?_set_ne (Ne.symm (hi g (List.mem_cons_self _ _)))
    · intro g1 hg1
      rcases List.mem_cons.mp hg1 with e | e
      · subst e
        refine ⟨v, hrun_o, ?_⟩
        rw [hframe1 (g1 * W) (fun g2 h2 he => by
          have : g1 = g2 := Nat.eq_of_mul_eq_mul_right hW he
          exact hg_notin (by rw [this]; exact h2))]
        simp [List.getElem?_set, hgn, hc]
      · exact hvals1 g1 e

/-! ### The conversion to `double` is monotone -/

/-- Above `2 ^ 53` the conversion keeps 53 significant bits: with
`e = log2 k - 52` and `p = 2 ^ e`, `2 ^ 52 * p <= k < 2 ^ 53 * p`, and the result
is `k / p` or `k / p + 1` times `p`, the larger when the remainder is above half
of `p`, or equal to it with `k / p` odd. -/
theorem toDouble_big (k : Nat) (hk : 2 ^ 53 ≤ k) :
    1 ≤ Nat.log2 k - 52 ∧
    2 ^ 52 * 2 ^ (Nat.log2 k - 52) ≤ k ∧ k < 2 ^ 53 * 2 ^ (Nat.log2 k - 52) ∧
    toDouble k =
      (((if 2 ^ (Nat.log2 k - 52 - 1) < k % 2 ^ (Nat.log2 k - 52) ∨
            (k % 2 ^ (Nat.log2 k - 52) = 2 ^ (Nat.log2 k - 52 - 1) ∧
              k / 2 ^ (Nat.log2 k - 52) % 2 = 1)
          then k / 2 ^ (Nat.log2 k - 52) + 1 else k / 2 ^ (Nat.log2 k - 52)) *
        2 ^ (Nat.log2 k - 52) : Nat) : Int) := by
  have hk0 : k ≠ 0 := by
    intro h; subst h; simp at hk
  have hlog : 53 ≤ Nat.log2 k := (Nat.le_log2 hk0).mpr hk
  have h1 : 2 ^ 52 * 2 ^ (Nat.log2 k - 52) = 2 ^ Nat.log2 k := by
    rw [← Nat.pow_add]; congr 1; omega
  have h2 : 2 ^ 53 * 2 ^ (Nat.log2 k - 52) = 2 ^ (Nat.log2 k + 1) := by
    rw [← Nat.pow_add]; congr 1; omega
  refine ⟨by omega, ?_, ?_, ?_⟩
  · rw [h1]; exact Nat.log2_self_le hk0
  · rw [h2]; exact Nat.lt_log2_self
  · have hnot : ¬ k < 2 ^ 53 := by omega
    unfold toDouble
    simp only [hnot, if_false]

theorem toDouble_small (k : Nat) (hk : k < 2 ^ 53) : toDouble k = (k : Int) := by
  unfold toDouble
  simp only [hk, if_true]

/-- Bounds on the conversion above `2 ^ 53`, for the exponent `e` of
`toDouble_big`. -/
theorem toDouble_big_bounds (k : Nat) (hk : 2 ^ 53 ≤ k) :
    ∃ t : Nat, toDouble k = (t : Int) ∧
      k / 2 ^ (Nat.log2 k - 52) * 2 ^ (Nat.log2 k - 52) ≤ t ∧
      t ≤ (k / 2 ^ (Nat.log2 k - 52) + 1) * 2 ^ (Nat.log2 k - 52) ∧
      2 ^ 52 * 2 ^ (Nat.log2 k - 52) ≤ t ∧ t ≤ 2 ^ 53 * 2 ^ (Nat.log2 k - 52) := by
  obtain ⟨_, hlo, hhi, heq⟩ := toDouble_big k hk
  have hp : 0 < 2 ^ (Nat.log2 k - 52) := Nat.two_pow_pos _
  have hq1 : 2 ^ 52 ≤ k / 2 ^ (Nat.log2 k - 52) := (Nat.le_div_iff_mul_le hp).mpr hlo
  have hq2 : k / 2 ^ (Nat.log2 k - 52) < 2 ^ 53 := (Nat.div_lt_iff_lt_mul hp).mpr hhi
  refine ⟨_, heq, ?_, ?_, ?_, ?_⟩
  · apply Nat.mul_le_mul_right
    split <;> omega
  · apply Nat.mul_le_mul_right
    split <;> omega
  · apply Nat.mul_le_mul_right
    split <;> omega
  · apply Nat.mul_le_mul_right
    split <;> omega

theorem toDouble_mono (a b : Nat) (hab : a ≤ b) : toDouble a ≤ toDouble b := by
  by_cases ha : a < 2 ^ 53
  · rw [toDouble_small a ha]
    by_cases hb : b < 2 ^ 53
    · rw [toDouble_small b hb]; exact Int.ofNat_le.mpr hab
    · obtain ⟨he, _, _, _⟩ := toDouble_big b (by omega)
      obtain ⟨t, ht, _, _, hlo, _⟩ := toDouble_big_bounds b (by omega)
      rw [ht]
      have h2 : 2 ≤ 2 ^ (Nat.log2 b - 52) := by
        calc 2 = 2 ^ 1 := rfl
          _ ≤ 2 ^ (Nat.log2 b - 52) := Nat.pow_le_pow_right (by decide) he
      have h3 : 2 ^ 52 * 2 ≤ 2 ^ 52 * 2 ^ (Nat.log2 b - 52) := Nat.mul_le_mul_left _ h2
      have : a ≤ t := by omega
      exact Int.ofNat_le.mpr this
  · have hb : 2 ^ 53 ≤ b := by omega
    obtain ⟨_, hloa, hhia, heqa⟩ := toDouble_big a (by omega)
    obtain ⟨_, hlob, hhib, heqb⟩ := toDouble_big b hb
    obtain ⟨ta, hta, _, haup, _, haup2⟩ := toDouble_big_bounds a (by omega)
    obtain ⟨tb, htb, hblo, _, hblo2, _⟩ := toDouble_big_bounds b hb
    by_cases hee : Nat.log2 a - 52 = Nat.log2 b - 52
    · -- same exponent
      rw [heqa, heqb, ← hee]
      apply Int.ofNat_le.mpr
      apply Nat.mul_le_mul_right
      have hq : a / 2 ^ (Nat.log2 a - 52) ≤ b / 2 ^ (Nat.log2 a - 52) :=
        Nat.div_le_div_right hab
      by_cases hqq : a / 2 ^ (Nat.log2 a - 52) = b / 2 ^ (Nat.log2 a - 52)
      · have hda := Nat.div_add_mod a (2 ^ (Nat.log2 a - 52))
        have hdb := Nat.div_add_mod b (2 ^ (Nat.log2 a - 52))
        rw [← hqq] at hdb
        have hr : a % 2 ^ (Nat.log2 a - 52) ≤ b % 2 ^ (Nat.log2 a - 52) := by omega
        rw [← hqq]
        split
        · rename_i hc
          have : 2 ^ (Nat.log2 a - 52 - 1) < b % 2 ^ (Nat.log2 a - 52) ∨
              (b % 2 ^ (Nat.log2 a - 52) = 2 ^ (Nat.log2 a - 52 - 1) ∧
                a / 2 ^ (Nat.log2 a - 52) % 2 = 1) := by
            rcases hc with h | ⟨h, ho⟩
            · left; omega
            · by_cases hx : b % 2 ^ (Nat.log2 a - 52) = 2 ^ (Nat.log2 a - 52 - 1)
              · right; exact ⟨hx, ho⟩
              · left; omega
          rw [if_pos this]
        · split <;> omega
      · have hlt : a / 2 ^ (Nat.log2 a - 52) + 1 ≤ b / 2 ^ (Nat.log2 a - 52) := by omega
        have h1 : (if 2 ^ (Nat.log2 a - 52 - 1) < a % 2 ^ (Nat.log2 a - 52) ∨
            (a % 2 ^ (Nat.log2 a - 52) = 2 ^ (Nat.log2 a - 52 - 1) ∧
              a / 2 ^ (Nat.log2 a - 52) % 2 = 1)
            then a / 2 ^ (Nat.log2 a - 52) + 1 else a / 2 ^ (Nat.log2 a - 52)) ≤
            a / 2 ^ (Nat.log2 a - 52) + 1 := by split <;> omega
        have h2 : b / 2 ^ (Nat.log2 a - 52) ≤
            (if 2 ^ (Nat.log2 a - 52 - 1) < b % 2 ^ (Nat.log2 a - 52) ∨
            (b % 2 ^ (Nat.log2 a - 52) = 2 ^ (Nat.log2 a - 52 - 1) ∧
              b / 2 ^ (Nat.log2 a - 52) % 2 = 1)
            then b / 2 ^ (Nat.log2 a - 52) + 1 else b / 2 ^ (Nat.log2 a - 52)) := by
          split <;> omega
        omega
    · -- the exponent of `b` is larger
      have hlt : Nat.log2 a - 52 < Nat.log2 b - 52 := by
        by_contra hge
        have hgt : Nat.log2 b - 52 + 1 ≤ Nat.log2 a - 52 := by omega
        have hp : 2 ^ (Nat.log2 b - 52 + 1) ≤ 2 ^ (Nat.log2 a - 52) :=
          Nat.pow_le_pow_right (by decide) hgt
        rw [Nat.pow_succ] at hp
        have h3 : 2 ^ 52 * (2 ^ (Nat.log2 b - 52) * 2) ≤ 2 ^ 52 * 2 ^ (Nat.log2 a - 52) :=
          Nat.mul_le_mul_left _ hp
        have h4 : 2 ^ 52 * (2 ^ (Nat.log2 b - 52) * 2) = 2 ^ 53 * 2 ^ (Nat.log2 b - 52) := by
          rw [show (2 : Nat) ^ 53 = 2 ^ 52 * 2 by decide, Nat.mul_assoc,
            Nat.mul_comm 2 (2 ^ (Nat.log2 b - 52))]
        omega
      have hp : 2 ^ (Nat.log2 a - 52 + 1) ≤ 2 ^ (Nat.log2 b - 52) :=
        Nat.pow_le_pow_right (by decide) hlt
      rw [Nat.pow_succ] at hp
      have h3 : 2 ^ 52 * (2 ^ (Nat.log2 a - 52) * 2) ≤ 2 ^ 52 * 2 ^ (Nat.log2 b - 52) :=
        Nat.mul_le_mul_left _ hp
      have h4 : 2 ^ 52 * (2 ^ (Nat.log2 a - 52) * 2) = 2 ^ 53 * 2 ^ (Nat.log2 a - 52) := by
        rw [show (2 : Nat) ^ 53 = 2 ^ 52 * 2 by decide, Nat.mul_assoc,
          Nat.mul_comm 2 (2 ^ (Nat.log2 a - 52))]
      rw [hta, htb]
      apply Int.ofNat_le.mpr
      omega

/-! ### The prepared data: every group but group 0 republishes its own slot -/

/-- From index 1 on, the prepared data is in ascending order. -/
theorem prepareSYCLBuffer_tail_sorted (k i : Nat) (hk : 1 ≤ k) (hki : k ≤ i) :
    toDouble (if k = 1 then 0 else k + 1) ≤ toDouble (if i = 1 then 0 else i + 1) := by
  apply toDouble_mono
  by_cases h1 : k = 1
  · simp [h1]
  · have hi : ¬ i = 1 := by omega
    simp only [h1, hi, if_false]
    omega

/-- On the prepared data, a group `g >= 1` whose output index is inside the
buffer publishes the value that its output index already holds: the elements
the group owns are at its output index or above it, worker 0 of the group reads
the output index first, and the data is ascending from index 1 on. -/
theorem runGroup_prepared (junk : Int) (size G W g : Nat) (hsz : size < 2 ^ 64)
    (hg1 : 1 ≤ g) (hgG : g < G) (hW : 0 < W) (hidx : g * W < size) :
    ∃ v, runGroup (minCallbacks junk) ⟨0, size, size⟩ G W (prepareSYCLBuffer size) g =
        some ((prepareSYCLBuffer size).set (g * W) v) ∧
      (prepareSYCLBuffer size)[g * W]? = some v := by
  have hG : 0 < G := by omega
  have hgW : 1 ≤ g * W := Nat.mul_pos hg1 hW
  generalize hc : toDouble (if g * W = 1 then 0 else g * W + 1) = c
  have horig : (prepareSYCLBuffer size)[g * W]? = some c := by
    rw [prepareSYCLBuffer_getElem? size (g * W) hidx, hc]
  have hcmax : c ≤ DOUBLE_MAX :=
    prepareSYCLBuffer_le_max size hsz c (List.getElem?_mem horig)
  have hlen : (prepareSYCLBuffer size).length = size := prepareSYCLBuffer_length size
  have hlen' : (List.replicate (g * W) c ++ (prepareSYCLBuffer size).drop (g * W)).length =
      size := by
    simp [hlen]; omega
  have hget : ∀ i, g * W ≤ i →
      (List.replicate (g * W) c ++ (prepareSYCLBuffer size).drop (g * W))[i]? =
        (prepareSYCLBuffer size)[i]? := by
    intro i hi
    rw [List.getElem?_append_right (by simpa using hi), List.length_replicate,
      List.getElem?_drop, show g * W + (i - g * W) = i by omega]
  have hpos : ∀ v ∈ List.replicate (g * W) c ++ (prepareSYCLBuffer size).drop (g * W),
      c ≤ v := by
    intro v hv
    rcases List.mem_append.mp hv with h | h
    · rw [(List.mem_replicate.mp h).2]
    · obtain ⟨j, hj⟩ := List.mem_iff_getElem?.mp h
      rw [List.getElem?_drop] at hj
      have hjlt : g * W + j < size := by
        have := (List.getElem?_eq_some.mp hj).1
        omega
      rw [prepareSYCLBuffer_getElem? size (g * W + j) hjlt] at hj
      rw [← Option.some.inj hj, ← hc]
      exact prepareSYCLBuffer_tail_sorted (g * W) (g * W + j) hgW (by omega)
  obtain ⟨v1, hrun1, _, hv1⟩ := (runGroup_min junk _ size G W g hG hW hlen' c hcmax hpos).2 hidx
  have hv1c : v1 = c := by
    apply hv1 0 0 (by decide) hW (by simpa using hidx)
    rw [hget _ (by omega)]
    simpa using horig
  obtain ⟨v, hrun_o, hrun_m⟩ := runGroup_congr junk size G W g hgG hW (prepareSYCLBuffer size)
    (List.replicate (g * W) c ++ (prepareSYCLBuffer size).drop (g * W)) hlen hlen' hidx
    (fun i _ hown => by
      apply hget
      have h1 : g * W ≤ i % (G * W) := by
        have := (Nat.le_div_iff_mul_le hW).mp (le_of_eq hown.symm)
        exact this
      have h2 : i % (G * W) ≤ i := Nat.mod_le _ _
      omega)
  have hvv : v = v1 := by
    rw [hrun1] at hrun_m
    have h := congrArg (fun l => l[g * W]?) (Option.some.inj hrun_m)
    simp only [List.getElem?_set, hlen', hidx, if_true] at h
    exact (Option.some.inj h).symm
  refine ⟨v, hrun_o, ?_⟩
  rw [hvv, hv1c]
  exact horig

/-- The engine on the prepared data, for a sizing that stays inside the buffer
and any order of the groups: phase 1 ends and leaves every element but element
0 as it was, and phase 2 ends and changes element 0 only. -/
theorem parallel_reduce_1d_prepared (junk : Int) (dev : Device) (sched : List Nat)
    (size : Nat) (hsz : size < 2 ^ 64)
    (hG : 0 < (sizing dev size).1) (hW : 0 < (sizing dev size).2)
    (hin : ((sizing dev size).1 - 1) * (sizing dev size).2 < size)
    (hperm : sched.Perm (List.range (sizing dev size).1)) :
    ∃ buf, parallel_reduce_1d dev sched ⟨0, size, size⟩ (minCallbacks junk)
        (prepareSYCLBuffer size) = some buf ∧
      ∀ i : Nat, i ≠ 0 → buf[i]? = (prepareSYCLBuffer size)[i]? := by
  generalize hGd : (sizing dev size).1 = G at *
  generalize hWd : (sizing dev size).2 = W at *
  have hmem : ∀ g, g ∈ sched ↔ g < G := fun g => by
    rw [hperm.mem_iff, List.mem_range]
  have hnd : sched.Nodup := hperm.nodup_iff.mpr (List.nodup_range G)
  have hidx : ∀ g, g < G → g * W < size := by
    intro g hg
    have : g * W ≤ (G - 1) * W := Nat.mul_le_mul_right W (by omega)
    omega
  have hlen : (prepareSYCLBuffer size).length = size := prepareSYCLBuffer_length size
  obtain ⟨mem1, hrun1, hlen1, hframe1, hvals1⟩ := phase1_independent junk size G W hW
    (prepareSYCLBuffer size) hlen sched (prepareSYCLBuffer size) hnd
    (fun g hg => (hmem g).mp hg) (fun g hg => hidx g ((hmem g).mp hg)) hlen
    (fun _ _ _ => rfl)
  obtain ⟨c, _, hc⟩ := exists_lower_bound mem1
  obtain ⟨v, hrun2, _, _⟩ := phase2_min junk mem1 size G W hG hlen1 hin c hc
  have hkeep : ∀ i : Nat, i ≠ 0 → mem1[i]? = (prepareSYCLBuffer size)[i]? := by
    intro i hi
    by_cases hout : ∃ g, g < G ∧ i = g * W
    · obtain ⟨g, hg, rfl⟩ := hout
      have hg1 : 1 ≤ g := by
        rcases Nat.eq_zero_or_pos g with h | h
        · subst h; simp at hi
        · exact h
      obtain ⟨u, hu, hmu⟩ := hvals1 g ((hmem g).mpr hg)
      obtain ⟨u', hu', hou'⟩ := runGroup_prepared junk size G W g hsz hg1 hg hW (hidx g hg)
      have huu : u = u' := by
        rw [hu] at hu'
        have h := congrArg (fun l => l[g * W]?) (Option.some.inj hu')
        simp only [List.getElem?_set, hlen, hidx g hg, if_true] at h
        exact Option.some.inj h
      rw [hmu, hou', huu]
    · apply hframe1
      intro g hg he
      exact hout ⟨g, (hmem g).mp hg, he⟩
  refine ⟨mem1.set 0 v, ?_, ?_⟩
  · have hW0 : W ≠ 0 := by omega
    simp only [parallel_reduce_1d, hGd, hWd, phase1, hW0, if_false, hrun1, hrun2]
  · intro i hi
    rw [List.getElem?_set_ne (Ne.symm hi)]
    exact hkeep i hi

/-! ### The in-place reduction of the harness -/

/-- C9, amended: `reduceSYCLGeneric` reduces in place.  For every `N`, every
device sizing, every order of the groups and every initial content of scratch
memory: the two phases run to their end exactly when the data set is not empty,
`numGroups >= 1`, `groupSize >= 1` and the last output index
`(numGroups - 1) * groupSize` is inside the buffer; and whenever they have run,
every element of the input data at an index other than 0 holds the same value
after phase 2 as before phase 1, while element 0 holds the returned result, the
least element of the data, which is `0` when the data has two elements or
more. -/
theorem reduceSYCLGeneric_input_frame (dev : Device) (sched : List Nat) (junk : Int) (N : Nat)
    (hperm : sched.Perm (List.range (sizing dev ((N * N) % 2 ^ 64)).1)) :
    ((∃ buf, reduceSYCLGenericBuffer dev sched junk N = some buf) ↔
      (0 < (N * N) % 2 ^ 64 ∧ 0 < (sizing dev ((N * N) % 2 ^ 64)).1 ∧
        0 < (sizing dev ((N * N) % 2 ^ 64)).2 ∧
        ((sizing dev ((N * N) % 2 ^ 64)).1 - 1) * (sizing dev ((N * N) % 2 ^ 64)).2 <
          (N * N) % 2 ^ 64)) ∧
    ∀ buf, reduceSYCLGenericBuffer dev sched junk N = some buf →
      buf.length = (prepareSYCLBuffer ((N * N) % 2 ^ 64)).length ∧
      (∀ i : Nat, i ≠ 0 → buf[i]? = (prepareSYCLBuffer ((N * N) % 2 ^ 64))[i]?) ∧
      ∃ c, buf[0]? = some c ∧ reduceSYCLGeneric dev sched junk N = some c ∧
        c ∈ prepareSYCLBuffer ((N * N) % 2 ^ 64) ∧
        (∀ v ∈ prepareSYCLBuffer ((N * N) % 2 ^ 64), c ≤ v) ∧
        (2 ≤ (N * N) % 2 ^ 64 → c = 0) := by
  have hlt : (N * N) % 2 ^ 64 < 2 ^ 64 := Nat.mod_lt _ (by decide)
  rcases reduceSYCLGenericBuffer_cases dev sched junk N hperm with ⟨hbad, hnone⟩ | ⟨hgood, h⟩
  · refine ⟨⟨fun ⟨buf, hb⟩ => ?_, fun hg => ?_⟩, fun buf hb => ?_⟩
    · rw [hnone] at hb; cases hb
    · omega
    · rw [hnone] at hb; cases hb
  · obtain ⟨c, buf, hrun, hlen, h0, hmem, hle, hc0, _⟩ := h
    refine ⟨⟨fun _ => hgood, fun _ => ⟨buf, hrun⟩⟩, fun buf1 hb1 => ?_⟩
    have hbb : buf1 = buf := by
      rw [hrun] at hb1
      exact (Option.some.inj hb1).symm
    subst hbb
    obtain ⟨hs, hG, hW, hin⟩ := hgood
    obtain ⟨buf2, hrun2, hkeep⟩ := parallel_reduce_1d_prepared junk dev sched _ hlt hG hW hin hperm
    rw [← reduceSYCLGenericBuffer_eq dev sched junk N hs, hrun] at hrun2
    have hb2 : buf1 = buf2 := Option.some.inj hrun2
    subst hb2
    refine ⟨by rw [hlen, prepareSYCLBuffer_length], hkeep, c, h0, ?_, hmem, hle, hc0⟩
    rw [reduceSYCLGeneric_of_some _ _ _ _ buf1 hrun, h0]

/-- The harness run, `N = 128`, on a CPU with 8 compute units and native vector
width 4 (8 groups of 8 workers): both phases run to their end, the 16383
elements at the indices `1, ..., 16383` are unchanged, and element 0 holds
`0`. -/
theorem reduceSYCLGeneric_input_frame_witness :
    ∃ buf, reduceSYCLGenericBuffer ⟨true, 8, 4, 0⟩ (List.range 8) 0 128 = some buf ∧
      (∀ i : Nat, i ≠ 0 → buf[i]? = (prepareSYCLBuffer ((128 * 128) % 2 ^ 64))[i]?) ∧
      buf[0]? = some 0 := by
  have h := reduceSYCLGeneric_input_frame ⟨true, 8, 4, 0⟩ (List.range 8) 0 128
    (List.Perm.refl _)
  obtain ⟨buf, hb⟩ := h.1.mpr ⟨by decide, by decide, by decide, by decide⟩
  obtain ⟨_, hfr, c, h0, _, _, _, hc0⟩ := h.2 buf hb
  exact ⟨buf, hb, hfr, by rw [h0, hc0 (by decide)]⟩

/-- When the sizing stays inside the buffer, any two invocations of
`reduceSYCLGeneric` on the freshly prepared data, whatever the order in which
each runs its groups and whatever scratch memory initially holds in each, return
a value, and the same one. -/
theorem reduceSYCLGeneric_same_result (dev : Device) (N : Nat) (sched1 sched2 : List Nat)
    (junk1 junk2 : Int)
    (hs : 0 < (N * N) % 2 ^ 64)
    (hG : 0 < (sizing dev ((N * N) % 2 ^ 64)).1)
    (hW : 0 < (sizing dev ((N * N) % 2 ^ 64)).2)
    (hin : ((sizing dev ((N * N) % 2 ^ 64)).1 - 1) * (sizing dev ((N * N) % 2 ^ 64)).2 <
      (N * N) % 2 ^ 64)
    (h1 : sched1.Perm (List.range (sizing dev ((N * N) % 2 ^ 64)).1))
    (h2 : sched2.Perm (List.range (sizing dev ((N * N) % 2 ^ 64)).1)) :
    ∃ v, reduceSYCLGeneric dev sched1 junk1 N = some v ∧
      reduceSYCLGeneric dev sched2 junk2 N = some v := by
  rcases reduceSYCLGenericBuffer_cases dev sched1 junk1 N h1 with ⟨hb1, _⟩ | ⟨_, r1⟩
  · omega
  rcases reduceSYCLGenericBuffer_cases dev sched2 junk2 N h2 with ⟨hb2, _⟩ | ⟨_, r2⟩
  · omega
  obtain ⟨c1, buf1, hrun1, _, h01, hm1, hl1, _, _⟩ := r1
  obtain ⟨c2, buf2, hrun2, _, h02, hm2, hl2, _, _⟩ := r2
  have hc : c1 = c2 := le_antisymm (hl1 c2 hm2) (hl2 c1 hm1)
  refine ⟨c1, ?_, ?_⟩
  · rw [reduceSYCLGeneric_of_some _ _ _ _ buf1 hrun1, h01]
  · rw [reduceSYCLGeneric_of_some _ _ _ _ buf2 hrun2, h02, hc]

/-- C10 (the code departs from the claim): on an accelerator with 17 compute
units and work-groups of 256 the harness run `N = 128` asks for 68 groups of 256
workers.  The groups 64 to 67 publish at the indices `16384, ..., 17152`,
outside the buffer of 16384 elements.  Two invocations on the freshly prepared
data, one with the groups in ascending and one in descending order, both leave
the buffer and abort: neither returns a result, so they do not return the
identical result. -/
theorem reduceSYCLGeneric_repeat_out_of_bounds :
    sizing ⟨false, 17, 0, 256⟩ ((128 * 128) % 2 ^ 64) = (68, 256) ∧
    (prepareSYCLBuffer ((128 * 128) % 2 ^ 64)).length ≤ 64 * 256 ∧
    reduceSYCLGeneric ⟨false, 17, 0, 256⟩ (List.range 68) 0 128 = none ∧
    reduceSYCLGeneric ⟨false, 17, 0, 256⟩ (List.range 68).reverse 1 128 = none := by
  have hsz : sizing ⟨false, 17, 0, 256⟩ ((128 * 128) % 2 ^ 64) = (68, 256) := by decide
  refine ⟨hsz, ?_, ?_, ?_⟩
  · rw [prepareSYCLBuffer_length]; decide
  · rcases reduceSYCLGenericBuffer_cases ⟨false, 17, 0, 256⟩ (List.range 68) 0 128
      (by rw [hsz]) with ⟨_, hnone⟩ | ⟨⟨_, _, _, hin⟩, _⟩
    · exact reduceSYCLGeneric_of_none _ _ _ _ hnone
    · rw [hsz] at hin
      exact absurd hin (by decide)
  · rcases reduceSYCLGenericBuffer_cases ⟨false, 17, 0, 256⟩ (List.range 68).reverse 1 128
      (by rw [hsz]; exact List.reverse_perm _) with ⟨_, hnone⟩ | ⟨⟨_, _, _, hin⟩, _⟩
    · exact reduceSYCLGeneric_of_none _ _ _ _ hnone
    · rw [hsz] at hin
      exact absurd hin (by decide)

/-- C18: the minimum reduction of `reduceSYCLGeneric`, over `[0, n)` in place
on a buffer of `n` elements, for every sizing with `groupSize >= 1` and every
order of the groups.  For every group `g < numGroups`: the only worker whose
grid-stride loop reads the index `g * groupSize` is worker `g * groupSize`, the
worker with local id 0 of group `g`; that worker does read it when the index is
inside the buffer; group `g` writes the buffer at that index only, and aborts
when the index is outside the buffer; the value group `g` publishes is the same
on two buffers that differ only in output slots of other groups; and whenever
phase 1 ends, each output index holds the value its group computes when it runs
alone on the original buffer, so no partial result is computed from a slot that
another group has overwritten.  Phase 1 ends exactly when there is no group or
the last output index is inside the buffer. -/
theorem in_place_reuse_consistent (junk : Int) (n G W : Nat) (sched : List Nat)
    (mem : List Int) (hW : 1 ≤ W) (hn : mem.length = n) (hperm : sched.Perm (List.range G)) :
    (∀ g w, g < G → w < G * W → g * W ∈ strideIndices 0 n (G * W) w →
      w = g * W + 0 ∧ w / W = g ∧ w % W = 0) ∧
    (∀ g, g < G → g * W < n → g * W ∈ strideIndices 0 n (G * W) (g * W + 0)) ∧
    (∀ g, g < G → ∀ m : List Int, m.length = n →
      (g * W < n →
        ∃ v, runGroup (minCallbacks junk) ⟨0, n, n⟩ G W m g = some (m.set (g * W) v)) ∧
      (n ≤ g * W → runGroup (minCallbacks junk) ⟨0, n, n⟩ G W m g = none)) ∧
    (∀ g, g < G → g * W < n → ∀ m m' : List Int, m.length = n → m'.length = n →
      (∀ i, (∀ h, h < G → h ≠ g → i ≠ h * W) → m'[i]? = m[i]?) →
      ∃ v, runGroup (minCallbacks junk) ⟨0, n, n⟩ G W m g = some (m.set (g * W) v) ∧
        runGroup (minCallbacks junk) ⟨0, n, n⟩ G W m' g = some (m'.set (g * W) v)) ∧
    (∀ mem1, phase1 (minCallbacks junk) ⟨0, n, n⟩ G W sched mem = some mem1 →
      ∀ g, g < G → ∃ v,
        runGroup (minCallbacks junk) ⟨0, n, n⟩ G W mem g = some (mem.set (g * W) v) ∧
        mem1[g * W]? = some v) ∧
    ((∃ mem1, phase1 (minCallbacks junk) ⟨0, n, n⟩ G W sched mem = some mem1) ↔
      (G = 0 ∨ (G - 1) * W < n)) := by
  have hW0 : W ≠ 0 := by omega
  have hlt : ∀ g, g < G → g * W < G * W := fun g hg => Nat.mul_lt_mul_of_pos_right hg hW
  have hmemG : ∀ g, g ∈ sched ↔ g < G := fun g => by rw [hperm.mem_iff, List.mem_range]
  have hnd : sched.Nodup := hperm.nodup_iff.mpr (List.nodup_range G)
  have hphase : phase1 (minCallbacks junk) ⟨0, n, n⟩ G W sched mem =
      sched.foldlM (runGroup (minCallbacks junk) ⟨0, n, n⟩ G W) mem := by
    simp only [phase1, hW0, if_false]
  have hown : ∀ h, h < G → h * W % (G * W) / W = h := by
    intro h hh
    rw [Nat.mod_eq_of_lt (hlt h hh), Nat.mul_div_cancel _ hW]
  -- phase 1 when every output index is inside the buffer
  have hgood : (G - 1) * W < n → ∃ mem1,
      phase1 (minCallbacks junk) ⟨0, n, n⟩ G W sched mem = some mem1 ∧
      ∀ g, g < G → ∃ v,
        runGroup (minCallbacks junk) ⟨0, n, n⟩ G W mem g = some (mem.set (g * W) v) ∧
        mem1[g * W]? = some v := by
    intro hin
    have hidx : ∀ g, g < G → g * W < n := by
      intro g hg
      have : g * W ≤ (G - 1) * W := Nat.mul_le_mul_right W (by omega)
      omega
    obtain ⟨mem1, hrun, _, _, hvals⟩ := phase1_independent junk n G W hW mem hn sched mem hnd
      (fun g hg => (hmemG g).mp hg) (fun g hg => hidx g ((hmemG g).mp hg)) hn
      (fun _ _ _ => rfl)
    exact ⟨mem1, by rw [hphase]; exact hrun, fun g hg => hvals g ((hmemG g).mpr hg)⟩
  -- phase 1 when the last output index is outside the buffer
  have hbad : 0 < G → n ≤ (G - 1) * W →
      phase1 (minCallbacks junk) ⟨0, n, n⟩ G W sched mem = none := by
    intro hG hout
    obtain ⟨c, hc, hpos⟩ := exists_lower_bound mem
    rw [hphase]
    exact phase1_min_none junk n G W hG hW c hc sched mem hn hpos
      ⟨G - 1, (hmemG _).mpr (by omega), hout⟩
  refine ⟨?_, ?_, ?_, ?_, ?_, ?_⟩
  · intro g w hg hw hmem
    have hT : 0 < G * W := Nat.mul_pos (by omega) hW
    have h := ((mem_strideIndices 0 n (G * W) w hT hw (g * W)).mp hmem).2.2
    simp only [Nat.sub_zero] at h
    rw [Nat.mod_eq_of_lt (hlt g hg)] at h
    subst h
    exact ⟨rfl, Nat.mul_div_cancel _ hW, Nat.mul_mod_left _ _⟩
  · intro g hg hidx
    have hT : 0 < G * W := Nat.mul_pos (by omega) hW
    apply (mem_strideIndices 0 n (G * W) (g * W + 0) hT (by simpa using hlt g hg)
      (g * W)).mpr
    refine ⟨Nat.zero_le _, by simpa using hidx, ?_⟩
    simp only [Nat.sub_zero, Nat.add_zero]
    exact Nat.mod_eq_of_lt (hlt g hg)
  · intro g hg m hm
    constructor
    · intro hidx
      obtain ⟨v, hv, _⟩ := runGroup_congr junk n G W g hg hW m m hm hm hidx
        (fun _ _ _ => rfl)
      exact ⟨v, hv⟩
    · intro hout
      obtain ⟨c, hc, hpos⟩ := exists_lower_bound m
      exact (runGroup_min junk m n G W g (by omega) hW hm c hc hpos).1 hout
  · intro g hg hidx m m' hm hm' hag
    apply runGroup_congr junk n G W g hg hW m m' hm hm' hidx
    intro i _ hio
    apply hag
    intro h hh hne he
    rw [he, hown h hh] at hio
    exact hne hio
  · intro mem1 hrun g hg
    by_cases hin : (G - 1) * W < n
    · obtain ⟨mem1', hrun', hvals⟩ := hgood hin
      rw [hrun] at hrun'
      rw [Option.some.inj hrun']
      exact hvals g hg
    · rw [hbad (by omega) (by omega)] at hrun
      cases hrun
  · constructor
    · rintro ⟨mem1, hrun⟩
      by_contra hno
      rw [hbad (by omega) (by omega)] at hrun
      cases hrun
    · rintro (h0 | hin)
      · subst h0
        have : sched = [] := List.perm_nil.mp (by simpa using hperm)
        subst this
        exact ⟨mem, by rw [hphase]; rfl⟩
      · obtain ⟨mem1, hrun, _⟩ := hgood hin
        exact ⟨mem1, hrun⟩

/-- Two runs.  The harness data for `N = 128` on an accelerator with 17
compute units and work-groups of 256 (68 groups of 256 workers, the last output
index outside the buffer): index `g * 256` is read by the worker with local id
0 of group `g` only, and phase 1 does not end.  Two groups of two workers on the
buffer `[1, 0, 3, 4]` of the harness for `N = 2`, group 1 first: phase 1 ends,
and each output index holds the value its group computes alone on the original
buffer. -/
theorem in_place_reuse_consistent_witness :
    ((∀ g w, g < 68 → w < 68 * 256 → g * 256 ∈ strideIndices 0 16384 (68 * 256) w →
        w = g * 256 + 0 ∧ w / 256 = g ∧ w % 256 = 0) ∧
      ¬ ∃ mem1, phase1 (minCallbacks 0) ⟨0, 16384, 16384⟩ 68 256 (List.range 68)
          (prepareSYCLBuffer 16384) = some mem1) ∧
    ∃ mem1, phase1 (minCallbacks 0) ⟨0, 4, 4⟩ 2 2 [1, 0] [1, 0, 3, 4] = some mem1 ∧
      ∀ g, g < 2 → ∃ v,
        runGroup (minCallbacks 0) ⟨0, 4, 4⟩ 2 2 [1, 0, 3, 4] g =
          some ([1, 0, 3, 4].set (g * 2) v) ∧
        mem1[g * 2]? = some v := by
  have hA := in_place_reuse_consistent 0 16384 68 256 (List.range 68)
    (prepareSYCLBuffer 16384) (by decide) (prepareSYCLBuffer_length 16384) (List.Perm.refl _)
  have hB := in_place_reuse_consistent 0 4 2 2 [1, 0] [1, 0, 3, 4] (by decide) rfl (by decide)
  refine ⟨⟨hA.1, fun h => ?_⟩, ?_⟩
  · exact absurd (hA.2.2.2.2.2.mp h) (by decide)
  · obtain ⟨mem1, hrun⟩ := hB.2.2.2.2.2.mpr (Or.inr (by decide))
    exact ⟨mem1, hrun, hB.2.2.2.2.1 mem1 hrun⟩

end ReductionSycl
